import Mathlib

set_option maxHeartbeats 1000000

/-! Shallow embedding of `LayeredBitmap.py`: a hierarchical (layered) bitmap
index over the universe `[0, W^L)`.

Modelling conventions:
* A `BitmapCore` instance becomes a `Node`; the mutable object heap becomes a
  purely functional tree.  The `parent` back-pointer chain of a node is
  recovered by the stack of ancestors accumulated while descending from the
  root (the arena/back-reference re-architecture the design notes themselves
  prescribe); every other attribute (`size`, `num_layers`, `bitmap`,
  `children`, `parent_index`, `lower_bound`, `layer`) is stored verbatim.
* Python exceptions become `Except Err`; the implicit `None` returned by a
  `for` loop that falls through without hitting a `return` is modelled by the
  distinguished error `Err.pyNone` (it is unreachable for `num_layers ≥ 2`).
* Python arbitrary-precision integers become `Nat` (for positions, words and
  indices) and `Int` (for results and arguments that can be `-1`); bitwise
  expressions are translated to the corresponding `Nat` operations, with the
  two's-complement identities recorded in comments at their use sites.
* In-place mutation of a child object reached through `children[i]` becomes a
  functional write-back (`Node.with_child`).
-/

/-- Python exception kinds raised by the source, with the messages of the
`raise` statements.  `pyNone` marks a code path on which the Python function
would implicitly return `None` (a fall-through of a bounded `for` loop). -/
inductive Err : Type where
  | valueError (msg : String) : Err
  | indexError (msg : String) : Err
  | pyNone : Err
deriving DecidableEq

/-- A `BitmapCore` object (`LayeredBitmap.py`, class `BitmapCore`): one
`size`-bit word, `size` child slots, and the metadata stamped by
`assign_child`.  The `parent` pointer is not a field; it is reconstructed from
the descent stack (see the header comment). -/
inductive Node : Type where
  | mk (size num_layers bitmap : Nat) (children : List (Option Node))
      (parent_index lower_bound layer : Nat) : Node

/-- Attribute `self.size`. -/
def Node.size : Node → Nat
  | .mk s _ _ _ _ _ _ => s

/-- Attribute `self.num_layers`. -/
def Node.num_layers : Node → Nat
  | .mk _ nl _ _ _ _ _ => nl

/-- Attribute `self.bitmap`. -/
def Node.bitmap : Node → Nat
  | .mk _ _ b _ _ _ _ => b

/-- Attribute `self.children`. -/
def Node.children : Node → List (Option Node)
  | .mk _ _ _ c _ _ _ => c

/-- Attribute `self.parent_index`. -/
def Node.parent_index : Node → Nat
  | .mk _ _ _ _ pi _ _ => pi

/-- Attribute `self.lower_bound`. -/
def Node.lower_bound : Node → Nat
  | .mk _ _ _ _ _ lb _ => lb

/-- Attribute `self.layer`. -/
def Node.layer : Node → Nat
  | .mk _ _ _ _ _ _ ly => ly

/-- Fuel-driven helper for `py_bit_length`.  The fuel only bounds the
recursion depth; any fuel of at least `n` computes the same value. -/
def py_bit_length_aux : Nat → Nat → Nat
  | 0, _ => 0
  | fuel + 1, n => if n = 0 then 0 else py_bit_length_aux fuel (n / 2) + 1

/-- Python `int.bit_length()` restricted to nonnegative integers: the number
of binary digits of `n`, and `0` for `n = 0`. -/
def py_bit_length (n : Nat) : Nat := py_bit_length_aux n n

/-- `BitmapCore._find_next_bm(b, pos)`.  The source first offsets `pos` by
`-1` and then computes `masked_b = b & ~((1 << (pos + 1)) - 1)`, i.e. it
clears the bits of `b` strictly below the original `pos` (for `pos = 0` the
Python mask is `& ~0`, a no-op); on `Nat` this is `b >>> pos <<< pos`.  The
two's-complement lowest-set-bit isolate `masked_b & -masked_b` equals
`masked_b ^^^ (masked_b &&& (masked_b - 1))` (clear the lowest set bit, then
XOR against the original). -/
def find_next_bm (b pos : Nat) : Int :=
  let masked_b := b >>> pos <<< pos
  if masked_b = 0 then -1
  else
    let lsb := masked_b ^^^ (masked_b &&& (masked_b - 1))
    (py_bit_length lsb : Int)

/-- `BitmapCore._find_previous_bm(b, pos)`: mask with `(1 << pos) - 1`,
return `-1` if nothing is left, otherwise the bit length of the mask
result. -/
def find_previous_bm (b pos : Nat) : Int :=
  let x1 := b &&& ((1 <<< pos) - 1)
  if x1 = 0 then -1
  else (py_bit_length x1 : Int)

/-- `BitmapCore.set_bit`.  Clearing a bit (`value = 0`) is
`self.bitmap &= ~(1 << index)`, which on `Nat` is a conditional subtract of
`1 <<< index`. -/
def Node.set_bit (n : Node) (index value : Nat) : Except Err Node :=
  if n.size ≤ index then .error (.indexError "Bit index out of range.")
  else if value ≠ 0 ∧ value ≠ 1 then .error (.valueError "Bit value must be 0 or 1.")
  else if value = 1 then
    .ok (Node.mk n.size n.num_layers (n.bitmap ||| (1 <<< index)) n.children
      n.parent_index n.lower_bound n.layer)
  else
    .ok (Node.mk n.size n.num_layers
      (if n.bitmap.testBit index then n.bitmap - (1 <<< index) else n.bitmap) n.children
      n.parent_index n.lower_bound n.layer)

/-- `BitmapCore.get_bit`. -/
def Node.get_bit (n : Node) (index : Nat) : Except Err Nat :=
  if n.size ≤ index then .error (.indexError "Bit index out of range.")
  else .ok ((n.bitmap >>> index) &&& 1)

/-- `BitmapCore.assign_child`: install `child` at slot `index` and stamp
`parent_index`, `layer`, `lower_bound` and `num_layers` on the child.  (The
`isinstance` check cannot fail in this embedding; the `parent` stamp is
represented by the descent stack.) -/
def Node.assign_child (n : Node) (index : Nat) (child : Node) : Except Err Node :=
  if n.size ≤ index then .error (.indexError "Child index out of range.")
  else
    let child' := Node.mk child.size n.num_layers child.bitmap child.children index
      (n.lower_bound + index * n.size ^ (n.num_layers - n.layer - 1)) (n.layer + 1)
    .ok (Node.mk n.size n.num_layers n.bitmap (n.children.set index (some child'))
      n.parent_index n.lower_bound n.layer)

/-- Functional write-back of an updated child object: the image of mutating
the shared object obtained from `children[index]` in place. -/
def Node.with_child (n : Node) (index : Nat) (child : Node) : Node :=
  Node.mk n.size n.num_layers n.bitmap (n.children.set index (some child))
    n.parent_index n.lower_bound n.layer

/-- `BitmapCore.find_next` (method): delegate to the bit primitive on the
node's word. -/
def Node.find_next (n : Node) (pos : Nat) : Int := find_next_bm n.bitmap pos

/-- `BitmapCore.find_previous` (method). -/
def Node.find_previous (n : Node) (pos : Nat) : Int := find_previous_bm n.bitmap pos

/-- Python truthiness of a `BitmapCore` instance: the class defines neither
`__bool__` nor `__len__`, so every instance is truthy. -/
def Node.pyTruthy (_ : Node) : Bool := true

/-- Python list subscript `l[i]` on a children list: negative indices wrap
around once by the list length; an index that is still out of range raises
`IndexError`. -/
def childAt (l : List (Option Node)) (i : Int) : Except Err (Option Node) :=
  let j : Int := if i < 0 then i + l.length else i
  if j < 0 then .error (.indexError "list index out of range")
  else
    match l[j.toNat]? with
    | some x => .ok x
    | none => .error (.indexError "list index out of range")

/-- `BitmapCore.__init__(size, num_layers, bitmap)`: a fresh node with the
given word, no children, and zeroed metadata (negative-value checks are
vacuous on `Nat`). -/
def BitmapCore.new (size num_layers bitmap : Nat) : Except Err Node :=
  if size = 0 then .error (.valueError "Size must be a positive integer.")
  else if 1 <<< size ≤ bitmap then .error (.valueError "Bitmap exceeds the size limit.")
  else .ok (Node.mk size num_layers bitmap (List.replicate size none) 0 0 0)

/-- The `LayeredBitmap` object: the tree handle. -/
structure LayeredBitmap : Type where
  num_layers : Nat
  base_bitmap : Node
  bitmap_size : Nat

/-- `LayeredBitmap.__init__(num_layers, bitmap_size)`.  The first guard is
transcribed verbatim from the source: `num_layers < 5 and num_layers > 8`,
a conjunction (not a disjunction), so it never fires. -/
def LayeredBitmap.init (num_layers bitmap_size : Nat) : Except Err LayeredBitmap :=
  if num_layers < 5 ∧ 8 < num_layers then
    .error (.valueError "Number of layers must be between 5 and 8. Upper range is calculated by bitmap_size^num_layers. Defaults are num_layers=6 and bitmap_size=64 (0 - 68,719,476,736)")
  else if bitmap_size ≠ 32 ∧ bitmap_size ≠ 64 then
    .error (.valueError "Bitmap size must be 32 or 64. Upper range is calculated by bitmap_size^num_layers. Defaults are num_layers=6 and bitmap_size=64 (0 - 68,719,476,736)")
  else
    (BitmapCore.new bitmap_size num_layers 0).map fun root =>
      ⟨num_layers, root, bitmap_size⟩

/-- Body of the `for layer_index in range(1, num_layers)` loop of
`LayeredBitmap.set`, one fuel unit per iteration.  `W` is
`self.base_bitmap.size` (used for `chopper`), `bmW` is `self.bitmap_size`
(used for fresh child nodes); in every constructed tree the two agree.
Mutation of the shared child object is rendered as a write-back. -/
def LayeredBitmap.set_loop (W bmW L pos : Nat) :
    Nat → Nat → Nat → Node → Except Err Node
  | 0, _, _, target => .ok target
  | fuel + 1, layer_index, offset_sofar, target => do
    let chopper := W ^ (L - layer_index - 1)
    let pospos := pos - offset_sofar
    let relative_pos := pospos / chopper
    let target ← target.set_bit relative_pos 1
    if layer_index < L - 1 then do
      let c ← childAt target.children (relative_pos : Int)
      let target ← match c with
        | none => do target.assign_child relative_pos (← BitmapCore.new bmW L 0)
        | some _ => pure target
      match ← childAt target.children (relative_pos : Int) with
      | some child => do
        let child ← LayeredBitmap.set_loop W bmW L pos fuel (layer_index + 1)
          (offset_sofar + relative_pos * chopper) child
        .ok (target.with_child relative_pos child)
      | none => .error .pyNone
    else .ok target

/-- `LayeredBitmap.set(pos)`: range check, root step (layer 0), then the
loop over layers `1 .. num_layers - 1`. -/
def LayeredBitmap.set (t : LayeredBitmap) (pos : Int) : Except Err LayeredBitmap := do
  if pos < 0 ∨ ((t.base_bitmap.size ^ t.num_layers : Nat) : Int) ≤ pos then
    .error (.valueError "Position out of range.")
  else
    let p := pos.toNat
    let chopper := t.base_bitmap.size ^ (t.num_layers - 1)
    let relative_pos := p / chopper
    let root ← t.base_bitmap.set_bit relative_pos 1
    let c ← childAt root.children (relative_pos : Int)
    let root ← match c with
      | none => do root.assign_child relative_pos (← BitmapCore.new t.bitmap_size t.num_layers 0)
      | some _ => pure root
    match ← childAt root.children (relative_pos : Int) with
    | some target => do
      let target ← LayeredBitmap.set_loop t.base_bitmap.size t.bitmap_size t.num_layers p
        (t.num_layers - 1) 1 (relative_pos * chopper) target
      .ok ⟨t.num_layers, root.with_child relative_pos target, t.bitmap_size⟩
    | none => .error .pyNone

/-- Body of the `for layer_index in range(1, num_layers)` loop of
`LayeredBitmap.get`. -/
def LayeredBitmap.get_loop (W L pos : Nat) : Nat → Nat → Nat → Node → Except Err Nat
  | 0, _, _, _ => .error .pyNone
  | fuel + 1, layer_index, offset_sofar, target => do
    let chopper := W ^ (L - layer_index - 1)
    let pospos := pos - offset_sofar
    let relative_pos := pospos / chopper
    if layer_index < L - 1 then
      match ← childAt target.children (relative_pos : Int) with
      | none => .ok 0
      | some child =>
        LayeredBitmap.get_loop W L pos fuel (layer_index + 1)
          (offset_sofar + relative_pos * chopper) child
    else
      target.get_bit relative_pos

/-- `LayeredBitmap.get(pos)`.  When the root has no child at the leading
digit the source raises `ValueError("The whole bitmap is empty.")` instead of
returning 0. -/
def LayeredBitmap.get (t : LayeredBitmap) (pos : Int) : Except Err Nat := do
  if pos < 0 ∨ ((t.base_bitmap.size ^ t.num_layers : Nat) : Int) ≤ pos then
    .error (.valueError "Position out of range.")
  else
    let p := pos.toNat
    let chopper := t.base_bitmap.size ^ (t.num_layers - 1)
    let relative_pos := p / chopper
    match ← childAt t.base_bitmap.children (relative_pos : Int) with
    | none => .error (.valueError "The whole bitmap is empty.")
    | some target =>
      LayeredBitmap.get_loop t.base_bitmap.size t.num_layers p (t.num_layers - 1) 1
        (relative_pos * chopper) target

/-- Body of the descent loop of `LayeredBitmap.go_current`.  Besides the
source's `(target, relative_pos)` result it also returns the stack of strict
ancestors of `target` (immediate parent first, root last); this stack is the
functional stand-in for the `parent` pointers used afterwards by
`find_next`/`find_previous`. -/
def LayeredBitmap.go_loop (W L pos : Nat) :
    Nat → Nat → Nat → Node → List Node → Except Err (List Node × Node × Nat)
  | 0, _, _, _, _ => .error .pyNone
  | fuel + 1, layer_index, offset_sofar, target, anc => do
    let chopper := W ^ (L - layer_index - 1)
    let pospos := pos - offset_sofar
    let relative_pos := pospos / chopper
    if layer_index < L - 1 then
      match ← childAt target.children (relative_pos : Int) with
      | none => .ok (anc, target, relative_pos)
      | some child =>
        LayeredBitmap.go_loop W L pos fuel (layer_index + 1)
          (offset_sofar + relative_pos * chopper) child (target :: anc)
    else .ok (anc, target, relative_pos)

/-- `LayeredBitmap.go_current(pos)`: descend along the digits of `pos` as far
as existing children allow. -/
def LayeredBitmap.go_current (t : LayeredBitmap) (pos : Int) :
    Except Err (List Node × Node × Nat) := do
  if pos < 0 ∨ ((t.base_bitmap.size ^ t.num_layers : Nat) : Int) ≤ pos then
    .error (.valueError "Position out of range.")
  else
    let p := pos.toNat
    let chopper := t.base_bitmap.size ^ (t.num_layers - 1)
    let relative_pos := p / chopper
    match ← childAt t.base_bitmap.children (relative_pos : Int) with
    | none => .ok ([], t.base_bitmap, relative_pos)
    | some target =>
      LayeredBitmap.go_loop t.base_bitmap.size t.num_layers p (t.num_layers - 1) 1
        (relative_pos * chopper) target [t.base_bitmap]

/-- Inner `for j in range(10)` loop of `LayeredBitmap.find_next`: descend from
a level with a hit towards the leftmost member below it.  Python's
`child.children[ret - 1]` is a plain list subscript, so `ret - 1` may be
negative (then it wraps). -/
def LayeredBitmap.find_next_desc : Nat → Node → Int → Except Err Int
  | 0, _, _ => .ok (-100000)
  | fuel + 1, child, ret => do
    match ← childAt child.children (ret - 1) with
    | none => .ok ((child.lower_bound : Int) + ret - 1)
    | some c => LayeredBitmap.find_next_desc fuel c (c.find_next 0)

/-- Outer `for i in range(10)` loop of `LayeredBitmap.find_next`.  `is_later`
is `i > 0`: from the second iteration on, first move to the parent (pop the
ancestor stack; an empty stack is Python's `parent = None`). -/
def LayeredBitmap.find_next_loop : Nat → Bool → Option Node → List Node → Nat → Except Err Int
  | 0, _, _, _, _ => .ok (-100000)
  | fuel + 1, is_later, parent0, anc0, parent_index =>
    let pa : Option Node × List Node :=
      if is_later then
        match anc0 with
        | a :: rest => (some a, rest)
        | [] => (none, [])
      else (parent0, anc0)
    match pa with
    | (none, _) => .ok (-1)
    | (some parent, anc) =>
      let ret := parent.find_next (parent_index + 1)
      if -1 < ret then LayeredBitmap.find_next_desc 10 parent ret
      else LayeredBitmap.find_next_loop fuel true (some parent) anc parent.parent_index

/-- `LayeredBitmap.find_next(pos)`.  The `if not target: return 0` guard is
transcribed through `Node.pyTruthy`; it can never fire. -/
def LayeredBitmap.find_next (t : LayeredBitmap) (pos : Int) : Except Err Int := do
  let (anc, target, curpos) ← t.go_current pos
  if target.pyTruthy = false then .ok 0
  else LayeredBitmap.find_next_loop 10 false (some target) anc curpos

/-- Inner `for j in range(10)` loop of `LayeredBitmap.find_previous`: descend
towards the rightmost member.  `W` is `self.bitmap_size`. -/
def LayeredBitmap.find_previous_desc (W : Nat) : Nat → Node → Int → Except Err Int
  | 0, _, _ => .ok (-100000)
  | fuel + 1, child, ret => do
    match ← childAt child.children (ret - 1) with
    | none => .ok ((child.lower_bound : Int) + ret - 1)
    | some c => LayeredBitmap.find_previous_desc W fuel c (c.find_previous W)

/-- Outer `for i in range(10)` loop of `LayeredBitmap.find_previous`. -/
def LayeredBitmap.find_previous_loop (W : Nat) :
    Nat → Bool → Option Node → List Node → Nat → Except Err Int
  | 0, _, _, _, _ => .ok (-100000)
  | fuel + 1, is_later, parent0, anc0, parent_index =>
    let pa : Option Node × List Node :=
      if is_later then
        match anc0 with
        | a :: rest => (some a, rest)
        | [] => (none, [])
      else (parent0, anc0)
    match pa with
    | (none, _) => .ok (-1)
    | (some parent, anc) =>
      let ret := parent.find_previous parent_index
      if -1 < ret then LayeredBitmap.find_previous_desc W 10 parent ret
      else LayeredBitmap.find_previous_loop W fuel true (some parent) anc parent.parent_index

/-- `LayeredBitmap.find_previous(pos)`. -/
def LayeredBitmap.find_previous (t : LayeredBitmap) (pos : Int) : Except Err Int := do
  let (anc, target, curpos) ← t.go_current pos
  if target.pyTruthy = false then .ok 0
  else LayeredBitmap.find_previous_loop t.bitmap_size 10 false (some target) anc curpos

/-- Body of the `for i in range(num_loops)` loop of
`LayeredBitmap.traverse_forward`; when the loop falls through the Python
function returns `None` (result `none`). -/
def LayeredBitmap.traverse_forward_loop (t : LayeredBitmap) :
    Nat → Int → List Int → Except Err (Option (List Int))
  | 0, _, _ => .ok none
  | fuel + 1, ret, output => do
    let r ← t.find_next ret
    if r = -1 then .ok (some output)
    else LayeredBitmap.traverse_forward_loop t fuel r (output ++ [r])

/-- `LayeredBitmap.traverse_forward(pos)`; the source's default argument is
`pos = 0`. -/
def LayeredBitmap.traverse_forward (t : LayeredBitmap) (pos : Int) :
    Except Err (Option (List Int)) :=
  LayeredBitmap.traverse_forward_loop t (t.bitmap_size ^ t.num_layers) pos []

/-- Body of the loop of `LayeredBitmap.traverse_backward`. -/
def LayeredBitmap.traverse_backward_loop (t : LayeredBitmap) :
    Nat → Int → List Int → Except Err (Option (List Int))
  | 0, _, _ => .ok none
  | fuel + 1, ret, output => do
    let r ← t.find_previous ret
    if r = -1 then .ok (some output)
    else LayeredBitmap.traverse_backward_loop t fuel r (output ++ [r])

/-- `LayeredBitmap.traverse_backward(pos)`; the source's default argument is
`pos = 0`, and `ret = pos if pos else num_loops - 1` replaces a falsy (zero)
start with `num_loops - 1`. -/
def LayeredBitmap.traverse_backward (t : LayeredBitmap) (pos : Int) :
    Except Err (Option (List Int)) :=
  let num_loops := t.bitmap_size ^ t.num_layers
  let ret : Int := if pos ≠ 0 then pos else (num_loops : Int) - 1
  LayeredBitmap.traverse_backward_loop t num_loops ret []

/-- `LayeredBitmap.insert(vals)`: a sequence of `set` calls. -/
def LayeredBitmap.insert (t : LayeredBitmap) (vals : List Int) : Except Err LayeredBitmap :=
  vals.foldlM LayeredBitmap.set t

/-- Construct a tree with `LayeredBitmap.__init__(num_layers, bitmap_size)`
and perform one `set` call per element of `xs`, in order. -/
def buildTree (num_layers bitmap_size : Nat) (xs : List Nat) : Except Err LayeredBitmap := do
  let t ← LayeredBitmap.init num_layers bitmap_size
  xs.foldlM (fun t (x : Nat) => t.set (x : Int)) t

/-- Semantic membership: `subMem W d n r` holds when the relative position
`r` (an offset from the node's lower bound) is a member of the subtree of a
node that has `d` layers below it, the node's own layer included (so a leaf
has `d = 1` and the root of an `L`-layer tree has `d = L`). -/
def subMem (W : Nat) : Nat → Node → Nat → Bool
  | 0, _, _ => false
  | 1, n, r => n.bitmap.testBit r
  | d + 2, n, r =>
    match n.children[r / W ^ (d + 1)]? with
    | some (some c) => subMem W (d + 1) c (r % W ^ (d + 1))
    | _ => false

/-- Well-formedness of a node with `d` layers remaining and absolute lower
bound `lb` inside a `(W, L)` tree: the stored attributes are consistent with
the position of the node, the word has width `W`, leaves have no children,
and an interior node has a child at slot `i` exactly when bit `i` of its word
is set, every such child being well-formed, non-empty and correctly
stamped. -/
def WFNode (W L : Nat) : Nat → Node → Nat → Prop
  | 0, _, _ => False
  | 1, n, lb =>
    n.size = W ∧ n.num_layers = L ∧ n.layer = L - 1 ∧ n.lower_bound = lb ∧
    n.children.length = W ∧ (∀ i, i < W → n.children[i]? = some none) ∧
    n.bitmap < 2 ^ W
  | d + 2, n, lb =>
    n.size = W ∧ n.num_layers = L ∧ n.layer = L - (d + 2) ∧ n.lower_bound = lb ∧
    n.children.length = W ∧ n.bitmap < 2 ^ W ∧
    ∀ i, i < W →
      (n.bitmap.testBit i = true ↔ ∃ c, n.children[i]? = some (some c)) ∧
      ∀ c, n.children[i]? = some (some c) →
        WFNode W L (d + 1) c (lb + i * W ^ (d + 1)) ∧ c.parent_index = i ∧ c.bitmap ≠ 0

/-- Well-formedness of a tree handle: the root's stored word size agrees with
`bitmap_size`, and the root is a well-formed node at depth `num_layers` with
lower bound 0. -/
def WFTree (t : LayeredBitmap) : Prop :=
  t.base_bitmap.size = t.bitmap_size ∧
  WFNode t.bitmap_size t.num_layers t.num_layers t.base_bitmap 0

/-- Semantic member set of a tree. -/
def treeMem (t : LayeredBitmap) (x : Nat) : Bool :=
  subMem t.bitmap_size t.num_layers t.base_bitmap x

/-- Coherence of the ancestor stack produced by `go_current`: `anc` lists the
strict ancestors of a node sitting at depth-from-leaves `d` and lower bound
`lb`, immediate parent first and the tree's root `R` last; every link is a
real child link, the stored `parent_index` names the slot, and the lower
bounds fit together. -/
def AncOK (W L : Nat) (R : Node) : List Node → Node → Nat → Nat → Prop
  | [], n, d, lb => n = R ∧ d = L ∧ lb = 0
  | a :: rest, n, d, lb =>
    ∃ i, i < W ∧ n.parent_index = i ∧ lb = a.lower_bound + i * W ^ d ∧
      a.children[i]? = some (some n) ∧ WFNode W L (d + 1) a a.lower_bound ∧
      AncOK W L R rest a (d + 1) a.lower_bound

/-- Outcome specification of the successor search against the member set of
the root `R`: either `-1` with no member above `x`, or the least member
strictly above `x`. -/
def NextSpec (W L : Nat) (R : Node) (x : Nat) (v : Int) : Prop :=
  (v = -1 ∧ ∀ s, s < W ^ L → subMem W L R s = true → s ≤ x) ∨
  (∃ m : Nat, v = (m : Int) ∧ m < W ^ L ∧ subMem W L R m = true ∧ x < m ∧
    ∀ s, s < W ^ L → subMem W L R s = true → x < s → m ≤ s)

/-- Outcome specification of the predecessor search against the member set of
the root `R`: either `-1` with no member below `x`, or the greatest member
strictly below `x`. -/
def PrevSpec (W L : Nat) (R : Node) (x : Nat) (v : Int) : Prop :=
  (v = -1 ∧ ∀ s, s < W ^ L → subMem W L R s = true → x ≤ s) ∨
  (∃ m : Nat, v = (m : Int) ∧ m < W ^ L ∧ subMem W L R m = true ∧ m < x ∧
    ∀ s, s < W ^ L → subMem W L R s = true → s < x → s ≤ m)

/-- The claim's version of the bit primitive, modelled from the spec's words
for comparison: mask `b` by clearing bits `0..p` **inclusive of bit `p`**,
then take the bit length of the lowest-set-bit isolate, `-1` when the masked
word is zero. -/
def next_set_claim (b p : Nat) : Int :=
  let masked_b := b >>> (p + 1) <<< (p + 1)
  if masked_b = 0 then -1
  else
    let lsb := masked_b ^^^ (masked_b &&& (masked_b - 1))
    (py_bit_length lsb : Int)

/-- A node of the tree named by the list of child slot indices leading to it
from the given node (the root, at the use sites): the functional reading of
"node of the tree". -/
def nodeAtPath (n : Node) : List Nat → Option Node
  | [] => some n
  | i :: rest =>
    match n.children[i]? with
    | some (some c) => nodeAtPath c rest
    | _ => none

/-- State-passing embeddings of the five query methods: every assignment in
the Python bodies of `get`, `go_current`, `find_next`, `find_previous`,
`traverse_forward` and `traverse_backward` rebinds a local variable; none
stores to an attribute of the tree or of a node, so the tree component of
each call's outcome is the input tree itself. -/
def LayeredBitmap.get_call (t : LayeredBitmap) (pos : Int) :
    LayeredBitmap × Except Err Nat := (t, t.get pos)

/-- State-passing embedding of `find_next` (see `LayeredBitmap.get_call`). -/
def LayeredBitmap.find_next_call (t : LayeredBitmap) (pos : Int) :
    LayeredBitmap × Except Err Int := (t, t.find_next pos)

/-- State-passing embedding of `find_previous`. -/
def LayeredBitmap.find_previous_call (t : LayeredBitmap) (pos : Int) :
    LayeredBitmap × Except Err Int := (t, t.find_previous pos)

/-- State-passing embedding of `traverse_forward`. -/
def LayeredBitmap.traverse_forward_call (t : LayeredBitmap) (pos : Int) :
    LayeredBitmap × Except Err (Option (List Int)) := (t, t.traverse_forward pos)

/-- State-passing embedding of `traverse_backward`. -/
def LayeredBitmap.traverse_backward_call (t : LayeredBitmap) (pos : Int) :
    LayeredBitmap × Except Err (Option (List Int)) := (t, t.traverse_backward pos)

/-! ### Characterisation of `py_bit_length` and the word-level primitives -/

theorem py_bit_length_aux_zero : ∀ f, py_bit_length_aux f 0 = 0
  | 0 => rfl
  | _ + 1 => by simp [py_bit_length_aux]

theorem py_bit_length_aux_congr : ∀ f g n, n ≤ f → n ≤ g →
    py_bit_length_aux f n = py_bit_length_aux g n := by
  intro f
  induction f with
  | zero =>
    intro g n hf _
    have hn : n = 0 := Nat.le_zero.mp hf
    subst hn
    rw [py_bit_length_aux_zero, py_bit_length_aux_zero]
  | succ f ih =>
    intro g n hf hg
    rcases Nat.eq_zero_or_pos n with hn | hn
    · subst hn
      rw [py_bit_length_aux_zero, py_bit_length_aux_zero]
    · obtain ⟨g', rfl⟩ : ∃ g', g = g' + 1 := by
        rcases g with _ | g'
        · omega
        · exact ⟨g', rfl⟩
      have hne : n ≠ 0 := Nat.pos_iff_ne_zero.mp hn
      simp only [py_bit_length_aux, hne, if_false]
      have hdiv : n / 2 < n := Nat.div_lt_self hn (by omega)
      rw [ih g' (n / 2) (by omega) (by omega)]

theorem py_bit_length_succ_eq (n : Nat) (h : n ≠ 0) :
    py_bit_length n = py_bit_length (n / 2) + 1 := by
  obtain ⟨m, rfl⟩ := Nat.exists_eq_succ_of_ne_zero h
  show py_bit_length_aux (m + 1) (m + 1) = _
  simp only [py_bit_length_aux, Nat.succ_ne_zero, if_false]
  have hle : (m + 1) / 2 ≤ m := by omega
  rw [py_bit_length_aux_congr m ((m + 1) / 2) ((m + 1) / 2) hle (Nat.le_refl _)]
  rfl

theorem py_bit_length_pos (n : Nat) (h : n ≠ 0) : 1 ≤ py_bit_length n := by
  rw [py_bit_length_succ_eq n h]
  omega

theorem py_bit_length_bounds (n : Nat) (h : n ≠ 0) :
    2 ^ (py_bit_length n - 1) ≤ n ∧ n < 2 ^ py_bit_length n := by
  induction n using Nat.strong_induction_on with
  | _ n ih =>
    rcases Nat.lt_or_ge n 2 with hn | hn
    · have hn1 : n = 1 := by omega
      subst hn1
      exact ⟨by decide, by decide⟩
    · have hhalf : n / 2 ≠ 0 := by omega
      have hlt : n / 2 < n := Nat.div_lt_self (by omega) (by omega)
      obtain ⟨ihl, ihr⟩ := ih (n / 2) hlt hhalf
      have hbl : py_bit_length n = py_bit_length (n / 2) + 1 := py_bit_length_succ_eq n h
      set k := py_bit_length (n / 2) with hk
      have hk1 : 1 ≤ k := py_bit_length_pos _ hhalf
      have hpow : 2 ^ k = 2 * 2 ^ (k - 1) := by
        conv_lhs => rw [show k = (k - 1) + 1 by omega]
        rw [Nat.pow_succ]
        ring
      have hpow2 : 2 ^ (k + 1) = 2 * 2 ^ k := by
        rw [Nat.pow_succ]
        ring
      rw [hbl]
      constructor
      · simp only [Nat.add_sub_cancel]
        omega
      · omega

theorem py_bit_length_pow (t : Nat) : py_bit_length (2 ^ t) = t + 1 := by
  induction t with
  | zero => rfl
  | succ t ih =>
    have hne : 2 ^ (t + 1) ≠ 0 := Nat.pos_iff_ne_zero.mp (Nat.pos_pow_of_pos _ (by omega))
    rw [py_bit_length_succ_eq _ hne]
    have : 2 ^ (t + 1) / 2 = 2 ^ t := by
      rw [Nat.pow_succ]
      exact Nat.mul_div_cancel _ (by omega)
    rw [this, ih]

theorem py_bit_length_eq_of_bounds (n k : Nat) (h1 : 2 ^ k ≤ n) (h2 : n < 2 ^ (k + 1)) :
    py_bit_length n = k + 1 := by
  have hn : n ≠ 0 := by
    have : 1 ≤ 2 ^ k := Nat.one_le_two_pow
    omega
  obtain ⟨l1, l2⟩ := py_bit_length_bounds n hn
  have hbl1 : 1 ≤ py_bit_length n := py_bit_length_pos n hn
  have hub : py_bit_length n - 1 < k + 1 := by
    by_contra hcon
    have : 2 ^ (k + 1) ≤ 2 ^ (py_bit_length n - 1) :=
      Nat.pow_le_pow_right (by omega) (by omega)
    omega
  have hlb : k < py_bit_length n := by
    by_contra hcon
    have : 2 ^ py_bit_length n ≤ 2 ^ k := Nat.pow_le_pow_right (by omega) (by omega)
    omega
  omega

theorem lt_two_pow_of_high_bits (x k : Nat) (h : ∀ i, k ≤ i → x.testBit i = false) :
    x < 2 ^ k := by
  have hx : x % 2 ^ k = x := by
    apply Nat.eq_of_testBit_eq
    intro i
    rw [Nat.testBit_mod_two_pow]
    by_cases hik : i < k
    · simp [hik]
    · simp [hik, h i (Nat.le_of_not_lt hik)]
  calc x = x % 2 ^ k := hx.symm
    _ < 2 ^ k := Nat.mod_lt _ (Nat.pos_pow_of_pos _ (by omega))

theorem mod_two_pow_eq_zero_of_low_bits (m t : Nat) (h : ∀ j, j < t → m.testBit j = false) :
    m % 2 ^ t = 0 := by
  apply Nat.eq_of_testBit_eq
  intro i
  rw [Nat.testBit_mod_two_pow, Nat.zero_testBit]
  by_cases hit : i < t
  · simp [hit, h i hit]
  · simp [hit]

theorem succ_div_eq_of_mod (a b : Nat) (hb : 0 < b) (h : a % b + 1 < b) :
    (a + 1) / b = a / b := by
  conv_lhs => rw [← Nat.div_add_mod a b]
  rw [Nat.add_assoc, Nat.mul_add_div hb, Nat.div_eq_of_lt h, Nat.add_zero]

theorem testBit_sub_one_of_low (m t : Nat) (ht : m.testBit t = true)
    (hlow : ∀ j, j < t → m.testBit j = false) :
    ∀ i, (m - 1).testBit i = (decide (i < t) || (decide (t < i) && m.testBit i)) := by
  have hge : 2 ^ t ≤ m := Nat.testBit_implies_ge ht
  have hp1 : 1 ≤ 2 ^ t := Nat.one_le_two_pow
  have hmod : m % 2 ^ t = 0 := mod_two_pow_eq_zero_of_low_bits m t hlow
  set p := 2 ^ t with hp
  set k := m / p with hk
  have hmk : m = p * k := by
    have hdm := Nat.div_add_mod m p
    rw [← hk] at hdm
    omega
  have hkodd : k % 2 = 1 := by
    have hb := ht
    rw [Nat.testBit_to_div_mod] at hb
    simpa [← hp, ← hk] using hb
  have hk1 : 1 ≤ k := by
    rcases Nat.eq_zero_or_pos k with h0 | h1
    · omega
    · exact h1
  have hpk : p * k = p * (k - 1) + p := by
    conv_lhs => rw [show k = (k - 1) + 1 by omega]
    rw [Nat.mul_add, Nat.mul_one]
  have hm1 : m - 1 = p * (k - 1) + (p - 1) := by omega
  have hq1 : (p * (k - 1) + (p - 1)) / p = (k - 1) + (p - 1) / p :=
    Nat.mul_add_div (by omega) _ _
  have hq2 : (p - 1) / p = 0 := Nat.div_eq_of_lt (by omega)
  have hdivt : (m - 1) / p = k - 1 := by
    rw [hm1, hq1, hq2, Nat.add_zero]
  intro i
  rcases Nat.lt_trichotomy i t with hit | hit | hit
  · -- bits below `t` of `m - 1` are all ones
    have hmodm1 : (m - 1) % p = p - 1 := by
      rw [hm1, Nat.mul_add_mod]
      exact Nat.mod_eq_of_lt (by omega)
    have hsame : (m - 1).testBit i = ((m - 1) % p).testBit i := by
      rw [hp, Nat.testBit_mod_two_pow]
      simp [hit]
    rw [hsame, hmodm1, hp, Nat.testBit_two_pow_sub_one]
    simp [hit]
  · -- bit `t` of `m - 1` is zero
    subst hit
    rw [Nat.testBit_to_div_mod, ← hp, hdivt]
    have : (k - 1) % 2 = 0 := by omega
    simp [this]
  · -- bits above `t` agree with those of `m`
    have hj : 1 ≤ i - t := by omega
    set j := i - t with hjdef
    have hij : i = t + j := by omega
    have hpow : 2 ^ i = p * 2 ^ j := by
      rw [hij, hp, Nat.pow_add]
    have hdiv1 : (m - 1) / 2 ^ i = (k - 1) / 2 ^ j := by
      rw [hpow, ← Nat.div_div_eq_div_mul, hdivt]
    have hdiv2 : m / 2 ^ i = k / 2 ^ j := by
      rw [hpow, ← Nat.div_div_eq_div_mul, hmk, Nat.mul_div_cancel_left _ (by omega)]
    have hkdiv : (k - 1 + 1) / 2 ^ j = (k - 1) / 2 ^ j := by
      apply succ_div_eq_of_mod _ _ (Nat.pos_pow_of_pos _ (by omega))
      have h2j : 2 ∣ 2 ^ j := dvd_pow_self 2 (by omega)
      have hmm : (k - 1) % 2 ^ j % 2 = (k - 1) % 2 := Nat.mod_mod_of_dvd _ h2j
      have h2je : 2 ^ j % 2 = 0 := Nat.mod_eq_zero_of_dvd h2j
      have hlt : (k - 1) % 2 ^ j < 2 ^ j := Nat.mod_lt _ (Nat.pos_pow_of_pos _ (by omega))
      omega
    have hfin : (m - 1) / 2 ^ i = m / 2 ^ i := by
      have hkk : k / 2 ^ j = (k - 1) / 2 ^ j := by
        rw [show k = k - 1 + 1 from by omega]
        simp only [Nat.add_sub_cancel]
        exact hkdiv
      rw [hdiv1, hdiv2, hkk]
    rw [Nat.testBit_to_div_mod, Nat.testBit_to_div_mod, hfin]
    simp [hit, Nat.lt_asymm hit]

theorem lowbit_isolate (m t : Nat) (ht : m.testBit t = true)
    (hlow : ∀ j, j < t → m.testBit j = false) :
    m ^^^ (m &&& (m - 1)) = 2 ^ t := by
  apply Nat.eq_of_testBit_eq
  intro i
  rw [Nat.testBit_xor, Nat.testBit_and, Nat.testBit_two_pow,
    testBit_sub_one_of_low m t ht hlow i]
  rcases Nat.lt_trichotomy i t with hit | hit | hit
  · simp [hlow i hit, hit, Nat.ne_of_gt hit]
  · subst hit
    simp [ht, Nat.lt_irrefl]
  · have h1 : ¬ i < t := Nat.lt_asymm hit
    have h2 : t ≠ i := Nat.ne_of_lt hit
    cases hb : m.testBit i <;> simp [h1, hit, h2, hb]

theorem find_next_bm_eq_succ (b pos t : Nat) (htp : pos ≤ t) (ht : b.testBit t = true)
    (hleast : ∀ j, pos ≤ j → j < t → b.testBit j = false) :
    find_next_bm b pos = ((t : Int) + 1) := by
  have hbit : ∀ i, (b >>> pos <<< pos).testBit i = (decide (pos ≤ i) && b.testBit i) := by
    intro i
    rw [Nat.testBit_shiftLeft, Nat.testBit_shiftRight]
    by_cases h : pos ≤ i
    · have : pos + (i - pos) = i := by omega
      simp [h, this]
    · simp [h]
  have hmt : (b >>> pos <<< pos).testBit t = true := by
    rw [hbit]
    simp [htp, ht]
  have hne : ¬ b >>> pos <<< pos = 0 := by
    intro h0
    rw [h0, Nat.zero_testBit] at hmt
    exact Bool.false_ne_true hmt
  have hlowm : ∀ j, j < t → (b >>> pos <<< pos).testBit j = false := by
    intro j hj
    rw [hbit]
    by_cases hpj : pos ≤ j
    · simp [hleast j hpj hj]
    · simp [hpj]
  show (if b >>> pos <<< pos = 0 then (-1 : Int) else _) = _
  rw [if_neg hne, lowbit_isolate _ t hmt hlowm, py_bit_length_pow]
  push_cast
  ring

theorem find_next_bm_eq_neg (b pos : Nat) (h : ∀ i, pos ≤ i → b.testBit i = false) :
    find_next_bm b pos = -1 := by
  have hz : b >>> pos <<< pos = 0 := by
    apply Nat.eq_of_testBit_eq
    intro i
    rw [Nat.testBit_shiftLeft, Nat.testBit_shiftRight, Nat.zero_testBit]
    by_cases hp : pos ≤ i
    · have : pos + (i - pos) = i := by omega
      simp [hp, this, h i hp]
    · simp [hp]
  show (if b >>> pos <<< pos = 0 then (-1 : Int) else _) = _
  rw [if_pos hz]

theorem find_next_bm_cases (b pos : Nat) :
    (find_next_bm b pos = -1 ∧ ∀ i, pos ≤ i → b.testBit i = false) ∨
    (∃ t, pos ≤ t ∧ b.testBit t = true ∧ (∀ j, pos ≤ j → j < t → b.testBit j = false) ∧
      find_next_bm b pos = ((t : Int) + 1)) := by
  by_cases h : ∃ i, pos ≤ i ∧ b.testBit i = true
  · right
    have hfs := Nat.find_spec h
    refine ⟨Nat.find h, hfs.1, hfs.2, ?_, ?_⟩
    · intro j hpj hjt
      have := Nat.find_min h hjt
      rcases Bool.eq_false_or_eq_true (b.testBit j) with hb | hb
      · exact absurd ⟨hpj, hb⟩ this
      · exact hb
    · exact find_next_bm_eq_succ b pos (Nat.find h) hfs.1 hfs.2 fun j hpj hjt => by
        have := Nat.find_min h hjt
        rcases Bool.eq_false_or_eq_true (b.testBit j) with hb | hb
        · exact absurd ⟨hpj, hb⟩ this
        · exact hb
  · left
    have hall : ∀ i, pos ≤ i → b.testBit i = false := by
      intro i hi
      rcases Bool.eq_false_or_eq_true (b.testBit i) with hb | hb
      · exact absurd ⟨i, hi, hb⟩ h
      · exact hb
    exact ⟨find_next_bm_eq_neg b pos hall, hall⟩

theorem find_previous_bm_eq_succ (b pos g : Nat) (hg : b.testBit g = true) (hgp : g < pos)
    (hgreat : ∀ j, g < j → j < pos → b.testBit j = false) :
    find_previous_bm b pos = ((g : Int) + 1) := by
  have hx1 : b &&& ((1 <<< pos) - 1) = b % 2 ^ pos := by
    rw [Nat.one_shiftLeft, Nat.and_pow_two_sub_one_eq_mod]
  have hbitg : (b % 2 ^ pos).testBit g = true := by
    rw [Nat.testBit_mod_two_pow]
    simp [hgp, hg]
  have hne : ¬ b &&& ((1 <<< pos) - 1) = 0 := by
    rw [hx1]
    intro h0
    rw [h0, Nat.zero_testBit] at hbitg
    exact Bool.false_ne_true hbitg
  have hlo : 2 ^ g ≤ b % 2 ^ pos := Nat.testBit_implies_ge hbitg
  have hhi : b % 2 ^ pos < 2 ^ (g + 1) := by
    apply lt_two_pow_of_high_bits
    intro i hi
    rw [Nat.testBit_mod_two_pow]
    by_cases hip : i < pos
    · simp [hip, hgreat i (by omega) hip]
    · simp [hip]
  show (if b &&& ((1 <<< pos) - 1) = 0 then (-1 : Int) else _) = _
  rw [if_neg hne, hx1, py_bit_length_eq_of_bounds _ g hlo hhi]
  push_cast
  ring

theorem find_previous_bm_eq_neg (b pos : Nat) (h : ∀ j, j < pos → b.testBit j = false) :
    find_previous_bm b pos = -1 := by
  have hz : b &&& ((1 <<< pos) - 1) = 0 := by
    rw [Nat.one_shiftLeft, Nat.and_pow_two_sub_one_eq_mod]
    exact mod_two_pow_eq_zero_of_low_bits b pos h
  show (if b &&& ((1 <<< pos) - 1) = 0 then (-1 : Int) else _) = _
  rw [if_pos hz]

theorem find_previous_bm_cases (b pos : Nat) :
    (find_previous_bm b pos = -1 ∧ ∀ j, j < pos → b.testBit j = false) ∨
    (∃ g, g < pos ∧ b.testBit g = true ∧ (∀ j, g < j → j < pos → b.testBit j = false) ∧
      find_previous_bm b pos = ((g : Int) + 1)) := by
  by_cases h : ∃ j, j < pos ∧ b.testBit j = true
  · right
    obtain ⟨m, hm1, hm2⟩ := h
    have hple : m ≤ pos - 1 := by omega
    have hspec : b.testBit (Nat.findGreatest (fun j => b.testBit j = true) (pos - 1)) = true :=
      Nat.findGreatest_spec (P := fun j => b.testBit j = true) hple hm2
    refine ⟨Nat.findGreatest (fun j => b.testBit j = true) (pos - 1), ?_, hspec, ?_, ?_⟩
    · have := Nat.findGreatest_le (P := fun j => b.testBit j = true) (pos - 1)
      omega
    · intro j hgj hjp
      have hnb := Nat.findGreatest_is_greatest (P := fun j => b.testBit j = true)
        (n := pos - 1) hgj (by omega)
      rcases Bool.eq_false_or_eq_true (b.testBit j) with hb | hb
      · exact absurd hb hnb
      · exact hb
    · apply find_previous_bm_eq_succ b pos _ hspec
      · have := Nat.findGreatest_le (P := fun j => b.testBit j = true) (pos - 1)
        omega
      · intro j hgj hjp
        have hnb := Nat.findGreatest_is_greatest (P := fun j => b.testBit j = true)
          (n := pos - 1) hgj (by omega)
        rcases Bool.eq_false_or_eq_true (b.testBit j) with hb | hb
        · exact absurd hb hnb
        · exact hb
  · left
    have hall : ∀ j, j < pos → b.testBit j = false := by
      intro j hj
      rcases Bool.eq_false_or_eq_true (b.testBit j) with hb | hb
      · exact absurd ⟨j, hj, hb⟩ h
      · exact hb
    exact ⟨find_previous_bm_eq_neg b pos hall, hall⟩

/-! ### Semantic model: membership and well-formedness of subtrees -/

theorem WFNode.size_eq {W L d : Nat} {n : Node} {lb : Nat} (h : WFNode W L d n lb) :
    n.size = W := by
  match d with
  | 0 => exact absurd h (by simp [WFNode])
  | 1 => exact h.1
  | d + 2 => exact h.1

theorem WFNode.num_layers_eq {W L d : Nat} {n : Node} {lb : Nat} (h : WFNode W L d n lb) :
    n.num_layers = L := by
  match d with
  | 0 => exact absurd h (by simp [WFNode])
  | 1 => exact h.2.1
  | d + 2 => exact h.2.1

theorem WFNode.layer_eq {W L d : Nat} {n : Node} {lb : Nat} (h : WFNode W L d n lb) :
    n.layer = L - d := by
  match d with
  | 0 => exact absurd h (by simp [WFNode])
  | 1 => exact h.2.2.1
  | d + 2 => exact h.2.2.1

theorem WFNode.lower_bound_eq {W L d : Nat} {n : Node} {lb : Nat} (h : WFNode W L d n lb) :
    n.lower_bound = lb := by
  match d with
  | 0 => exact absurd h (by simp [WFNode])
  | 1 => exact h.2.2.2.1
  | d + 2 => exact h.2.2.2.1

theorem WFNode.children_length {W L d : Nat} {n : Node} {lb : Nat} (h : WFNode W L d n lb) :
    n.children.length = W := by
  match d with
  | 0 => exact absurd h (by simp [WFNode])
  | 1 => exact h.2.2.2.2.1
  | d + 2 => exact h.2.2.2.2.1

theorem WFNode.bitmap_lt {W L d : Nat} {n : Node} {lb : Nat} (h : WFNode W L d n lb) :
    n.bitmap < 2 ^ W := by
  match d with
  | 0 => exact absurd h (by simp [WFNode])
  | 1 => exact h.2.2.2.2.2.2
  | d + 2 => exact h.2.2.2.2.2.1

theorem WFNode.interior {W L d : Nat} {n : Node} {lb : Nat} (h : WFNode W L (d + 2) n lb) :
    ∀ i, i < W →
      (n.bitmap.testBit i = true ↔ ∃ c, n.children[i]? = some (some c)) ∧
      ∀ c, n.children[i]? = some (some c) →
        WFNode W L (d + 1) c (lb + i * W ^ (d + 1)) ∧ c.parent_index = i ∧ c.bitmap ≠ 0 :=
  h.2.2.2.2.2.2

theorem WFNode.leaf_children {W L : Nat} {n : Node} {lb : Nat} (h : WFNode W L 1 n lb) :
    ∀ i, i < W → n.children[i]? = some none :=
  h.2.2.2.2.2.1

theorem WFNode.bit_high {W L d : Nat} {n : Node} {lb : Nat} (h : WFNode W L d n lb)
    (i : Nat) (hi : W ≤ i) : n.bitmap.testBit i = false := by
  have hb := h.bitmap_lt
  rcases Bool.eq_false_or_eq_true (n.bitmap.testBit i) with hbit | hbit
  · have := Nat.testBit_implies_ge hbit
    have : 2 ^ W ≤ 2 ^ i := Nat.pow_le_pow_right (by omega) hi
    omega
  · exact hbit

theorem mul_add_div_self (p t r : Nat) (hp : 0 < p) (hr : r < p) : (t * p + r) / p = t := by
  rw [Nat.mul_comm, Nat.mul_add_div hp, Nat.div_eq_of_lt hr, Nat.add_zero]

theorem mul_add_mod_self (p t r : Nat) (hr : r < p) : (t * p + r) % p = r := by
  rw [Nat.mul_comm, Nat.mul_add_mod, Nat.mod_eq_of_lt hr]

theorem subMem_lt (W L : Nat) (hW : 0 < W) :
    ∀ d n lb r, WFNode W L d n lb → subMem W d n r = true → r < W ^ d := by
  intro d
  match d with
  | 0 => intro n lb r hwf; exact absurd hwf (by simp [WFNode])
  | 1 =>
    intro n lb r hwf hm
    have hge := Nat.testBit_implies_ge (x := n.bitmap) (i := r) hm
    have hlt := hwf.bitmap_lt
    rw [Nat.pow_one]
    by_contra hcon
    have h1 : W ≤ r := by omega
    have h2 : 2 ^ W ≤ 2 ^ r := Nat.pow_le_pow_right (by omega) h1
    omega
  | d + 2 =>
    intro n lb r hwf hm
    by_contra hcon
    have hge : W ^ (d + 2) ≤ r := by omega
    have hpow : W * W ^ (d + 1) = W ^ (d + 2) := by ring
    have hidx : W ≤ r / W ^ (d + 1) := by
      apply (Nat.le_div_iff_mul_le (Nat.pos_pow_of_pos _ hW)).mpr
      omega
    have hnone : n.children[r / W ^ (d + 1)]? = none := by
      apply List.getElem?_eq_none
      rw [hwf.children_length]
      exact hidx
    rw [subMem, hnone] at hm
    exact Bool.false_ne_true hm

theorem subMem_digit_bit (W L : Nat) (hW : 0 < W) :
    ∀ d n lb r, WFNode W L d n lb → subMem W d n r = true →
      n.bitmap.testBit (r / W ^ (d - 1)) = true := by
  intro d
  match d with
  | 0 => intro n lb r hwf; exact absurd hwf (by simp [WFNode])
  | 1 =>
    intro n lb r hwf hm
    simpa using hm
  | d + 2 =>
    intro n lb r hwf hm
    have hr := subMem_lt W L hW (d + 2) n lb r hwf hm
    have hpow : W * W ^ (d + 1) = W ^ (d + 2) := by ring
    have hi : r / W ^ (d + 1) < W := by
      apply (Nat.div_lt_iff_lt_mul (Nat.pos_pow_of_pos _ hW)).mpr
      omega
    rw [subMem] at hm
    rcases hcs : n.children[r / W ^ (d + 1)]? with _ | c
    · rw [hcs] at hm; exact absurd hm (by simp)
    · rcases c with _ | c
      · rw [hcs] at hm; exact absurd hm (by simp)
      · have := (hwf.interior (r / W ^ (d + 1)) hi).1.mpr ⟨c, hcs⟩
        simpa using this

theorem subMem_bitmap_ne (W L : Nat) (hW : 0 < W) (d : Nat) (n : Node) (lb r : Nat)
    (hwf : WFNode W L d n lb) (hm : subMem W d n r = true) : n.bitmap ≠ 0 := by
  have := subMem_digit_bit W L hW d n lb r hwf hm
  intro h0
  rw [h0, Nat.zero_testBit] at this
  exact Bool.false_ne_true this

theorem exists_testBit_of_ne (b : Nat) (hne : b ≠ 0) : ∃ t, b.testBit t = true := by
  by_contra hcon
  push_neg at hcon
  apply hne
  apply Nat.eq_of_testBit_eq
  intro i
  rw [Nat.zero_testBit]
  rcases Bool.eq_false_or_eq_true (b.testBit i) with hb | hb
  · exact absurd hb (hcon i)
  · exact hb

theorem exists_subMem_of_ne (W L : Nat) (hW : 0 < W) :
    ∀ d n lb, WFNode W L d n lb → n.bitmap ≠ 0 → ∃ r, r < W ^ d ∧ subMem W d n r = true := by
  intro d
  match d with
  | 0 => intro n lb hwf; exact absurd hwf (by simp [WFNode])
  | 1 =>
    intro n lb hwf hne
    obtain ⟨t, ht⟩ := exists_testBit_of_ne _ hne
    refine ⟨t, ?_, by simpa [subMem] using ht⟩
    have hge := Nat.testBit_implies_ge ht
    have hlt := hwf.bitmap_lt
    rw [Nat.pow_one]
    by_contra hcon
    have h2 : 2 ^ W ≤ 2 ^ t := Nat.pow_le_pow_right (by omega) (by omega)
    omega
  | d + 2 =>
    intro n lb hwf hne
    obtain ⟨t, ht⟩ := exists_testBit_of_ne _ hne
    have htW : t < W := by
      by_contra hcon
      rw [hwf.bit_high t (by omega)] at ht
      exact Bool.false_ne_true ht
    obtain ⟨c, hc⟩ := (hwf.interior t htW).1.mp ht
    obtain ⟨hcwf, _, hcne⟩ := (hwf.interior t htW).2 c hc
    obtain ⟨r', hr'lt, hr'⟩ := exists_subMem_of_ne W L hW (d + 1) c _ hcwf hcne
    have hdiv : (t * W ^ (d + 1) + r') / W ^ (d + 1) = t :=
      mul_add_div_self _ _ _ (Nat.pos_pow_of_pos _ hW) hr'lt
    have hmod : (t * W ^ (d + 1) + r') % W ^ (d + 1) = r' := mul_add_mod_self _ _ _ hr'lt
    refine ⟨t * W ^ (d + 1) + r', ?_, ?_⟩
    · have hpow : W * W ^ (d + 1) = W ^ (d + 2) := by ring
      have hexp : (t + 1) * W ^ (d + 1) = t * W ^ (d + 1) + W ^ (d + 1) := by ring
      have hle : (t + 1) * W ^ (d + 1) ≤ W * W ^ (d + 1) :=
        Nat.mul_le_mul_right _ htW
      omega
    · rw [subMem, hdiv, hc, hmod]
      exact hr'

@[simp] theorem Node.size_mk (s nl b : Nat) (c : List (Option Node)) (pidx lb ly : Nat) :
    (Node.mk s nl b c pidx lb ly).size = s := rfl

@[simp] theorem Node.num_layers_mk (s nl b : Nat) (c : List (Option Node)) (pidx lb ly : Nat) :
    (Node.mk s nl b c pidx lb ly).num_layers = nl := rfl

@[simp] theorem Node.bitmap_mk (s nl b : Nat) (c : List (Option Node)) (pidx lb ly : Nat) :
    (Node.mk s nl b c pidx lb ly).bitmap = b := rfl

@[simp] theorem Node.children_mk (s nl b : Nat) (c : List (Option Node)) (pidx lb ly : Nat) :
    (Node.mk s nl b c pidx lb ly).children = c := rfl

@[simp] theorem Node.parent_index_mk (s nl b : Nat) (c : List (Option Node)) (pidx lb ly : Nat) :
    (Node.mk s nl b c pidx lb ly).parent_index = pidx := rfl

@[simp] theorem Node.lower_bound_mk (s nl b : Nat) (c : List (Option Node)) (pidx lb ly : Nat) :
    (Node.mk s nl b c pidx lb ly).lower_bound = lb := rfl

@[simp] theorem Node.layer_mk (s nl b : Nat) (c : List (Option Node)) (pidx lb ly : Nat) :
    (Node.mk s nl b c pidx lb ly).layer = ly := rfl

theorem childAt_nat (l : List (Option Node)) (i : Nat) (x : Option Node)
    (h : l[i]? = some x) : childAt l (i : Int) = .ok x := by
  have h0 : ¬ ((i : Int) < 0) := by
    have := Int.natCast_nonneg i
    omega
  simp only [childAt, h0, if_neg h0, if_false, Int.toNat_ofNat, h]

theorem set_bit_one_eq (n : Node) (i : Nat) (h : i < n.size) :
    n.set_bit i 1 = .ok (Node.mk n.size n.num_layers (n.bitmap ||| (1 <<< i)) n.children
      n.parent_index n.lower_bound n.layer) := by
  simp [Node.set_bit, Nat.not_le.mpr h]

theorem testBit_or_one_shift (b i j : Nat) :
    (b ||| 1 <<< i).testBit j = (b.testBit j || decide (i = j)) := by
  rw [Nat.one_shiftLeft, Nat.testBit_or, Nat.testBit_two_pow]

theorem or_one_shift_lt (b i W : Nat) (hb : b < 2 ^ W) (hi : i < W) :
    b ||| 1 <<< i < 2 ^ W := by
  rw [Nat.one_shiftLeft]
  exact Nat.or_lt_two_pow hb (Nat.pow_lt_pow_right (by omega) hi)

theorem new_zero_eq (W L : Nat) (hW : 0 < W) :
    BitmapCore.new W L 0 = .ok (Node.mk W L 0 (List.replicate W none) 0 0 0) := by
  have h1 : ¬ (1 <<< W ≤ 0) := by
    rw [Nat.one_shiftLeft]
    have := Nat.pos_pow_of_pos W (show 0 < 2 by omega)
    omega
  simp [BitmapCore.new, Nat.pos_iff_ne_zero.mp hW, h1]

theorem assign_child_eq (n : Node) (i : Nat) (c : Node) (h : i < n.size) :
    n.assign_child i c = .ok (Node.mk n.size n.num_layers n.bitmap
      (n.children.set i (some (Node.mk c.size n.num_layers c.bitmap c.children i
        (n.lower_bound + i * n.size ^ (n.num_layers - n.layer - 1)) (n.layer + 1))))
      n.parent_index n.lower_bound n.layer) := by
  simp [Node.assign_child, Nat.not_le.mpr h]

theorem subMem_zero_node (W : Nat) :
    ∀ d sz nl pidx lb ly r,
      subMem W d (Node.mk sz nl 0 (List.replicate sz none) pidx lb ly) r = false := by
  intro d
  match d with
  | 0 => intro sz nl pidx lb ly r; rfl
  | 1 => intro sz nl pidx lb ly r; simp [subMem]
  | d + 2 =>
    intro sz nl pidx lb ly r
    rw [subMem]
    simp only [Node.children_mk]
    rcases hx : (List.replicate sz (none : Option Node))[r / W ^ (d + 1)]? with _ | x
    · rfl
    · have : x = none := by
        rcases List.getElem?_eq_some_iff.mp hx with ⟨hlen, hget⟩
        rw [List.getElem_replicate] at hget
        exact hget.symm
      subst this
      rfl

theorem WFNode_empty (W L : Nat) (hW : 0 < W) :
    ∀ d pidx lb, 1 ≤ d →
      WFNode W L d (Node.mk W L 0 (List.replicate W none) pidx lb (L - d)) lb := by
  intro d
  match d with
  | 0 => intro pidx lb h; omega
  | 1 =>
    intro pidx lb _
    refine ⟨rfl, rfl, rfl, rfl, by simp, ?_, Nat.pos_pow_of_pos _ (by omega)⟩
    intro i hi
    simp [List.getElem?_replicate, hi]
  | d + 2 =>
    intro pidx lb _
    refine ⟨rfl, rfl, rfl, rfl, by simp, Nat.pos_pow_of_pos _ (by omega), ?_⟩
    intro i hi
    constructor
    · constructor
      · intro hbit
        rw [Node.bitmap_mk, Nat.zero_testBit] at hbit
        exact absurd hbit (by simp)
      · rintro ⟨c, hc⟩
        rw [Node.children_mk, List.getElem?_replicate] at hc
        rcases Nat.lt_or_ge i W with h | h
        · simp [h] at hc
        · simp [Nat.not_lt.mpr h] at hc
    · intro c hc
      rw [Node.children_mk, List.getElem?_replicate] at hc
      rcases Nat.lt_or_ge i W with h | h
      · simp [h] at hc
      · simp [Nat.not_lt.mpr h] at hc

theorem digit_bounds (p r : Nat) (hp : 0 < p) :
    r / p * p ≤ r ∧ r < (r / p + 1) * p := by
  have h1 := Nat.div_add_mod r p
  have h2 := Nat.mod_lt r hp
  have h3 : (r / p + 1) * p = p * (r / p) + p := by ring
  have h4 : r / p * p = p * (r / p) := by ring
  omega

theorem digit_lt (W d r : Nat) (hW : 0 < W) (hd : 1 ≤ d) (hr : r < W ^ d) :
    r / W ^ (d - 1) < W := by
  apply (Nat.div_lt_iff_lt_mul (Nat.pos_pow_of_pos _ hW)).mpr
  have hpow : W * W ^ (d - 1) = W ^ d := by
    conv_rhs => rw [show d = (d - 1) + 1 by omega]
    ring
  omega

theorem ne_zero_of_testBit (b t : Nat) (h : b.testBit t = true) : b ≠ 0 := by
  intro h0
  rw [h0, Nat.zero_testBit] at h
  exact Bool.false_ne_true h

theorem exc_bind_ok {α β : Type} (a : α) (f : α → Except Err β) :
    (Except.ok a : Except Err α) >>= f = f a := rfl

theorem exc_pure_eq {α : Type} (a : α) : (pure a : Except Err α) = .ok a := rfl

theorem set_loop_spec (W L : Nat) (hW : 0 < W) (pos : Nat) :
    ∀ d n lb, 1 ≤ d → d ≤ L → WFNode W L d n lb → lb ≤ pos → pos < lb + W ^ d →
    ∃ n', LayeredBitmap.set_loop W W L pos d (L - d) lb n = .ok n' ∧
      WFNode W L d n' lb ∧
      n'.parent_index = n.parent_index ∧
      n'.bitmap.testBit ((pos - lb) / W ^ (d - 1)) = true ∧
      ∀ r, subMem W d n' r = (subMem W d n r || decide (r = pos - lb)) := by
  intro d
  match d with
  | 0 => intro n lb h1 _ _ _ _; omega
  | 1 =>
    intro n lb _ hdL hwf hlb hub
    have hch : L - (L - 1) - 1 = 0 := by omega
    have hr : pos - lb < W := by
      rw [Nat.pow_one] at hub
      omega
    have hsb := set_bit_one_eq n (pos - lb) (by rw [hwf.size_eq]; exact hr)
    have hcond : ¬ (L - 1 < L - 1) := by omega
    refine ⟨Node.mk n.size n.num_layers (n.bitmap ||| 1 <<< (pos - lb)) n.children
      n.parent_index n.lower_bound n.layer, ?_, ?_, by simp, ?_, ?_⟩
    · show LayeredBitmap.set_loop W W L pos (0 + 1) (L - 1) lb n = _
      simp only [LayeredBitmap.set_loop, hch, Nat.pow_zero, Nat.div_one, hsb,
        exc_bind_ok, hcond, if_false]
    · obtain ⟨h1, h2, h3, h4, h5, h6, h7⟩ := hwf
      exact ⟨by simpa using h1, by simpa using h2, by simpa using h3, by simpa using h4,
        by simpa using h5, by simpa using h6,
        by simp only [Node.bitmap_mk]; exact or_one_shift_lt _ _ _ h7 hr⟩
    · simp only [Node.bitmap_mk, Nat.sub_self, Nat.pow_zero, Nat.div_one,
        testBit_or_one_shift]
      simp
    · intro r
      show (n.bitmap ||| 1 <<< (pos - lb)).testBit r =
        (n.bitmap.testBit r || decide (r = pos - lb))
      rw [testBit_or_one_shift]
      by_cases h : r = pos - lb
      · simp [h]
      · have h2 : ¬ (pos - lb = r) := fun hc => h hc.symm
        simp [h, h2]
  | e + 2 =>
    intro n lb _ hdL hwf hlb hub
    have hL : e + 2 ≤ L := by omega
    have hch : L - (L - (e + 2)) - 1 = e + 1 := by omega
    have hcond : L - (e + 2) < L - 1 := by omega
    have hr : pos - lb < W ^ (e + 2) := by omega
    have hsp : 0 < W ^ (e + 1) := Nat.pos_pow_of_pos _ hW
    have hiW : (pos - lb) / W ^ (e + 1) < W := digit_lt W (e + 2) (pos - lb) hW (by omega) hr
    obtain ⟨hlo, hhi⟩ := digit_bounds (W ^ (e + 1)) (pos - lb) hsp
    have hpos : lb + (pos - lb) = pos := by omega
    have hmulsucc : ((pos - lb) / W ^ (e + 1) + 1) * W ^ (e + 1) =
        (pos - lb) / W ^ (e + 1) * W ^ (e + 1) + W ^ (e + 1) := by ring
    have hsb := set_bit_one_eq n ((pos - lb) / W ^ (e + 1)) (by rw [hwf.size_eq]; exact hiW)
    have hlen : n.children.length = W := hwf.children_length
    have hli : L - (e + 2) + 1 = L - (e + 1) := by omega
    rcases hx : n.children[(pos - lb) / W ^ (e + 1)]? with _ | x
    · exact absurd (List.getElem?_eq_none_iff.mp hx) (by omega)
    · have hca1 := childAt_nat n.children ((pos - lb) / W ^ (e + 1)) x hx
      rcases x with _ | c
      · -- Branch A: no child yet; a fresh empty node is created, stamped and filled
        have hnew := new_zero_eq W L hW
        have hass : (Node.mk n.size n.num_layers (n.bitmap ||| 1 <<< ((pos - lb) / W ^ (e + 1)))
            n.children n.parent_index n.lower_bound n.layer).assign_child
            ((pos - lb) / W ^ (e + 1)) (Node.mk W L 0 (List.replicate W none) 0 0 0) =
            .ok (Node.mk n.size n.num_layers (n.bitmap ||| 1 <<< ((pos - lb) / W ^ (e + 1)))
              (n.children.set ((pos - lb) / W ^ (e + 1))
                (some (Node.mk W L 0 (List.replicate W none) ((pos - lb) / W ^ (e + 1))
                  (lb + (pos - lb) / W ^ (e + 1) * W ^ (e + 1)) (L - (e + 1)))))
              n.parent_index n.lower_bound n.layer) := by
          rw [assign_child_eq _ _ _ (by simp only [Node.size_mk]; rw [hwf.size_eq]; exact hiW)]
          simp only [Node.size_mk, Node.num_layers_mk, Node.bitmap_mk, Node.children_mk,
            Node.parent_index_mk, Node.lower_bound_mk, Node.layer_mk,
            hwf.size_eq, hwf.num_layers_eq, hwf.layer_eq, hwf.lower_bound_eq]
          rw [hch, show L - (e + 2) + 1 = L - (e + 1) from hli]
        have hc0wf : WFNode W L (e + 1) (Node.mk W L 0 (List.replicate W none)
            ((pos - lb) / W ^ (e + 1)) (lb + (pos - lb) / W ^ (e + 1) * W ^ (e + 1))
            (L - (e + 1))) (lb + (pos - lb) / W ^ (e + 1) * W ^ (e + 1)) :=
          WFNode_empty W L hW (e + 1) _ _ (by omega)
        obtain ⟨c2, hrec, hwf2, hpi2, hbit2, hsub2⟩ :=
          set_loop_spec W L hW pos (e + 1) _ _ (by omega) (by omega) hc0wf
            (by omega) (by omega)
        have hget2 : (n.children.set ((pos - lb) / W ^ (e + 1))
            (some (Node.mk W L 0 (List.replicate W none) ((pos - lb) / W ^ (e + 1))
              (lb + (pos - lb) / W ^ (e + 1) * W ^ (e + 1))
              (L - (e + 1)))))[(pos - lb) / W ^ (e + 1)]? =
            some (some (Node.mk W L 0 (List.replicate W none) ((pos - lb) / W ^ (e + 1))
              (lb + (pos - lb) / W ^ (e + 1) * W ^ (e + 1)) (L - (e + 1)))) :=
          List.getElem?_set_self (by omega)
        have hca2 := childAt_nat _ _ _ hget2
        refine ⟨Node.mk n.size n.num_layers (n.bitmap ||| 1 <<< ((pos - lb) / W ^ (e + 1)))
          (n.children.set ((pos - lb) / W ^ (e + 1)) (some c2))
          n.parent_index n.lower_bound n.layer, ?_, ?_, by simp, ?_, ?_⟩
        · show LayeredBitmap.set_loop W W L pos (e + 1 + 1) (L - (e + 2)) lb n = _
          conv_lhs => rw [LayeredBitmap.set_loop]
          simp only [hch, hsb, exc_bind_ok, if_pos hcond, Node.children_mk, hca1, hnew,
            hass, hca2, exc_pure_eq, hli, hrec, Node.with_child, Node.size_mk,
            Node.num_layers_mk, Node.bitmap_mk, Node.parent_index_mk, Node.lower_bound_mk,
            Node.layer_mk, List.set_set]
        · -- well-formedness of the updated node
          refine ⟨by simpa using hwf.size_eq, by simpa using hwf.num_layers_eq,
            by simpa using hwf.layer_eq, by simpa using hwf.lower_bound_eq,
            by simp [hlen], ?_, ?_⟩
          · simp only [Node.bitmap_mk]
            exact or_one_shift_lt _ _ _ hwf.bitmap_lt hiW
          · intro j hj
            by_cases hji : j = (pos - lb) / W ^ (e + 1)
            · subst hji
              constructor
              · constructor
                · intro _
                  exact ⟨c2, by simp only [Node.children_mk]; exact List.getElem?_set_self (by omega)⟩
                · intro _
                  simp only [Node.bitmap_mk, testBit_or_one_shift]
                  simp
              · intro cc hcc
                simp only [Node.children_mk] at hcc
                rw [List.getElem?_set_self (by omega)] at hcc
                have hc2 : cc = c2 := by
                  injection hcc with h
                  injection h with h
                  exact h.symm
                subst hc2
                refine ⟨hwf2, ?_, ?_⟩
                · rw [hpi2]
                  simp
                · exact ne_zero_of_testBit _ _ hbit2
            · have hne1 : (pos - lb) / W ^ (e + 1) ≠ j := fun hcc => hji hcc.symm
              constructor
              · simp only [Node.bitmap_mk, Node.children_mk, testBit_or_one_shift,
                  List.getElem?_set_ne hne1]
                have hdec : decide ((pos - lb) / W ^ (e + 1) = j) = false := by
                  simp [hne1]
                rw [hdec, Bool.or_false]
                exact (hwf.interior j hj).1
              · intro cc hcc
                simp only [Node.children_mk, List.getElem?_set_ne hne1] at hcc
                exact (hwf.interior j hj).2 cc hcc
        · -- the digit bit of the inserted position is set
          simp only [Node.bitmap_mk, Nat.add_sub_cancel, testBit_or_one_shift]
          simp
        · -- membership after the update
          intro q
          rw [subMem, subMem]
          simp only [Node.children_mk]
          by_cases hq : q / W ^ (e + 1) = (pos - lb) / W ^ (e + 1)
          · rw [hq, List.getElem?_set_self (by omega), hx]
            show subMem W (e + 1) c2 (q % W ^ (e + 1)) = (false || decide (q = pos - lb))
            rw [hsub2, subMem_zero_node, Bool.false_or, Bool.false_or]
            have hiff : (q % W ^ (e + 1) =
                pos - (lb + (pos - lb) / W ^ (e + 1) * W ^ (e + 1))) ↔ (q = pos - lb) := by
              constructor
              · intro hmq
                have h1 := Nat.div_add_mod q (W ^ (e + 1))
                have h2 := Nat.div_add_mod (pos - lb) (W ^ (e + 1))
                have h3 : W ^ (e + 1) * (q / W ^ (e + 1)) =
                    W ^ (e + 1) * ((pos - lb) / W ^ (e + 1)) := by rw [hq]
                have h4 : (pos - lb) / W ^ (e + 1) * W ^ (e + 1) =
                    W ^ (e + 1) * ((pos - lb) / W ^ (e + 1)) := by ring
                omega
              · intro hqq
                subst hqq
                have h2 := Nat.div_add_mod (pos - lb) (W ^ (e + 1))
                have h4 : (pos - lb) / W ^ (e + 1) * W ^ (e + 1) =
                    W ^ (e + 1) * ((pos - lb) / W ^ (e + 1)) := by ring
                omega
            rw [decide_eq_decide.mpr hiff]
          · have hne2 : (pos - lb) / W ^ (e + 1) ≠ q / W ^ (e + 1) := fun hcc => hq hcc.symm
            rw [List.getElem?_set_ne hne2]
            have hqne : decide (q = pos - lb) = false := by
              apply decide_eq_false
              intro hqq
              subst hqq
              exact hq rfl
            rw [hqne, Bool.or_false]
      · -- Branch B: the child already exists; recurse into it
        obtain ⟨hcwf, hcpi, hcne⟩ := (hwf.interior ((pos - lb) / W ^ (e + 1)) hiW).2 c hx
        obtain ⟨c2, hrec, hwf2, hpi2, hbit2, hsub2⟩ :=
          set_loop_spec W L hW pos (e + 1) c _ (by omega) (by omega) hcwf
            (by omega) (by omega)
        have hca2 := childAt_nat n.children ((pos - lb) / W ^ (e + 1)) (some c) hx
        refine ⟨Node.mk n.size n.num_layers (n.bitmap ||| 1 <<< ((pos - lb) / W ^ (e + 1)))
          (n.children.set ((pos - lb) / W ^ (e + 1)) (some c2))
          n.parent_index n.lower_bound n.layer, ?_, ?_, by simp, ?_, ?_⟩
        · show LayeredBitmap.set_loop W W L pos (e + 1 + 1) (L - (e + 2)) lb n = _
          conv_lhs => rw [LayeredBitmap.set_loop]
          simp only [hch, hsb, exc_bind_ok, if_pos hcond, Node.children_mk, hca1,
            exc_pure_eq, hca2, hli, hrec, Node.with_child, Node.size_mk,
            Node.num_layers_mk, Node.bitmap_mk, Node.parent_index_mk, Node.lower_bound_mk,
            Node.layer_mk, List.set_set]
        · refine ⟨by simpa using hwf.size_eq, by simpa using hwf.num_layers_eq,
            by simpa using hwf.layer_eq, by simpa using hwf.lower_bound_eq,
            by simp [hlen], ?_, ?_⟩
          · simp only [Node.bitmap_mk]
            exact or_one_shift_lt _ _ _ hwf.bitmap_lt hiW
          · intro j hj
            by_cases hji : j = (pos - lb) / W ^ (e + 1)
            · subst hji
              constructor
              · constructor
                · intro _
                  exact ⟨c2, by simp only [Node.children_mk]; exact List.getElem?_set_self (by omega)⟩
                · intro _
                  simp only [Node.bitmap_mk, testBit_or_one_shift]
                  simp
              · intro cc hcc
                simp only [Node.children_mk] at hcc
                rw [List.getElem?_set_self (by omega)] at hcc
                have hc2 : cc = c2 := by
                  injection hcc with h
                  injection h with h
                  exact h.symm
                subst hc2
                refine ⟨hwf2, ?_, ?_⟩
                · rw [hpi2, hcpi]
                · exact ne_zero_of_testBit _ _ hbit2
            · have hne1 : (pos - lb) / W ^ (e + 1) ≠ j := fun hcc => hji hcc.symm
              constructor
              · simp only [Node.bitmap_mk, Node.children_mk, testBit_or_one_shift,
                  List.getElem?_set_ne hne1]
                have hdec : decide ((pos - lb) / W ^ (e + 1) = j) = false := by
                  simp [hne1]
                rw [hdec, Bool.or_false]
                exact (hwf.interior j hj).1
              · intro cc hcc
                simp only [Node.children_mk, List.getElem?_set_ne hne1] at hcc
                exact (hwf.interior j hj).2 cc hcc
        · simp only [Node.bitmap_mk, Nat.add_sub_cancel, testBit_or_one_shift]
          simp
        · intro q
          rw [subMem, subMem]
          simp only [Node.children_mk]
          by_cases hq : q / W ^ (e + 1) = (pos - lb) / W ^ (e + 1)
          · rw [hq, List.getElem?_set_self (by omega), hx]
            show subMem W (e + 1) c2 (q % W ^ (e + 1)) =
              (subMem W (e + 1) c (q % W ^ (e + 1)) || decide (q = pos - lb))
            rw [hsub2]
            have hiff : (q % W ^ (e + 1) =
                pos - (lb + (pos - lb) / W ^ (e + 1) * W ^ (e + 1))) ↔ (q = pos - lb) := by
              constructor
              · intro hmq
                have h1 := Nat.div_add_mod q (W ^ (e + 1))
                have h2 := Nat.div_add_mod (pos - lb) (W ^ (e + 1))
                have h3 : W ^ (e + 1) * (q / W ^ (e + 1)) =
                    W ^ (e + 1) * ((pos - lb) / W ^ (e + 1)) := by rw [hq]
                have h4 : (pos - lb) / W ^ (e + 1) * W ^ (e + 1) =
                    W ^ (e + 1) * ((pos - lb) / W ^ (e + 1)) := by ring
                omega
              · intro hqq
                subst hqq
                have h2 := Nat.div_add_mod (pos - lb) (W ^ (e + 1))
                have h4 : (pos - lb) / W ^ (e + 1) * W ^ (e + 1) =
                    W ^ (e + 1) * ((pos - lb) / W ^ (e + 1)) := by ring
                omega
            rw [decide_eq_decide.mpr hiff]
          · have hne2 : (pos - lb) / W ^ (e + 1) ≠ q / W ^ (e + 1) := fun hcc => hq hcc.symm
            rw [List.getElem?_set_ne hne2]
            have hqne : decide (q = pos - lb) = false := by
              apply decide_eq_false
              intro hqq
              subst hqq
              exact hq rfl
            rw [hqne, Bool.or_false]

theorem init_eq (L W : Nat) (hW : W = 32 ∨ W = 64) :
    LayeredBitmap.init L W =
      .ok ⟨L, Node.mk W L 0 (List.replicate W none) 0 0 0, W⟩ := by
  have hg1 : ¬ (L < 5 ∧ 8 < L) := by omega
  have hg2 : ¬ (W ≠ 32 ∧ W ≠ 64) := by
    rcases hW with h | h <;> simp [h]
  have hWpos : 0 < W := by rcases hW with h | h <;> omega
  rw [LayeredBitmap.init, if_neg hg1, if_neg hg2, new_zero_eq W L hWpos]
  rfl

theorem init_WF (L W : Nat) (hW : 0 < W) (hL : 1 ≤ L) :
    WFTree ⟨L, Node.mk W L 0 (List.replicate W none) 0 0 0, W⟩ ∧
      (∀ x, treeMem ⟨L, Node.mk W L 0 (List.replicate W none) 0 0 0, W⟩ x = false) := by
  constructor
  · refine ⟨rfl, ?_⟩
    have := WFNode_empty W L hW L 0 0 hL
    rw [Nat.sub_self] at this
    exact this
  · intro x
    exact subMem_zero_node W L W L 0 0 0 x

theorem set_spec : ∀ (t : LayeredBitmap), WFTree t → 2 ≤ t.num_layers → 0 < t.bitmap_size →
    ∀ pos : Nat, pos < t.bitmap_size ^ t.num_layers →
    ∃ t', t.set (pos : Int) = .ok t' ∧ WFTree t' ∧ t'.num_layers = t.num_layers ∧
      t'.bitmap_size = t.bitmap_size ∧ t'.base_bitmap.parent_index = t.base_bitmap.parent_index ∧
      ∀ y, treeMem t' y = (treeMem t y || decide (y = pos)) := by
  rintro ⟨L, root, W⟩ ⟨hsz, hroot⟩ hL hW pos hpos
  simp only at hsz hroot hL hW hpos ⊢
  obtain ⟨e, rfl⟩ : ∃ e, L = e + 2 := ⟨L - 2, by omega⟩
  have hg : ¬ ((pos : Int) < 0 ∨ ((root.size ^ (e + 2) : Nat) : Int) ≤ (pos : Int)) := by
    push_neg
    rw [hsz]
    constructor
    · exact Int.natCast_nonneg pos
    · exact_mod_cast hpos
  have harith1 : e + 2 - 1 = e + 1 := by omega
  have hsp : 0 < W ^ (e + 1) := Nat.pos_pow_of_pos _ hW
  have hiW : pos / W ^ (e + 1) < W := digit_lt W (e + 2) pos hW (by omega) hpos
  obtain ⟨hlo, hhi⟩ := digit_bounds (W ^ (e + 1)) pos hsp
  have hmulsucc : (pos / W ^ (e + 1) + 1) * W ^ (e + 1) =
      pos / W ^ (e + 1) * W ^ (e + 1) + W ^ (e + 1) := by ring
  have hsb := set_bit_one_eq root (pos / W ^ (e + 1)) (by rw [hsz]; exact hiW)
  have hlen : root.children.length = W := hroot.children_length
  rcases hx : root.children[pos / W ^ (e + 1)]? with _ | x
  · exact absurd (List.getElem?_eq_none_iff.mp hx) (by omega)
  · have hca1 := childAt_nat root.children (pos / W ^ (e + 1)) x hx
    rcases x with _ | c
    · -- Branch A: the root has no child at the leading digit yet
      have hnew := new_zero_eq W (e + 2) hW
      have hass : (Node.mk root.size root.num_layers
          (root.bitmap ||| 1 <<< (pos / W ^ (e + 1)))
          root.children root.parent_index root.lower_bound root.layer).assign_child
          (pos / W ^ (e + 1)) (Node.mk W (e + 2) 0 (List.replicate W none) 0 0 0) =
          .ok (Node.mk root.size root.num_layers
            (root.bitmap ||| 1 <<< (pos / W ^ (e + 1)))
            (root.children.set (pos / W ^ (e + 1))
              (some (Node.mk W (e + 2) 0 (List.replicate W none) (pos / W ^ (e + 1))
                (pos / W ^ (e + 1) * W ^ (e + 1)) 1)))
            root.parent_index root.lower_bound root.layer) := by
        rw [assign_child_eq _ _ _ (by simp only [Node.size_mk]; rw [hsz]; exact hiW)]
        simp only [Node.size_mk, Node.num_layers_mk, Node.bitmap_mk, Node.children_mk,
          Node.parent_index_mk, Node.lower_bound_mk, Node.layer_mk,
          hsz, hroot.num_layers_eq, hroot.layer_eq, hroot.lower_bound_eq]
        rw [show e + 2 - (e + 2) = 0 from by omega]
        rw [show e + 2 - 0 - 1 = e + 1 from by omega, Nat.zero_add, Nat.add_zero]
      have hc0wf : WFNode W (e + 2) (e + 1) (Node.mk W (e + 2) 0 (List.replicate W none)
          (pos / W ^ (e + 1)) (pos / W ^ (e + 1) * W ^ (e + 1)) 1)
          (pos / W ^ (e + 1) * W ^ (e + 1)) := by
        have h0 := WFNode_empty W (e + 2) hW (e + 1) (pos / W ^ (e + 1))
          (pos / W ^ (e + 1) * W ^ (e + 1)) (by omega)
        rw [show e + 2 - (e + 1) = 1 from by omega] at h0
        exact h0
      obtain ⟨c2, hrec, hwf2, hpi2, hbit2, hsub2⟩ :=
        set_loop_spec W (e + 2) hW pos (e + 1) _ _ (by omega) (by omega) hc0wf
          (by omega) (by omega)
      rw [show e + 2 - (e + 1) = 1 from by omega] at hrec
      have hget2 : ((root.children.set (pos / W ^ (e + 1))
          (some (Node.mk W (e + 2) 0 (List.replicate W none) (pos / W ^ (e + 1))
            (pos / W ^ (e + 1) * W ^ (e + 1)) 1)))[pos / W ^ (e + 1)]?) =
          some (some (Node.mk W (e + 2) 0 (List.replicate W none) (pos / W ^ (e + 1))
            (pos / W ^ (e + 1) * W ^ (e + 1)) 1)) :=
        List.getElem?_set_self (by omega)
      have hca2 := childAt_nat _ _ _ hget2
      refine ⟨⟨e + 2, Node.mk root.size root.num_layers
        (root.bitmap ||| 1 <<< (pos / W ^ (e + 1)))
        (root.children.set (pos / W ^ (e + 1)) (some c2))
        root.parent_index root.lower_bound root.layer, W⟩, ?_, ⟨?_, ?_⟩, rfl, rfl, by simp, ?_⟩
      · show LayeredBitmap.set _ _ = _
        rw [hsz] at hsb hass
        simp only [LayeredBitmap.set]
        rw [if_neg hg]
        simp only [Int.toNat_ofNat, hsz, harith1,
          hsb, exc_bind_ok, hca1, hnew, hass, hca2, exc_pure_eq, hrec,
          Node.with_child, Node.size_mk, Node.num_layers_mk, Node.bitmap_mk,
          Node.children_mk, Node.parent_index_mk, Node.lower_bound_mk, Node.layer_mk,
          List.set_set]
      · show (Node.mk root.size _ _ _ _ _ _).size = W
        simp only [Node.size_mk]
        exact hsz
      · show WFNode W (e + 2) (e + 2) _ 0
        refine ⟨by simpa using hsz, by simpa using hroot.num_layers_eq,
          by simpa using hroot.layer_eq, by simpa using hroot.lower_bound_eq,
          by simp [hlen], ?_, ?_⟩
        · simp only [Node.bitmap_mk]
          exact or_one_shift_lt _ _ _ hroot.bitmap_lt hiW
        · intro j hj
          by_cases hji : j = pos / W ^ (e + 1)
          · subst hji
            constructor
            · constructor
              · intro _
                exact ⟨c2, by simp only [Node.children_mk]; exact List.getElem?_set_self (by omega)⟩
              · intro _
                simp only [Node.bitmap_mk, testBit_or_one_shift]
                simp
            · intro cc hcc
              simp only [Node.children_mk] at hcc
              rw [List.getElem?_set_self (by omega)] at hcc
              have hc2 : cc = c2 := by
                injection hcc with h
                injection h with h
                exact h.symm
              subst hc2
              rw [Nat.zero_add]
              refine ⟨hwf2, ?_, ?_⟩
              · rw [hpi2]
                simp
              · exact ne_zero_of_testBit _ _ hbit2
          · have hne1 : pos / W ^ (e + 1) ≠ j := fun hcc => hji hcc.symm
            constructor
            · simp only [Node.bitmap_mk, Node.children_mk, testBit_or_one_shift,
                List.getElem?_set_ne hne1]
              have hdec : decide (pos / W ^ (e + 1) = j) = false := by simp [hne1]
              rw [hdec, Bool.or_false]
              exact (hroot.interior j hj).1
            · intro cc hcc
              simp only [Node.children_mk, List.getElem?_set_ne hne1] at hcc
              exact (hroot.interior j hj).2 cc hcc
      · intro q
        show subMem W (e + 2) _ q = (subMem W (e + 2) root q || decide (q = pos))
        rw [subMem, subMem]
        simp only [Node.children_mk]
        by_cases hq : q / W ^ (e + 1) = pos / W ^ (e + 1)
        · rw [hq, List.getElem?_set_self (by omega), hx]
          show subMem W (e + 1) c2 (q % W ^ (e + 1)) = (false || decide (q = pos))
          rw [hsub2, subMem_zero_node, Bool.false_or, Bool.false_or]
          have hiff : (q % W ^ (e + 1) = pos - pos / W ^ (e + 1) * W ^ (e + 1)) ↔ (q = pos) := by
            constructor
            · intro hmq
              have h1 := Nat.div_add_mod q (W ^ (e + 1))
              have h2 := Nat.div_add_mod pos (W ^ (e + 1))
              have h3 : W ^ (e + 1) * (q / W ^ (e + 1)) =
                  W ^ (e + 1) * (pos / W ^ (e + 1)) := by rw [hq]
              have h4 : pos / W ^ (e + 1) * W ^ (e + 1) =
                  W ^ (e + 1) * (pos / W ^ (e + 1)) := by ring
              omega
            · intro hqq
              subst hqq
              have h2 := Nat.div_add_mod q (W ^ (e + 1))
              have h4 : q / W ^ (e + 1) * W ^ (e + 1) =
                  W ^ (e + 1) * (q / W ^ (e + 1)) := by ring
              omega
          rw [decide_eq_decide.mpr hiff]
        · have hne2 : pos / W ^ (e + 1) ≠ q / W ^ (e + 1) := fun hcc => hq hcc.symm
          rw [List.getElem?_set_ne hne2]
          have hqne : decide (q = pos) = false := by
            apply decide_eq_false
            intro hqq
            subst hqq
            exact hq rfl
          rw [hqne, Bool.or_false]
    · -- Branch B: the root already has a child at the leading digit
      obtain ⟨hcwf0, hcpi, hcne⟩ := (hroot.interior (pos / W ^ (e + 1)) hiW).2 c hx
      rw [Nat.zero_add] at hcwf0
      obtain ⟨c2, hrec, hwf2, hpi2, hbit2, hsub2⟩ :=
        set_loop_spec W (e + 2) hW pos (e + 1) c _ (by omega) (by omega) hcwf0
          (by omega) (by omega)
      rw [show e + 2 - (e + 1) = 1 from by omega] at hrec
      have hca2 := childAt_nat root.children (pos / W ^ (e + 1)) (some c) hx
      refine ⟨⟨e + 2, Node.mk root.size root.num_layers
        (root.bitmap ||| 1 <<< (pos / W ^ (e + 1)))
        (root.children.set (pos / W ^ (e + 1)) (some c2))
        root.parent_index root.lower_bound root.layer, W⟩, ?_, ⟨?_, ?_⟩, rfl, rfl, by simp, ?_⟩
      · show LayeredBitmap.set _ _ = _
        rw [hsz] at hsb
        simp only [LayeredBitmap.set]
        rw [if_neg hg]
        simp only [Int.toNat_ofNat, hsz, harith1,
          hsb, exc_bind_ok, hca1, exc_pure_eq, hca2, hrec,
          Node.with_child, Node.size_mk, Node.num_layers_mk, Node.bitmap_mk,
          Node.children_mk, Node.parent_index_mk, Node.lower_bound_mk, Node.layer_mk,
          List.set_set]
      · show (Node.mk root.size _ _ _ _ _ _).size = W
        simp only [Node.size_mk]
        exact hsz
      · show WFNode W (e + 2) (e + 2) _ 0
        refine ⟨by simpa using hsz, by simpa using hroot.num_layers_eq,
          by simpa using hroot.layer_eq, by simpa using hroot.lower_bound_eq,
          by simp [hlen], ?_, ?_⟩
        · simp only [Node.bitmap_mk]
          exact or_one_shift_lt _ _ _ hroot.bitmap_lt hiW
        · intro j hj
          by_cases hji : j = pos / W ^ (e + 1)
          · subst hji
            constructor
            · constructor
              · intro _
                exact ⟨c2, by simp only [Node.children_mk]; exact List.getElem?_set_self (by omega)⟩
              · intro _
                simp only [Node.bitmap_mk, testBit_or_one_shift]
                simp
            · intro cc hcc
              simp only [Node.children_mk] at hcc
              rw [List.getElem?_set_self (by omega)] at hcc
              have hc2 : cc = c2 := by
                injection hcc with h
                injection h with h
                exact h.symm
              subst hc2
              rw [Nat.zero_add]
              refine ⟨hwf2, ?_, ?_⟩
              · rw [hpi2, hcpi]
              · exact ne_zero_of_testBit _ _ hbit2
          · have hne1 : pos / W ^ (e + 1) ≠ j := fun hcc => hji hcc.symm
            constructor
            · simp only [Node.bitmap_mk, Node.children_mk, testBit_or_one_shift,
                List.getElem?_set_ne hne1]
              have hdec : decide (pos / W ^ (e + 1) = j) = false := by simp [hne1]
              rw [hdec, Bool.or_false]
              exact (hroot.interior j hj).1
            · intro cc hcc
              simp only [Node.children_mk, List.getElem?_set_ne hne1] at hcc
              exact (hroot.interior j hj).2 cc hcc
      · intro q
        show subMem W (e + 2) _ q = (subMem W (e + 2) root q || decide (q = pos))
        rw [subMem, subMem]
        simp only [Node.children_mk]
        by_cases hq : q / W ^ (e + 1) = pos / W ^ (e + 1)
        · rw [hq, List.getElem?_set_self (by omega), hx]
          show subMem W (e + 1) c2 (q % W ^ (e + 1)) =
            (subMem W (e + 1) c (q % W ^ (e + 1)) || decide (q = pos))
          rw [hsub2]
          have hiff : (q % W ^ (e + 1) = pos - pos / W ^ (e + 1) * W ^ (e + 1)) ↔ (q = pos) := by
            constructor
            · intro hmq
              have h1 := Nat.div_add_mod q (W ^ (e + 1))
              have h2 := Nat.div_add_mod pos (W ^ (e + 1))
              have h3 : W ^ (e + 1) * (q / W ^ (e + 1)) =
                  W ^ (e + 1) * (pos / W ^ (e + 1)) := by rw [hq]
              have h4 : pos / W ^ (e + 1) * W ^ (e + 1) =
                  W ^ (e + 1) * (pos / W ^ (e + 1)) := by ring
              omega
            · intro hqq
              subst hqq
              have h2 := Nat.div_add_mod q (W ^ (e + 1))
              have h4 : q / W ^ (e + 1) * W ^ (e + 1) =
                  W ^ (e + 1) * (q / W ^ (e + 1)) := by ring
              omega
          rw [decide_eq_decide.mpr hiff]
        · have hne2 : pos / W ^ (e + 1) ≠ q / W ^ (e + 1) := fun hcc => hq hcc.symm
          rw [List.getElem?_set_ne hne2]
          have hqne : decide (q = pos) = false := by
            apply decide_eq_false
            intro hqq
            subst hqq
            exact hq rfl
          rw [hqne, Bool.or_false]

theorem insert_fold_spec (W L : Nat) (hW : 0 < W) (hL : 2 ≤ L) :
    ∀ (xs : List Nat), (∀ a ∈ xs, a < W ^ L) →
    ∀ t, WFTree t → t.num_layers = L → t.bitmap_size = W →
    ∃ t', xs.foldlM (fun t (x : Nat) => t.set (x : Int)) t = .ok t' ∧ WFTree t' ∧
      t'.num_layers = L ∧ t'.bitmap_size = W ∧
      ∀ y, treeMem t' y = (treeMem t y || decide (y ∈ xs)) := by
  intro xs
  induction xs with
  | nil =>
    intro _ t hwt hLt hWt
    refine ⟨t, rfl, hwt, hLt, hWt, ?_⟩
    intro y
    simp
  | cons x xs ih =>
    intro hxs t hwt hLt hWt
    obtain ⟨t1, hset, hwt1, hLt1, hWt1, _, hmem1⟩ :=
      set_spec t hwt (by omega) (by omega) x (by
        rw [hWt, hLt]
        exact hxs x (List.mem_cons_self x xs))
    obtain ⟨t', hfold, hwt', hLt', hWt', hmem'⟩ :=
      ih (fun a ha => hxs a (List.mem_cons_of_mem x ha)) t1 hwt1 (by omega) (by omega)
    refine ⟨t', ?_, hwt', hLt', hWt', ?_⟩
    · rw [List.foldlM_cons, hset, exc_bind_ok, hfold]
    · intro y
      rw [hmem', hmem1]
      by_cases h1 : y = x
      · simp [h1]
      · by_cases h2 : y ∈ xs <;> simp [h1, h2]

theorem buildTree_spec (W L : Nat) (hW : W = 32 ∨ W = 64) (hL : 2 ≤ L)
    (xs : List Nat) (hxs : ∀ a ∈ xs, a < W ^ L) :
    ∃ t, buildTree L W xs = .ok t ∧ WFTree t ∧ t.num_layers = L ∧ t.bitmap_size = W ∧
      ∀ y, treeMem t y = decide (y ∈ xs) := by
  have hWpos : 0 < W := by rcases hW with h | h <;> omega
  obtain ⟨hwf0, hmem0⟩ := init_WF L W hWpos (by omega)
  obtain ⟨t, hfold, hwt, hLt, hWt, hmem⟩ :=
    insert_fold_spec W L hWpos hL xs hxs
      ⟨L, Node.mk W L 0 (List.replicate W none) 0 0 0, W⟩ hwf0 rfl rfl
  refine ⟨t, ?_, hwt, hLt, hWt, ?_⟩
  · rw [buildTree, init_eq L W hW, exc_bind_ok, hfold]
  · intro y
    rw [hmem, hmem0 y, Bool.false_or]

theorem get_bit_eq_testBit (b i : Nat) :
    (b >>> i) &&& 1 = (if b.testBit i then 1 else 0) := by
  rw [Nat.and_one_is_mod, Nat.shiftRight_eq_div_pow, Nat.testBit_to_div_mod]
  rcases Nat.mod_two_eq_zero_or_one (b / 2 ^ i) with h | h <;> simp [h]

theorem get_loop_spec (W L pos : Nat) (hW : 0 < W) :
    ∀ d n lb, 1 ≤ d → d ≤ L → WFNode W L d n lb → lb ≤ pos → pos < lb + W ^ d →
    LayeredBitmap.get_loop W L pos d (L - d) lb n =
      .ok (if subMem W d n (pos - lb) then 1 else 0) := by
  intro d
  match d with
  | 0 => intro n lb h1 _ _ _ _; omega
  | 1 =>
    intro n lb _ hdL hwf hlb hub
    have hch : L - (L - 1) - 1 = 0 := by omega
    have hr : pos - lb < W := by
      rw [Nat.pow_one] at hub
      omega
    have hcond : ¬ (L - 1 < L - 1) := by omega
    show LayeredBitmap.get_loop W L pos (0 + 1) (L - 1) lb n = _
    simp only [LayeredBitmap.get_loop, hch, Nat.pow_zero, Nat.div_one, hcond, if_false]
    rw [Node.get_bit, if_neg (by rw [hwf.size_eq]; omega)]
    rw [get_bit_eq_testBit]
    rfl
  | e + 2 =>
    intro n lb _ hdL hwf hlb hub
    have hL : e + 2 ≤ L := by omega
    have hch : L - (L - (e + 2)) - 1 = e + 1 := by omega
    have hcond : L - (e + 2) < L - 1 := by omega
    have hr : pos - lb < W ^ (e + 2) := by omega
    have hsp : 0 < W ^ (e + 1) := Nat.pos_pow_of_pos _ hW
    have hiW : (pos - lb) / W ^ (e + 1) < W := digit_lt W (e + 2) (pos - lb) hW (by omega) hr
    obtain ⟨hlo, hhi⟩ := digit_bounds (W ^ (e + 1)) (pos - lb) hsp
    have hmulsucc : ((pos - lb) / W ^ (e + 1) + 1) * W ^ (e + 1) =
        (pos - lb) / W ^ (e + 1) * W ^ (e + 1) + W ^ (e + 1) := by ring
    have hlen : n.children.length = W := hwf.children_length
    have hli : L - (e + 2) + 1 = L - (e + 1) := by omega
    rcases hx : n.children[(pos - lb) / W ^ (e + 1)]? with _ | x
    · exact absurd (List.getElem?_eq_none_iff.mp hx) (by omega)
    · have hca1 := childAt_nat n.children ((pos - lb) / W ^ (e + 1)) x hx
      rcases x with _ | c
      · show LayeredBitmap.get_loop W L pos (e + 1 + 1) (L - (e + 2)) lb n = _
        conv_lhs => rw [LayeredBitmap.get_loop]
        simp only [hch, if_pos hcond, hca1, exc_bind_ok]
        have hsm : subMem W (e + 2) n (pos - lb) = false := by
          rw [subMem, hx]
        rw [hsm]
        rfl
      · obtain ⟨hcwf, _, _⟩ := (hwf.interior ((pos - lb) / W ^ (e + 1)) hiW).2 c hx
        have hmod : pos - (lb + (pos - lb) / W ^ (e + 1) * W ^ (e + 1)) =
            (pos - lb) % W ^ (e + 1) := by
          have h2 := Nat.div_add_mod (pos - lb) (W ^ (e + 1))
          have h4 : (pos - lb) / W ^ (e + 1) * W ^ (e + 1) =
              W ^ (e + 1) * ((pos - lb) / W ^ (e + 1)) := by ring
          omega
        have hrec := get_loop_spec W L pos hW (e + 1) c
          (lb + (pos - lb) / W ^ (e + 1) * W ^ (e + 1)) (by omega) (by omega) hcwf
          (by omega) (by omega)
        show LayeredBitmap.get_loop W L pos (e + 1 + 1) (L - (e + 2)) lb n = _
        conv_lhs => rw [LayeredBitmap.get_loop]
        simp only [hch, if_pos hcond, hca1, exc_bind_ok, hli, hrec]
        have hsm : subMem W (e + 2) n (pos - lb) =
            subMem W (e + 1) c ((pos - lb) % W ^ (e + 1)) := by
          rw [subMem, hx]
        rw [hsm, hmod]

theorem get_spec : ∀ t, WFTree t → 2 ≤ t.num_layers → 0 < t.bitmap_size →
    ∀ pos : Nat, pos < t.bitmap_size ^ t.num_layers →
    (t.base_bitmap.children[pos / t.bitmap_size ^ (t.num_layers - 1)]? = some none →
      t.get (pos : Int) = .error (.valueError "The whole bitmap is empty.")) ∧
    (∀ c, t.base_bitmap.children[pos / t.bitmap_size ^ (t.num_layers - 1)]? = some (some c) →
      t.get (pos : Int) = .ok (if treeMem t pos then 1 else 0)) := by
  rintro ⟨L, root, W⟩ ⟨hsz, hroot⟩ hL hW pos hpos
  simp only at hsz hroot hL hW hpos ⊢
  obtain ⟨e, rfl⟩ : ∃ e, L = e + 2 := ⟨L - 2, by omega⟩
  have hg : ¬ ((pos : Int) < 0 ∨ ((root.size ^ (e + 2) : Nat) : Int) ≤ (pos : Int)) := by
    push_neg
    rw [hsz]
    exact ⟨Int.natCast_nonneg pos, by exact_mod_cast hpos⟩
  have harith1 : e + 2 - 1 = e + 1 := by omega
  have hsp : 0 < W ^ (e + 1) := Nat.pos_pow_of_pos _ hW
  have hiW : pos / W ^ (e + 1) < W := digit_lt W (e + 2) pos hW (by omega) hpos
  obtain ⟨hlo, hhi⟩ := digit_bounds (W ^ (e + 1)) pos hsp
  have hmulsucc : (pos / W ^ (e + 1) + 1) * W ^ (e + 1) =
      pos / W ^ (e + 1) * W ^ (e + 1) + W ^ (e + 1) := by ring
  constructor
  · intro hx
    have hca1 := childAt_nat root.children (pos / W ^ (e + 1)) none (by
      simpa [harith1, hsz] using hx)
    show LayeredBitmap.get _ _ = _
    simp only [LayeredBitmap.get]
    rw [if_neg hg]
    simp only [Int.toNat_ofNat, hsz, harith1, hca1, exc_bind_ok]
  · intro c hx
    rw [harith1] at hx
    have hca1 := childAt_nat root.children (pos / W ^ (e + 1)) (some c) hx
    obtain ⟨hcwf, _, _⟩ := (hroot.interior (pos / W ^ (e + 1)) hiW).2 c hx
    rw [Nat.zero_add] at hcwf
    have hmod : pos - pos / W ^ (e + 1) * W ^ (e + 1) = pos % W ^ (e + 1) := by
      have h2 := Nat.div_add_mod pos (W ^ (e + 1))
      have h4 : pos / W ^ (e + 1) * W ^ (e + 1) =
          W ^ (e + 1) * (pos / W ^ (e + 1)) := by ring
      omega
    have hrec := get_loop_spec W (e + 2) pos hW (e + 1) c
      (pos / W ^ (e + 1) * W ^ (e + 1)) (by omega) (by omega) hcwf (by omega) (by omega)
    rw [show e + 2 - (e + 1) = 1 from by omega] at hrec
    have hsm : treeMem ⟨e + 2, root, W⟩ pos = subMem W (e + 1) c (pos % W ^ (e + 1)) := by
      show subMem W (e + 2) root pos = _
      rw [subMem, hx]
    show LayeredBitmap.get _ _ = _
    simp only [LayeredBitmap.get]
    rw [if_neg hg]
    simp only [Int.toNat_ofNat, hsz, harith1, hca1, exc_bind_ok, hrec, hmod, hsm]

theorem WFNode.one_le {W L d : Nat} {n : Node} {lb : Nat} (h : WFNode W L d n lb) :
    1 ≤ d := by
  match d with
  | 0 => exact absurd h (by simp [WFNode])
  | d + 1 => omega

theorem anc_window (W L : Nat) (hW : 0 < W) (R : Node) :
    ∀ (anc : List Node) n d lb, AncOK W L R anc n d lb → WFNode W L d n lb →
      ∀ s, lb ≤ s → s < lb + W ^ d → subMem W L R s = subMem W d n (s - lb) := by
  intro anc
  induction anc with
  | nil =>
    rintro n d lb ⟨rfl, rfl, rfl⟩ hwf s hs1 hs2
    rw [Nat.sub_zero]
  | cons a rest ih =>
    rintro n d lb ⟨i, hiW, hpi, hlb, hlink, hawf, hrest⟩ hwf s hs1 hs2
    have hd1 : 1 ≤ d := hwf.one_le
    obtain ⟨dm, rfl⟩ : ∃ dm, d = dm + 1 := ⟨d - 1, by omega⟩
    have hsp : 0 < W ^ (dm + 1) := Nat.pos_pow_of_pos _ hW
    have halow : a.lower_bound ≤ s := by
      have : a.lower_bound ≤ lb := by omega
      omega
    have hahigh : s < a.lower_bound + W ^ (dm + 2) := by
      have h1 : (i + 1) * W ^ (dm + 1) ≤ W * W ^ (dm + 1) := Nat.mul_le_mul_right _ hiW
      have h2 : W * W ^ (dm + 1) = W ^ (dm + 2) := by ring
      have h3 : (i + 1) * W ^ (dm + 1) = i * W ^ (dm + 1) + W ^ (dm + 1) := by ring
      omega
    rw [ih a (dm + 2) a.lower_bound hrest hawf s halow hahigh]
    rw [subMem]
    have hdig : (s - a.lower_bound) / W ^ (dm + 1) = i := by
      have : s - a.lower_bound = i * W ^ (dm + 1) + (s - lb) := by omega
      rw [this]
      exact mul_add_div_self _ _ _ hsp (by omega)
    have hmodd : (s - a.lower_bound) % W ^ (dm + 1) = s - lb := by
      have : s - a.lower_bound = i * W ^ (dm + 1) + (s - lb) := by omega
      rw [this]
      exact mul_add_mod_self _ _ _ (by omega)
    rw [hdig, hlink, hmodd]

theorem find_next_desc_spec (W L : Nat) (hW : 0 < W) :
    ∀ d (f : Nat) n lb (t : Nat), WFNode W L d n lb → t < W → n.bitmap.testBit t = true →
      d ≤ f →
      ∃ r0, LayeredBitmap.find_next_desc f n ((t : Int) + 1) = .ok ((lb + r0 : Nat) : Int) ∧
        t * W ^ (d - 1) ≤ r0 ∧ r0 < (t + 1) * W ^ (d - 1) ∧ subMem W d n r0 = true ∧
        ∀ q, t * W ^ (d - 1) ≤ q → q < r0 → subMem W d n q = false := by
  intro d
  match d with
  | 0 => intro f n lb t hwf; exact absurd hwf (by simp [WFNode])
  | 1 =>
    intro f n lb t hwf htW hbit hf
    obtain ⟨f', rfl⟩ : ∃ f', f = f' + 1 := ⟨f - 1, by omega⟩
    have hidx : ((t : Int) + 1 - 1) = (t : Int) := by ring
    have hleaf := hwf.leaf_children t htW
    have hca : childAt n.children ((t : Int) + 1 - 1) = .ok none := by
      rw [hidx]
      exact childAt_nat n.children t none (by rw [← hwf.children_length] at htW; simpa using hleaf)
    refine ⟨t, ?_, by simpa using Nat.le_refl t, by simp [Nat.pow_zero], by simpa using hbit, ?_⟩
    · conv_lhs => rw [LayeredBitmap.find_next_desc]
      simp only [hca, exc_bind_ok]
      congr 1
      push_cast
      have := hwf.lower_bound_eq
      omega
    · intro q hq1 hq2
      rw [show (1 : Nat) - 1 = 0 from rfl, Nat.pow_zero, Nat.mul_one] at hq1
      omega
  | e + 2 =>
    intro f n lb t hwf htW hbit hf
    obtain ⟨f', rfl⟩ : ∃ f', f = f' + 1 := ⟨f - 1, by omega⟩
    have hsp : 0 < W ^ (e + 1) := Nat.pos_pow_of_pos _ hW
    obtain ⟨c, hc⟩ := (hwf.interior t htW).1.mp hbit
    obtain ⟨hcwf, hcpi, hcne⟩ := (hwf.interior t htW).2 c hc
    have hidx : ((t : Int) + 1 - 1) = (t : Int) := by ring
    have hca : childAt n.children ((t : Int) + 1 - 1) = .ok (some c) := by
      rw [hidx]
      exact childAt_nat n.children t (some c) hc
    -- the scan inside the child starts at 0 and finds its lowest set bit
    obtain ⟨t', ht'c, ht'least⟩ : ∃ t', c.bitmap.testBit t' = true ∧
        ∀ j, j < t' → c.bitmap.testBit j = false := by
      rcases find_next_bm_cases c.bitmap 0 with ⟨_, hall⟩ | ⟨t', _, hbt, hleast, _⟩
      · exact absurd (Nat.eq_of_testBit_eq fun i => by
          rw [hall i (Nat.zero_le i), Nat.zero_testBit]) hcne
      · exact ⟨t', hbt, fun j hj => hleast j (Nat.zero_le j) hj⟩
    have hscan : c.find_next 0 = ((t' : Int) + 1) := by
      rw [Node.find_next]
      exact find_next_bm_eq_succ c.bitmap 0 t' (Nat.zero_le t') ht'c
        (fun j _ hj => ht'least j hj)
    have ht'W : t' < W := by
      by_contra hcon
      rw [hcwf.bit_high t' (by omega)] at ht'c
      exact Bool.false_ne_true ht'c
    obtain ⟨r0', hrec, hb1, hb2, hsm, hmin⟩ :=
      find_next_desc_spec W L hW (e + 1) f' c (lb + t * W ^ (e + 1)) t' hcwf ht'W ht'c
        (by omega)
    have hr0lt : r0' < W ^ (e + 1) := by
      have h1 : (t' + 1) * W ^ e ≤ W * W ^ e := Nat.mul_le_mul_right _ ht'W
      have h2 : W * W ^ e = W ^ (e + 1) := by ring
      simp only [Nat.add_sub_cancel] at hb2
      omega
    have hdig : (t * W ^ (e + 1) + r0') / W ^ (e + 1) = t := mul_add_div_self _ _ _ hsp hr0lt
    have hmodd : (t * W ^ (e + 1) + r0') % W ^ (e + 1) = r0' := mul_add_mod_self _ _ _ hr0lt
    refine ⟨t * W ^ (e + 1) + r0', ?_, ?_, ?_, ?_, ?_⟩
    · conv_lhs => rw [LayeredBitmap.find_next_desc]
      simp only [hca, exc_bind_ok, hscan, hrec]
      congr 2
      omega
    · rw [show e + 2 - 1 = e + 1 from by omega]
      omega
    · rw [show e + 2 - 1 = e + 1 from by omega]
      have : (t + 1) * W ^ (e + 1) = t * W ^ (e + 1) + W ^ (e + 1) := by ring
      omega
    · rw [subMem, hdig, hc, hmodd]
      exact hsm
    · intro q hq1 hq2
      rw [show e + 2 - 1 = e + 1 from by omega] at hq1
      have hqlt : q < (t + 1) * W ^ (e + 1) := by
        have : (t + 1) * W ^ (e + 1) = t * W ^ (e + 1) + W ^ (e + 1) := by ring
        omega
      have hqdig : q / W ^ (e + 1) = t := by
        have hqd : q = t * W ^ (e + 1) + (q - t * W ^ (e + 1)) := by omega
        rw [hqd]
        apply mul_add_div_self _ _ _ hsp
        have : (t + 1) * W ^ (e + 1) = t * W ^ (e + 1) + W ^ (e + 1) := by ring
        omega
      have hqmod : q % W ^ (e + 1) = q - t * W ^ (e + 1) := by
        have hqd : q = t * W ^ (e + 1) + (q - t * W ^ (e + 1)) := by omega
        conv_lhs => rw [hqd]
        apply mul_add_mod_self
        have : (t + 1) * W ^ (e + 1) = t * W ^ (e + 1) + W ^ (e + 1) := by ring
        omega
      rw [subMem, hqdig, hc, hqmod]
      set m := q - t * W ^ (e + 1) with hm
      rcases Nat.lt_or_ge m (t' * W ^ e) with hlt | hge
      · -- below the least set bit of the child: no member lives there
        rcases Bool.eq_false_or_eq_true (subMem W (e + 1) c m) with hb | hb
        · have hdb := subMem_digit_bit W L hW (e + 1) c _ m hcwf hb
          simp only [Nat.add_sub_cancel] at hdb
          have : m / W ^ e < t' := by
            apply (Nat.div_lt_iff_lt_mul (Nat.pos_pow_of_pos _ hW)).mpr
            have h5 : t' * W ^ e ≤ t' * W ^ e := Nat.le_refl _
            omega
          rw [ht'least _ this] at hdb
          exact absurd hdb (by simp)
        · exact hb
      · exact hmin m hge (by omega)

theorem anc_lb_bound (W L : Nat) (hW : 0 < W) (R : Node) :
    ∀ (anc : List Node) n d lb, AncOK W L R anc n d lb → lb + W ^ d ≤ W ^ L := by
  intro anc
  induction anc with
  | nil =>
    rintro n d lb ⟨rfl, rfl, rfl⟩
    omega
  | cons a rest ih =>
    rintro n d lb ⟨i, hiW, _, hlb, _, _, hrest⟩
    have h1 := ih a (d + 1) a.lower_bound hrest
    have h2 : (i + 1) * W ^ d ≤ W * W ^ d := Nat.mul_le_mul_right _ hiW
    have h3 : W * W ^ d = W ^ (d + 1) := by ring
    have h4 : (i + 1) * W ^ d = i * W ^ d + W ^ d := by ring
    omega

theorem find_next_loop_pop (f : Nat) (p a : Node) (rest : List Node) (fi : Nat) :
    LayeredBitmap.find_next_loop (f + 1) true (some p) (a :: rest) fi =
      LayeredBitmap.find_next_loop (f + 1) false (some a) rest fi := rfl

theorem find_next_loop_root (f : Nat) (p : Node) (fi : Nat) :
    LayeredBitmap.find_next_loop (f + 1) true (some p) [] fi = .ok (-1) := rfl

theorem find_previous_loop_pop (W f : Nat) (p a : Node) (rest : List Node) (fi : Nat) :
    LayeredBitmap.find_previous_loop W (f + 1) true (some p) (a :: rest) fi =
      LayeredBitmap.find_previous_loop W (f + 1) false (some a) rest fi := rfl

theorem find_previous_loop_root (W f : Nat) (p : Node) (fi : Nat) :
    LayeredBitmap.find_previous_loop W (f + 1) true (some p) [] fi = .ok (-1) := rfl

theorem find_next_loop_step (f : Nat) (p : Node) (anc : List Node) (fi : Nat) :
    LayeredBitmap.find_next_loop (f + 1) false (some p) anc fi =
      (if -1 < p.find_next (fi + 1) then
        LayeredBitmap.find_next_desc 10 p (p.find_next (fi + 1))
      else LayeredBitmap.find_next_loop f true (some p) anc p.parent_index) := rfl

theorem find_previous_loop_step (W f : Nat) (p : Node) (anc : List Node) (fi : Nat) :
    LayeredBitmap.find_previous_loop W (f + 1) false (some p) anc fi =
      (if -1 < p.find_previous fi then
        LayeredBitmap.find_previous_desc W 10 p (p.find_previous fi)
      else LayeredBitmap.find_previous_loop W f true (some p) anc p.parent_index) := rfl

theorem find_next_loop_spec (W L : Nat) (hW : 0 < W) (hL9 : L ≤ 9) (R : Node) (x : Nat) :
    ∀ (anc : List Node) (p : Node) (dm lb fi f : Nat),
    AncOK W L R anc p (dm + 1) lb → WFNode W L (dm + 1) p lb →
    lb ≤ x → x < lb + W ^ (dm + 1) → fi < W →
    x < lb + (fi + 1) * W ^ dm →
    (∀ r, r < (fi + 1) * W ^ dm → subMem W (dm + 1) p r = true → lb + r ≤ x) →
    anc.length + 2 ≤ f → dm + 1 + anc.length = L →
    ∃ v, LayeredBitmap.find_next_loop f false (some p) anc fi = .ok v ∧ NextSpec W L R x v := by
  intro anc
  induction anc with
  | nil =>
    intro p dm lb fi f hanc hwf hlbx hxub hfiW hxfi hinv hf hdepth
    obtain ⟨f1, rfl⟩ : ∃ f1, f = f1 + 1 := ⟨f - 1, by omega⟩
    obtain ⟨hpR, hdL, hlb0⟩ := hanc
    rw [find_next_loop_step]
    rcases find_next_bm_cases p.bitmap (fi + 1) with ⟨heqv, hall⟩ | ⟨t, htfi, hbt, hleast, heqv⟩
    · have heq' : p.find_next (fi + 1) = -1 := by
        rw [Node.find_next, heqv]
      rw [heq', if_neg (by omega)]
      obtain ⟨g, rfl⟩ : ∃ g, f1 = g + 1 := ⟨f1 - 1, by omega⟩
      rw [find_next_loop_root]
      have hanc0 : AncOK W L R [] p (dm + 1) lb := ⟨hpR, hdL, hlb0⟩
      have hWL : W ^ (dm + 1) = W ^ L := by rw [hdL]
      refine ⟨-1, rfl, Or.inl ⟨rfl, ?_⟩⟩
      intro s hsW hsm
      have hsm' : subMem W (dm + 1) p s = true := by
        rw [← hpR, ← hdL] at hsm
        exact hsm
      have hslt : s < W ^ (dm + 1) := subMem_lt W L hW (dm + 1) p lb s hwf hsm'
      have hdig := subMem_digit_bit W L hW (dm + 1) p lb s hwf hsm'
      simp only [Nat.add_sub_cancel] at hdig
      rcases Nat.lt_or_ge s ((fi + 1) * W ^ dm) with hlt | hge
      · have := hinv s hlt hsm'
        omega
      · have hj : fi + 1 ≤ s / W ^ dm :=
          (Nat.le_div_iff_mul_le (Nat.pos_pow_of_pos _ hW)).mpr (by omega)
        rw [hall (s / W ^ dm) (by omega)] at hdig
        exact absurd hdig (by simp)
    · have heq' : p.find_next (fi + 1) = ((t : Int) + 1) := by
        rw [Node.find_next, heqv]
      rw [heq', if_pos (by omega)]
      have htW : t < W := by
        by_contra hcon
        rw [hwf.bit_high t (by omega)] at hbt
        exact Bool.false_ne_true hbt
      have hanc0 : AncOK W L R [] p (dm + 1) lb := ⟨hpR, hdL, hlb0⟩
      have hWL : W ^ (dm + 1) = W ^ L := by rw [hdL]
      obtain ⟨r0, hdesc, hr01, hr02, hr0m, hr0min⟩ :=
        find_next_desc_spec W L hW (dm + 1) 10 p lb t hwf htW hbt (by omega)
      simp only [Nat.add_sub_cancel] at hr01 hr02 hr0min
      refine ⟨_, hdesc, Or.inr ⟨lb + r0, rfl, ?_, ?_, ?_, ?_⟩⟩
      · have h1 := anc_lb_bound W L hW R [] p (dm + 1) lb hanc0
        have h2 : (t + 1) * W ^ dm ≤ W * W ^ dm := Nat.mul_le_mul_right _ htW
        have h3 : W * W ^ dm = W ^ (dm + 1) := by ring
        omega
      · rw [anc_window W L hW R [] p (dm + 1) lb hanc0 hwf (lb + r0) (by omega) (by
          have h2 : (t + 1) * W ^ dm ≤ W * W ^ dm := Nat.mul_le_mul_right _ htW
          have h3 : W * W ^ dm = W ^ (dm + 1) := by ring
          omega)]
        rw [Nat.add_sub_cancel_left]
        exact hr0m
      · have h4 : (fi + 1) * W ^ dm ≤ t * W ^ dm := Nat.mul_le_mul_right _ (by omega)
        omega
      · intro s hsW hsm hxs
        have hsm' : subMem W (dm + 1) p (s - lb) = true := by
          rw [← anc_window W L hW R [] p (dm + 1) lb hanc0 hwf s (by omega) (by omega)]
          exact hsm
        rcases Nat.lt_or_ge (s - lb) ((fi + 1) * W ^ dm) with hlt | hge
        · have := hinv (s - lb) hlt hsm'
          omega
        · have hj : fi + 1 ≤ (s - lb) / W ^ dm :=
            (Nat.le_div_iff_mul_le (Nat.pos_pow_of_pos _ hW)).mpr (by omega)
          have hdig := subMem_digit_bit W L hW (dm + 1) p lb (s - lb) hwf hsm'
          simp only [Nat.add_sub_cancel] at hdig
          have htle : t ≤ (s - lb) / W ^ dm := by
            by_contra hcon
            rw [hleast ((s - lb) / W ^ dm) (by omega) (by omega)] at hdig
            exact absurd hdig (by simp)
          rcases Nat.eq_or_lt_of_le htle with hjt | hjt
          · have hts : t * W ^ dm ≤ s - lb := by
              obtain ⟨hd1, _⟩ := digit_bounds (W ^ dm) (s - lb) (Nat.pos_pow_of_pos _ hW)
              rw [← hjt] at hd1
              omega
            rcases Nat.lt_or_ge (s - lb) r0 with hcase | hcase
            · rw [hr0min (s - lb) hts hcase] at hsm'
              exact absurd hsm' (by simp)
            · omega
          · obtain ⟨hd1, _⟩ := digit_bounds (W ^ dm) (s - lb) (Nat.pos_pow_of_pos _ hW)
            have h5 : (t + 1) * W ^ dm ≤ (s - lb) / W ^ dm * W ^ dm :=
              Nat.mul_le_mul_right _ (by omega)
            omega
  | cons a rest ih =>
    intro p dm lb fi f hanc hwf hlbx hxub hfiW hxfi hinv hf hdepth
    obtain ⟨f1, rfl⟩ : ∃ f1, f = f1 + 1 := ⟨f - 1, by omega⟩
    obtain ⟨i, hiW, hpi, hlbeq, hlink, hawf, hrest⟩ := hanc
    rw [find_next_loop_step]
    rcases find_next_bm_cases p.bitmap (fi + 1) with ⟨heqv, hall⟩ | ⟨t, htfi, hbt, hleast, heqv⟩
    · have heq' : p.find_next (fi + 1) = -1 := by
        rw [Node.find_next, heqv]
      rw [heq', if_neg (by omega), hpi]
      obtain ⟨g, rfl⟩ : ∃ g, f1 = g + 1 := ⟨f1 - 1, by simp at hf; omega⟩
      rw [find_next_loop_pop]
      have hsp : 0 < W ^ (dm + 1) := Nat.pos_pow_of_pos _ hW
      have hmul1 : (i + 1) * W ^ (dm + 1) = i * W ^ (dm + 1) + W ^ (dm + 1) := by ring
      have hmulW : W * W ^ (dm + 1) = W ^ (dm + 1 + 1) := by ring
      have hile : (i + 1) * W ^ (dm + 1) ≤ W * W ^ (dm + 1) := Nat.mul_le_mul_right _ hiW
      apply ih a (dm + 1) a.lower_bound i (g + 1) hrest hawf (by omega) (by omega) hiW
        (by omega) ?_ (by simp at hf ⊢; omega) (by simp at hdepth; omega)
      -- the climbing invariant at the parent
      intro r hrlt hrm
      have hjlt : r / W ^ (dm + 1) < i + 1 := by
        apply (Nat.div_lt_iff_lt_mul hsp).mpr
        omega
      rcases Nat.lt_or_ge (r / W ^ (dm + 1)) i with hji | hji
      · obtain ⟨hd1, hd2⟩ := digit_bounds (W ^ (dm + 1)) r hsp
        have h5 : (r / W ^ (dm + 1) + 1) * W ^ (dm + 1) ≤ i * W ^ (dm + 1) :=
          Nat.mul_le_mul_right _ (by omega)
        omega
      · have hjeq : r / W ^ (dm + 1) = i := by omega
        have hrm' := hrm
        rw [subMem, hjeq, hlink] at hrm'
        have hrge : i * W ^ (dm + 1) ≤ r := by
          rw [← hjeq]
          exact Nat.div_mul_le_self r _
        have hrub : r - i * W ^ (dm + 1) < W ^ (dm + 1) := by
          have h3 : (i + 1) * W ^ (dm + 1) = i * W ^ (dm + 1) + W ^ (dm + 1) := by ring
          omega
        have hrmod : r % W ^ (dm + 1) = r - i * W ^ (dm + 1) := by
          have h5 : r = i * W ^ (dm + 1) + (r - i * W ^ (dm + 1)) := by omega
          calc r % W ^ (dm + 1)
              = (i * W ^ (dm + 1) + (r - i * W ^ (dm + 1))) % W ^ (dm + 1) := by rw [← h5]
            _ = r - i * W ^ (dm + 1) := mul_add_mod_self _ _ _ hrub
        rw [hrmod] at hrm'
        have hdig := subMem_digit_bit W L hW (dm + 1) p lb _ hwf hrm'
        simp only [Nat.add_sub_cancel] at hdig
        have hjfi : (r - i * W ^ (dm + 1)) / W ^ dm ≤ fi := by
          by_contra hcon
          rw [hall ((r - i * W ^ (dm + 1)) / W ^ dm) (by omega)] at hdig
          exact absurd hdig (by simp)
        have hrlt' : r - i * W ^ (dm + 1) < (fi + 1) * W ^ dm := by
          obtain ⟨_, hd2⟩ := digit_bounds (W ^ dm) (r - i * W ^ (dm + 1))
            (Nat.pos_pow_of_pos _ hW)
          have h5 : ((r - i * W ^ (dm + 1)) / W ^ dm + 1) * W ^ dm ≤ (fi + 1) * W ^ dm :=
            Nat.mul_le_mul_right _ (by omega)
          omega
        have := hinv (r - i * W ^ (dm + 1)) hrlt' hrm'
        omega
    · have heq' : p.find_next (fi + 1) = ((t : Int) + 1) := by
        rw [Node.find_next, heqv]
      rw [heq', if_pos (by omega)]
      have htW : t < W := by
        by_contra hcon
        rw [hwf.bit_high t (by omega)] at hbt
        exact Bool.false_ne_true hbt
      obtain ⟨r0, hdesc, hr01, hr02, hr0m, hr0min⟩ :=
        find_next_desc_spec W L hW (dm + 1) 10 p lb t hwf htW hbt (by
          simp at hdepth
          omega)
      simp only [Nat.add_sub_cancel] at hr01 hr02 hr0min
      have hanc' : AncOK W L R (a :: rest) p (dm + 1) lb :=
        ⟨i, hiW, hpi, hlbeq, hlink, hawf, hrest⟩
      have hr0W : r0 < W ^ (dm + 1) := by
        have h2 : (t + 1) * W ^ dm ≤ W * W ^ dm := Nat.mul_le_mul_right _ htW
        have h3 : W * W ^ dm = W ^ (dm + 1) := by ring
        omega
      refine ⟨_, hdesc, Or.inr ⟨lb + r0, rfl, ?_, ?_, ?_, ?_⟩⟩
      · have h1 := anc_lb_bound W L hW R (a :: rest) p (dm + 1) lb hanc'
        omega
      · rw [anc_window W L hW R (a :: rest) p (dm + 1) lb hanc' hwf (lb + r0)
          (by omega) (by omega)]
        rw [Nat.add_sub_cancel_left]
        exact hr0m
      · have h4 : (fi + 1) * W ^ dm ≤ t * W ^ dm := Nat.mul_le_mul_right _ (by omega)
        omega
      · intro s hsW hsm hxs
        rcases Nat.lt_or_ge s (lb + W ^ (dm + 1)) with hin | hout
        · have hsm' : subMem W (dm + 1) p (s - lb) = true := by
            rw [← anc_window W L hW R (a :: rest) p (dm + 1) lb hanc' hwf s (by omega) hin]
            exact hsm
          rcases Nat.lt_or_ge (s - lb) ((fi + 1) * W ^ dm) with hlt | hge
          · have := hinv (s - lb) hlt hsm'
            omega
          · have hdig := subMem_digit_bit W L hW (dm + 1) p lb (s - lb) hwf hsm'
            simp only [Nat.add_sub_cancel] at hdig
            have hj : fi + 1 ≤ (s - lb) / W ^ dm :=
              (Nat.le_div_iff_mul_le (Nat.pos_pow_of_pos _ hW)).mpr (by omega)
            have htle : t ≤ (s - lb) / W ^ dm := by
              by_contra hcon
              rw [hleast ((s - lb) / W ^ dm) (by omega) (by omega)] at hdig
              exact absurd hdig (by simp)
            rcases Nat.eq_or_lt_of_le htle with hjt | hjt
            · have hts : t * W ^ dm ≤ s - lb := by
                obtain ⟨hd1, _⟩ := digit_bounds (W ^ dm) (s - lb) (Nat.pos_pow_of_pos _ hW)
                rw [← hjt] at hd1
                omega
              rcases Nat.lt_or_ge (s - lb) r0 with hcase | hcase
              · rw [hr0min (s - lb) hts hcase] at hsm'
                exact absurd hsm' (by simp)
              · omega
            · obtain ⟨hd1, _⟩ := digit_bounds (W ^ dm) (s - lb) (Nat.pos_pow_of_pos _ hW)
              have h5 : (t + 1) * W ^ dm ≤ (s - lb) / W ^ dm * W ^ dm :=
                Nat.mul_le_mul_right _ (by omega)
              omega
        · omega
theorem anc_depth (W L : Nat) (R : Node) :
    ∀ (anc : List Node) n d lb, AncOK W L R anc n d lb → d + anc.length = L := by
  intro anc
  induction anc with
  | nil =>
    rintro n d lb ⟨_, rfl, _⟩
    simp
  | cons a rest ih =>
    rintro n d lb ⟨i, _, _, _, _, _, hrest⟩
    have := ih a (d + 1) a.lower_bound hrest
    simp at this ⊢
    omega

/-- The descent loop of `go_current` stops at a node `p` (with `dm` full
layers strictly below it) whose window contains `x`; the returned index is
the digit of `x` at that node, the ancestor stack is coherent, and no member
of `p`'s subtree at or below that digit's block exceeds `x`. -/
theorem go_loop_spec (W L x : Nat) (hW : 0 < W) (R : Node) :
    ∀ d (n : Node) (lb : Nat) (anc : List Node),
    WFNode W L d n lb → AncOK W L R anc n d lb →
    lb ≤ x → x < lb + W ^ d → 1 ≤ d → d ≤ L - 1 →
    ∃ anc2 p dm lb2,
      LayeredBitmap.go_loop W L x d (L - d) lb n anc =
        .ok (anc2, p, (x - lb2) / W ^ dm) ∧
      AncOK W L R anc2 p (dm + 1) lb2 ∧ WFNode W L (dm + 1) p lb2 ∧
      lb2 ≤ x ∧ x < lb2 + W ^ (dm + 1) ∧ (x - lb2) / W ^ dm < W ∧
      (∀ r, r < ((x - lb2) / W ^ dm + 1) * W ^ dm → subMem W (dm + 1) p r = true →
        lb2 + r ≤ x) ∧
      ∀ r, (x - lb2) / W ^ dm * W ^ dm ≤ r → subMem W (dm + 1) p r = true →
        x ≤ lb2 + r := by
  intro d
  match d with
  | 0 => intro n lb anc _ _ _ _ h1 _; omega
  | 1 =>
    intro n lb anc hwf hanc hlbx hub _ hdL
    have hch : L - (L - 1) - 1 = 0 := by omega
    have hcond : ¬ (L - 1 < L - 1) := by omega
    refine ⟨anc, n, 0, lb, ?_, hanc, hwf, hlbx, by simpa using hub, ?_, ?_, ?_⟩
    · show LayeredBitmap.go_loop W L x (0 + 1) (L - 1) lb n anc = _
      simp only [LayeredBitmap.go_loop, hch, hcond, if_false]
    · rw [Nat.pow_one] at hub
      simp only [Nat.pow_zero, Nat.div_one]
      omega
    · intro r hr _
      simp only [Nat.pow_zero, Nat.div_one, Nat.mul_one] at hr
      omega
    · intro r hr _
      simp only [Nat.pow_zero, Nat.div_one, Nat.mul_one] at hr
      omega
  | e + 2 =>
    intro n lb anc hwf hanc hlbx hub _ hdL
    have hch : L - (L - (e + 2)) - 1 = e + 1 := by omega
    have hcond : L - (e + 2) < L - 1 := by omega
    have hsp : 0 < W ^ (e + 1) := Nat.pos_pow_of_pos _ hW
    have hr : x - lb < W ^ (e + 2) := by omega
    have hiW : (x - lb) / W ^ (e + 1) < W := digit_lt W (e + 2) (x - lb) hW (by omega) hr
    obtain ⟨hlo, hhi⟩ := digit_bounds (W ^ (e + 1)) (x - lb) hsp
    have hmulsucc : ((x - lb) / W ^ (e + 1) + 1) * W ^ (e + 1) =
        (x - lb) / W ^ (e + 1) * W ^ (e + 1) + W ^ (e + 1) := by ring
    have hlen : n.children.length = W := hwf.children_length
    have hli : L - (e + 2) + 1 = L - (e + 1) := by omega
    rcases hx : n.children[(x - lb) / W ^ (e + 1)]? with _ | x0
    · exact absurd (List.getElem?_eq_none_iff.mp hx) (by omega)
    · have hca1 := childAt_nat n.children ((x - lb) / W ^ (e + 1)) x0 hx
      rcases x0 with _ | c
      · -- the child at the digit of `x` is absent: the descent stops here
        refine ⟨anc, n, e + 1, lb, ?_, hanc, hwf, hlbx, hub, hiW, ?_, ?_⟩
        · show LayeredBitmap.go_loop W L x (e + 1 + 1) (L - (e + 2)) lb n anc = _
          conv_lhs => rw [LayeredBitmap.go_loop]
          simp only [hch, if_pos hcond, hca1, exc_bind_ok]
        · intro r hrlt hrm
          have hjle : r / W ^ (e + 1) < (x - lb) / W ^ (e + 1) + 1 := by
            apply (Nat.div_lt_iff_lt_mul hsp).mpr
            omega
          rcases Nat.lt_or_ge (r / W ^ (e + 1)) ((x - lb) / W ^ (e + 1)) with hji | hji
          · obtain ⟨hd1, hd2⟩ := digit_bounds (W ^ (e + 1)) r hsp
            have h5 : (r / W ^ (e + 1) + 1) * W ^ (e + 1) ≤
                (x - lb) / W ^ (e + 1) * W ^ (e + 1) :=
              Nat.mul_le_mul_right _ (by omega)
            omega
          · have hjeq : r / W ^ (e + 1) = (x - lb) / W ^ (e + 1) := by omega
            rw [subMem, hjeq, hx] at hrm
            exact absurd hrm (by simp)
        · intro r hrge hrm
          have hji : (x - lb) / W ^ (e + 1) ≤ r / W ^ (e + 1) :=
            (Nat.le_div_iff_mul_le hsp).mpr hrge
          rcases Nat.eq_or_lt_of_le hji with hjeq | hjgt
          · rw [subMem, ← hjeq, hx] at hrm
            exact absurd hrm (by simp)
          · obtain ⟨hd1, hd2⟩ := digit_bounds (W ^ (e + 1)) r hsp
            have h5 : ((x - lb) / W ^ (e + 1) + 1) * W ^ (e + 1) ≤
                r / W ^ (e + 1) * W ^ (e + 1) :=
              Nat.mul_le_mul_right _ (by omega)
            omega
      · obtain ⟨hcwf, hcpi, _⟩ := (hwf.interior ((x - lb) / W ^ (e + 1)) hiW).2 c hx
        have hanc' : AncOK W L R (n :: anc) c (e + 1)
            (lb + (x - lb) / W ^ (e + 1) * W ^ (e + 1)) := by
          refine ⟨(x - lb) / W ^ (e + 1), hiW, hcpi, ?_, hx, ?_, ?_⟩
          · rw [hwf.lower_bound_eq]
          · rw [hwf.lower_bound_eq]
            exact hwf
          · rw [hwf.lower_bound_eq]
            exact hanc
        obtain ⟨anc2, p, dm, lb2, heq, hrest⟩ :=
          go_loop_spec W L x hW R (e + 1) c (lb + (x - lb) / W ^ (e + 1) * W ^ (e + 1))
            (n :: anc) hcwf hanc' (by omega) (by omega) (by omega) (by omega)
        refine ⟨anc2, p, dm, lb2, ?_, hrest⟩
        show LayeredBitmap.go_loop W L x (e + 1 + 1) (L - (e + 2)) lb n anc = _
        conv_lhs => rw [LayeredBitmap.go_loop]
        simp only [hch, if_pos hcond, hca1, exc_bind_ok, hli, heq]

/-- `go_current` on a well-formed tree: it returns a node whose window
contains `x` together with the digit of `x` there and a coherent ancestor
stack, and every member at or below that digit's block is at most `x`. -/
theorem go_current_spec : ∀ (t : LayeredBitmap), WFTree t → 2 ≤ t.num_layers →
    0 < t.bitmap_size → ∀ x : Nat, x < t.bitmap_size ^ t.num_layers →
    ∃ anc p dm lb2,
      t.go_current (x : Int) = .ok (anc, p, (x - lb2) / t.bitmap_size ^ dm) ∧
      AncOK t.bitmap_size t.num_layers t.base_bitmap anc p (dm + 1) lb2 ∧
      WFNode t.bitmap_size t.num_layers (dm + 1) p lb2 ∧
      lb2 ≤ x ∧ x < lb2 + t.bitmap_size ^ (dm + 1) ∧
      (x - lb2) / t.bitmap_size ^ dm < t.bitmap_size ∧
      (∀ r, r < ((x - lb2) / t.bitmap_size ^ dm + 1) * t.bitmap_size ^ dm →
        subMem t.bitmap_size (dm + 1) p r = true → lb2 + r ≤ x) ∧
      ∀ r, (x - lb2) / t.bitmap_size ^ dm * t.bitmap_size ^ dm ≤ r →
        subMem t.bitmap_size (dm + 1) p r = true → x ≤ lb2 + r := by
  rintro ⟨L, root, W⟩ ⟨hsz, hroot⟩ hL hW x hx
  simp only at hsz hroot hL hW hx ⊢
  obtain ⟨e, rfl⟩ : ∃ e, L = e + 2 := ⟨L - 2, by omega⟩
  have hg : ¬ ((x : Int) < 0 ∨ ((root.size ^ (e + 2) : Nat) : Int) ≤ (x : Int)) := by
    push_neg
    rw [hsz]
    exact ⟨Int.natCast_nonneg x, by exact_mod_cast hx⟩
  have harith1 : e + 2 - 1 = e + 1 := by omega
  have hsp : 0 < W ^ (e + 1) := Nat.pos_pow_of_pos _ hW
  have hiW : x / W ^ (e + 1) < W := digit_lt W (e + 2) x hW (by omega) hx
  obtain ⟨hlo, hhi⟩ := digit_bounds (W ^ (e + 1)) x hsp
  have hmulsucc : (x / W ^ (e + 1) + 1) * W ^ (e + 1) =
      x / W ^ (e + 1) * W ^ (e + 1) + W ^ (e + 1) := by ring
  have hlen : root.children.length = W := hroot.children_length
  rcases hx0 : root.children[x / W ^ (e + 1)]? with _ | x0
  · exact absurd (List.getElem?_eq_none_iff.mp hx0) (by omega)
  · have hca1 := childAt_nat root.children (x / W ^ (e + 1)) x0 hx0
    rcases x0 with _ | c
    · -- the root has no child at the leading digit of `x`
      refine ⟨[], root, e + 1, 0, ?_, ⟨rfl, rfl, rfl⟩, hroot, Nat.zero_le x,
        by simpa using hx, by simpa using hiW, ?_, ?_⟩
      · show LayeredBitmap.go_current _ _ = _
        simp only [LayeredBitmap.go_current]
        rw [if_neg hg]
        simp only [Int.toNat_ofNat, hsz, harith1, hca1, exc_bind_ok, Nat.sub_zero]
      · intro r hrlt hrm
        simp only [Nat.sub_zero] at hrlt ⊢
        have hjle : r / W ^ (e + 1) < x / W ^ (e + 1) + 1 := by
          apply (Nat.div_lt_iff_lt_mul hsp).mpr
          omega
        rcases Nat.lt_or_ge (r / W ^ (e + 1)) (x / W ^ (e + 1)) with hji | hji
        · obtain ⟨hd1, hd2⟩ := digit_bounds (W ^ (e + 1)) r hsp
          have h5 : (r / W ^ (e + 1) + 1) * W ^ (e + 1) ≤
              x / W ^ (e + 1) * W ^ (e + 1) :=
            Nat.mul_le_mul_right _ (by omega)
          omega
        · have hjeq : r / W ^ (e + 1) = x / W ^ (e + 1) := by omega
          rw [show subMem W (e + 1 + 1) root r = subMem W (e + 2) root r from rfl,
            subMem, hjeq, hx0] at hrm
          exact absurd hrm (by simp)
      · intro r hrge hrm
        simp only [Nat.sub_zero] at hrge ⊢
        have hji : x / W ^ (e + 1) ≤ r / W ^ (e + 1) :=
          (Nat.le_div_iff_mul_le hsp).mpr hrge
        rcases Nat.eq_or_lt_of_le hji with hjeq | hjgt
        · rw [show subMem W (e + 1 + 1) root r = subMem W (e + 2) root r from rfl,
            subMem, ← hjeq, hx0] at hrm
          exact absurd hrm (by simp)
        · obtain ⟨hd1, hd2⟩ := digit_bounds (W ^ (e + 1)) r hsp
          have h5 : (x / W ^ (e + 1) + 1) * W ^ (e + 1) ≤
              r / W ^ (e + 1) * W ^ (e + 1) :=
            Nat.mul_le_mul_right _ (by omega)
          omega
    · obtain ⟨hcwf, hcpi, _⟩ := (hroot.interior (x / W ^ (e + 1)) hiW).2 c hx0
      rw [Nat.zero_add] at hcwf
      have hanc' : AncOK W (e + 2) root [root] c (e + 1)
          (x / W ^ (e + 1) * W ^ (e + 1)) := by
        refine ⟨x / W ^ (e + 1), hiW, hcpi, ?_, hx0, ?_, ?_⟩
        · rw [hroot.lower_bound_eq, Nat.zero_add]
        · rw [hroot.lower_bound_eq]
          exact hroot
        · exact ⟨rfl, rfl, hroot.lower_bound_eq⟩
      obtain ⟨anc2, p, dm, lb2, heq, hrest⟩ :=
        go_loop_spec W (e + 2) x hW root (e + 1) c (x / W ^ (e + 1) * W ^ (e + 1))
          [root] hcwf hanc' (by omega) (by omega) (by omega) (by omega)
      rw [show e + 2 - (e + 1) = 1 from by omega] at heq
      refine ⟨anc2, p, dm, lb2, ?_, hrest⟩
      show LayeredBitmap.go_current _ _ = _
      simp only [LayeredBitmap.go_current]
      rw [if_neg hg]
      simp only [Int.toNat_ofNat, hsz, harith1, hca1, exc_bind_ok, heq]

/-- `LayeredBitmap.find_next` on a well-formed tree returns the least member
strictly above `x`, or `-1` when there is none. -/
theorem find_next_tree : ∀ (t : LayeredBitmap), WFTree t → 2 ≤ t.num_layers →
    t.num_layers ≤ 9 → 0 < t.bitmap_size → ∀ x : Nat, x < t.bitmap_size ^ t.num_layers →
    ∃ v, t.find_next (x : Int) = .ok v ∧
      NextSpec t.bitmap_size t.num_layers t.base_bitmap x v := by
  intro t hWF hL2 hL9 hW x hx
  obtain ⟨anc, p, dm, lb2, heq, hanc, hwf, hlbx, hub, hiW, hinv, _⟩ :=
    go_current_spec t hWF hL2 hW x hx
  have hdepth := anc_depth _ _ _ anc p (dm + 1) lb2 hanc
  obtain ⟨hlo, hhi⟩ := digit_bounds (t.bitmap_size ^ dm) (x - lb2)
    (Nat.pos_pow_of_pos _ hW)
  obtain ⟨v, hv, hspec⟩ := find_next_loop_spec t.bitmap_size t.num_layers hW hL9
    t.base_bitmap x anc p dm lb2 ((x - lb2) / t.bitmap_size ^ dm) 10 hanc hwf hlbx hub
    hiW (by omega) hinv (by omega) hdepth
  refine ⟨v, ?_, hspec⟩
  simp only [LayeredBitmap.find_next, heq, exc_bind_ok, Node.pyTruthy]
  rw [if_neg (by simp), hv]

/-- Mirror of `find_next_desc_spec` for the predecessor search: from a level
whose word has bit `g` set, the inner descent of `find_previous` reaches the
greatest member of the `g`-th block. -/
theorem find_previous_desc_spec (W L : Nat) (hW : 0 < W) :
    ∀ d (f : Nat) n lb (g : Nat), WFNode W L d n lb → g < W →
      n.bitmap.testBit g = true → d ≤ f →
      ∃ r0, LayeredBitmap.find_previous_desc W f n ((g : Int) + 1) =
          .ok ((lb + r0 : Nat) : Int) ∧
        g * W ^ (d - 1) ≤ r0 ∧ r0 < (g + 1) * W ^ (d - 1) ∧ subMem W d n r0 = true ∧
        ∀ q, r0 < q → q < (g + 1) * W ^ (d - 1) → subMem W d n q = false := by
  intro d
  match d with
  | 0 => intro f n lb g hwf; exact absurd hwf (by simp [WFNode])
  | 1 =>
    intro f n lb g hwf hgW hbit hf
    obtain ⟨f', rfl⟩ : ∃ f', f = f' + 1 := ⟨f - 1, by omega⟩
    have hidx : ((g : Int) + 1 - 1) = (g : Int) := by ring
    have hleaf := hwf.leaf_children g hgW
    have hca : childAt n.children ((g : Int) + 1 - 1) = .ok none := by
      rw [hidx]
      exact childAt_nat n.children g none hleaf
    refine ⟨g, ?_, by simpa using Nat.le_refl g, by simp [Nat.pow_zero],
      by simpa using hbit, ?_⟩
    · conv_lhs => rw [LayeredBitmap.find_previous_desc]
      simp only [hca, exc_bind_ok]
      congr 1
      push_cast
      have := hwf.lower_bound_eq
      omega
    · intro q hq1 hq2
      rw [show (1 : Nat) - 1 = 0 from rfl, Nat.pow_zero, Nat.mul_one] at hq2
      omega
  | e + 2 =>
    intro f n lb g hwf hgW hbit hf
    obtain ⟨f', rfl⟩ : ∃ f', f = f' + 1 := ⟨f - 1, by omega⟩
    have hsp : 0 < W ^ (e + 1) := Nat.pos_pow_of_pos _ hW
    obtain ⟨c, hc⟩ := (hwf.interior g hgW).1.mp hbit
    obtain ⟨hcwf, hcpi, hcne⟩ := (hwf.interior g hgW).2 c hc
    have hidx : ((g : Int) + 1 - 1) = (g : Int) := by ring
    have hca : childAt n.children ((g : Int) + 1 - 1) = .ok (some c) := by
      rw [hidx]
      exact childAt_nat n.children g (some c) hc
    -- the scan inside the child looks below `W` and finds its highest set bit
    obtain ⟨g', hg'c, hg'great⟩ : ∃ g', c.bitmap.testBit g' = true ∧
        ∀ j, g' < j → c.bitmap.testBit j = false := by
      rcases find_previous_bm_cases c.bitmap W with ⟨_, hall⟩ | ⟨g', hg'W, hbt, hgreat, _⟩
      · refine absurd (Nat.eq_of_testBit_eq fun i => ?_) hcne
        rcases Nat.lt_or_ge i W with hiW | hiW
        · rw [hall i hiW, Nat.zero_testBit]
        · rw [hcwf.bit_high i hiW, Nat.zero_testBit]
      · refine ⟨g', hbt, fun j hj => ?_⟩
        rcases Nat.lt_or_ge j W with hjW | hjW
        · exact hgreat j hj hjW
        · exact hcwf.bit_high j hjW
    have hg'W : g' < W := by
      by_contra hcon
      rw [hcwf.bit_high g' (by omega)] at hg'c
      exact Bool.false_ne_true hg'c
    have hscan : c.find_previous W = ((g' : Int) + 1) := by
      rw [Node.find_previous]
      exact find_previous_bm_eq_succ c.bitmap W g' hg'c hg'W (fun j hj _ => hg'great j hj)
    obtain ⟨r0', hrec, hb1, hb2, hsm, hmax⟩ :=
      find_previous_desc_spec W L hW (e + 1) f' c (lb + g * W ^ (e + 1)) g' hcwf hg'W hg'c
        (by omega)
    simp only [Nat.add_sub_cancel] at hb1 hb2 hmax
    have hr0lt : r0' < W ^ (e + 1) := by
      have h1 : (g' + 1) * W ^ e ≤ W * W ^ e := Nat.mul_le_mul_right _ hg'W
      have h2 : W * W ^ e = W ^ (e + 1) := by ring
      omega
    have hdig : (g * W ^ (e + 1) + r0') / W ^ (e + 1) = g := mul_add_div_self _ _ _ hsp hr0lt
    have hmodd : (g * W ^ (e + 1) + r0') % W ^ (e + 1) = r0' := mul_add_mod_self _ _ _ hr0lt
    refine ⟨g * W ^ (e + 1) + r0', ?_, ?_, ?_, ?_, ?_⟩
    · conv_lhs => rw [LayeredBitmap.find_previous_desc]
      simp only [hca, exc_bind_ok, hscan, hrec]
      congr 2
      omega
    · rw [show e + 2 - 1 = e + 1 from by omega]
      omega
    · rw [show e + 2 - 1 = e + 1 from by omega]
      have : (g + 1) * W ^ (e + 1) = g * W ^ (e + 1) + W ^ (e + 1) := by ring
      omega
    · rw [subMem, hdig, hc, hmodd]
      exact hsm
    · intro q hq1 hq2
      rw [show e + 2 - 1 = e + 1 from by omega] at hq2
      have hmulg : (g + 1) * W ^ (e + 1) = g * W ^ (e + 1) + W ^ (e + 1) := by ring
      have hqdig : q / W ^ (e + 1) = g := by
        have hqd : q = g * W ^ (e + 1) + (q - g * W ^ (e + 1)) := by omega
        rw [hqd]
        apply mul_add_div_self _ _ _ hsp
        omega
      have hqmod : q % W ^ (e + 1) = q - g * W ^ (e + 1) := by
        have hqd : q = g * W ^ (e + 1) + (q - g * W ^ (e + 1)) := by omega
        conv_lhs => rw [hqd]
        apply mul_add_mod_self
        omega
      rw [subMem, hqdig, hc, hqmod]
      set m := q - g * W ^ (e + 1) with hm
      rcases Nat.lt_or_ge m ((g' + 1) * W ^ e) with hlt | hge
      · exact hmax m (by omega) hlt
      · -- above the greatest set bit of the child: no member lives there
        rcases Bool.eq_false_or_eq_true (subMem W (e + 1) c m) with hb | hb
        · have hdb := subMem_digit_bit W L hW (e + 1) c _ m hcwf hb
          simp only [Nat.add_sub_cancel] at hdb
          have hjg : g' + 1 ≤ m / W ^ e :=
            (Nat.le_div_iff_mul_le (Nat.pos_pow_of_pos _ hW)).mpr hge
          rw [hg'great (m / W ^ e) (by omega)] at hdb
          exact absurd hdb (by simp)
        · exact hb

/-- The ascent loop of `find_previous`, by induction on the ancestor stack:
if every member at or above the current digit's block is at least `x`, the
loop returns the greatest member strictly below `x` (such a member starts
below the block), or `-1` when the set has no member below `x`. -/
theorem find_previous_loop_spec (W L : Nat) (hW : 0 < W) (hL9 : L ≤ 9) (R : Node) (x : Nat) :
    ∀ (anc : List Node) (p : Node) (dm lb fi f : Nat),
    AncOK W L R anc p (dm + 1) lb → WFNode W L (dm + 1) p lb →
    lb ≤ x → x < lb + W ^ (dm + 1) → fi ≤ W →
    lb + fi * W ^ dm ≤ x →
    (∀ r, fi * W ^ dm ≤ r → subMem W (dm + 1) p r = true → x ≤ lb + r) →
    anc.length + 2 ≤ f → dm + 1 + anc.length = L →
    ∃ v, LayeredBitmap.find_previous_loop W f false (some p) anc fi = .ok v ∧
      PrevSpec W L R x v := by
  intro anc
  induction anc with
  | nil =>
    intro p dm lb fi f hanc hwf hlbx hxub hfiW hfix hinv hf hdepth
    obtain ⟨f1, rfl⟩ : ∃ f1, f = f1 + 1 := ⟨f - 1, by omega⟩
    obtain ⟨hpR, hdL, hlb0⟩ := hanc
    rw [find_previous_loop_step]
    have hanc0 : AncOK W L R [] p (dm + 1) lb := ⟨hpR, hdL, hlb0⟩
    have hWL : W ^ (dm + 1) = W ^ L := by rw [hdL]
    have hsp : 0 < W ^ dm := Nat.pos_pow_of_pos _ hW
    rcases find_previous_bm_cases p.bitmap fi with ⟨heqv, hall⟩ | ⟨g, hgfi, hbt, hgreat, heqv⟩
    · have heq' : p.find_previous fi = -1 := by
        rw [Node.find_previous, heqv]
      rw [heq', if_neg (by omega)]
      obtain ⟨g, rfl⟩ : ∃ g, f1 = g + 1 := ⟨f1 - 1, by omega⟩
      rw [find_previous_loop_root]
      refine ⟨-1, rfl, Or.inl ⟨rfl, ?_⟩⟩
      intro s hsW hsm
      have hsm' : subMem W (dm + 1) p s = true := by
        rw [← hpR, ← hdL] at hsm
        exact hsm
      have hdig := subMem_digit_bit W L hW (dm + 1) p lb s hwf hsm'
      simp only [Nat.add_sub_cancel] at hdig
      rcases Nat.lt_or_ge (s / W ^ dm) fi with hlt | hge
      · rw [hall (s / W ^ dm) hlt] at hdig
        exact absurd hdig (by simp)
      · obtain ⟨hd1, _⟩ := digit_bounds (W ^ dm) s hsp
        have h5 : fi * W ^ dm ≤ s / W ^ dm * W ^ dm := Nat.mul_le_mul_right _ hge
        have := hinv s (by omega) hsm'
        omega
    · have heq' : p.find_previous fi = ((g : Int) + 1) := by
        rw [Node.find_previous, heqv]
      rw [heq', if_pos (by omega)]
      have hgW : g < W := by omega
      have hanc' := hanc0
      obtain ⟨r0, hdesc, hr01, hr02, hr0m, hr0max⟩ :=
        find_previous_desc_spec W L hW (dm + 1) 10 p lb g hwf hgW hbt (by omega)
      simp only [Nat.add_sub_cancel] at hr01 hr02 hr0max
      refine ⟨_, hdesc, Or.inr ⟨lb + r0, rfl, ?_, ?_, ?_, ?_⟩⟩
      · have h1 := anc_lb_bound W L hW R [] p (dm + 1) lb hanc0
        have h2 : (g + 1) * W ^ dm ≤ W * W ^ dm := Nat.mul_le_mul_right _ hgW
        have h3 : W * W ^ dm = W ^ (dm + 1) := by ring
        omega
      · rw [anc_window W L hW R [] p (dm + 1) lb hanc0 hwf (lb + r0) (by omega) (by
          have h2 : (g + 1) * W ^ dm ≤ W * W ^ dm := Nat.mul_le_mul_right _ hgW
          have h3 : W * W ^ dm = W ^ (dm + 1) := by ring
          omega)]
        rw [Nat.add_sub_cancel_left]
        exact hr0m
      · have h4 : (g + 1) * W ^ dm ≤ fi * W ^ dm := Nat.mul_le_mul_right _ (by omega)
        omega
      · intro s hsW hsm hsx
        have hsm' : subMem W (dm + 1) p (s - lb) = true := by
          rw [← anc_window W L hW R [] p (dm + 1) lb hanc0 hwf s (by
            rcases Nat.lt_or_ge s lb with hc | hc
            · omega
            · exact hc) (by omega)]
          exact hsm
        rcases Nat.lt_or_ge s lb with hslb | hslb
        · omega
        · have hdig := subMem_digit_bit W L hW (dm + 1) p lb (s - lb) hwf hsm'
          simp only [Nat.add_sub_cancel] at hdig
          obtain ⟨hd1, hd2⟩ := digit_bounds (W ^ dm) (s - lb) hsp
          rcases Nat.lt_or_ge ((s - lb) / W ^ dm) fi with hjfi | hjfi
          · rcases Nat.lt_or_ge g ((s - lb) / W ^ dm) with hgj | hgj
            · rw [hgreat ((s - lb) / W ^ dm) hgj hjfi] at hdig
              exact absurd hdig (by simp)
            · rcases Nat.eq_or_lt_of_le hgj with hjeq | hjlt
              · -- the digit equals `g`: use maximality of `r0` in the block
                rcases Nat.lt_or_ge r0 (s - lb) with hc | hc
                · rw [hr0max (s - lb) hc (by
                    have h5 : ((s - lb) / W ^ dm + 1) * W ^ dm ≤ (g + 1) * W ^ dm :=
                      Nat.mul_le_mul_right _ (by omega)
                    omega)] at hsm'
                  exact absurd hsm' (by simp)
                · omega
              · have h5 : ((s - lb) / W ^ dm + 1) * W ^ dm ≤ g * W ^ dm :=
                  Nat.mul_le_mul_right _ (by omega)
                omega
          · have h5 : fi * W ^ dm ≤ (s - lb) / W ^ dm * W ^ dm :=
              Nat.mul_le_mul_right _ hjfi
            have := hinv (s - lb) (by omega) hsm'
            omega
  | cons a rest ih =>
    intro p dm lb fi f hanc hwf hlbx hxub hfiW hfix hinv hf hdepth
    obtain ⟨f1, rfl⟩ : ∃ f1, f = f1 + 1 := ⟨f - 1, by omega⟩
    obtain ⟨i, hiW, hpi, hlbeq, hlink, hawf, hrest⟩ := hanc
    rw [find_previous_loop_step]
    have hsp : 0 < W ^ dm := Nat.pos_pow_of_pos _ hW
    have hsp1 : 0 < W ^ (dm + 1) := Nat.pos_pow_of_pos _ hW
    rcases find_previous_bm_cases p.bitmap fi with ⟨heqv, hall⟩ | ⟨g, hgfi, hbt, hgreat, heqv⟩
    · have heq' : p.find_previous fi = -1 := by
        rw [Node.find_previous, heqv]
      rw [heq', if_neg (by omega), hpi]
      obtain ⟨g, rfl⟩ : ∃ g, f1 = g + 1 := ⟨f1 - 1, by simp at hf; omega⟩
      rw [find_previous_loop_pop]
      have hmul1 : (i + 1) * W ^ (dm + 1) = i * W ^ (dm + 1) + W ^ (dm + 1) := by ring
      have hmulW : W * W ^ (dm + 1) = W ^ (dm + 1 + 1) := by ring
      have hile : (i + 1) * W ^ (dm + 1) ≤ W * W ^ (dm + 1) := Nat.mul_le_mul_right _ hiW
      apply ih a (dm + 1) a.lower_bound i (g + 1) hrest hawf (by omega) (by omega)
        (by omega) (by omega) ?_ (by simp at hf ⊢; omega) (by simp at hdepth; omega)
      -- the climbing invariant at the parent
      intro r hrge hrm
      have hji : i ≤ r / W ^ (dm + 1) := (Nat.le_div_iff_mul_le hsp1).mpr hrge
      obtain ⟨hd1, hd2⟩ := digit_bounds (W ^ (dm + 1)) r hsp1
      rcases Nat.eq_or_lt_of_le hji with hjeq | hjgt
      · have hrub : r - i * W ^ (dm + 1) < W ^ (dm + 1) := by
          have h3 : (r / W ^ (dm + 1) + 1) * W ^ (dm + 1) =
              r / W ^ (dm + 1) * W ^ (dm + 1) + W ^ (dm + 1) := by ring
          have h4 : r / W ^ (dm + 1) * W ^ (dm + 1) = i * W ^ (dm + 1) := by rw [← hjeq]
          omega
        have hrm' := hrm
        rw [subMem, ← hjeq, hlink] at hrm'
        have hrmod : r % W ^ (dm + 1) = r - i * W ^ (dm + 1) := by
          have h5 : r = i * W ^ (dm + 1) + (r - i * W ^ (dm + 1)) := by
            have h4 : r / W ^ (dm + 1) * W ^ (dm + 1) = i * W ^ (dm + 1) := by rw [← hjeq]
            omega
          calc r % W ^ (dm + 1)
              = (i * W ^ (dm + 1) + (r - i * W ^ (dm + 1))) % W ^ (dm + 1) := by rw [← h5]
            _ = r - i * W ^ (dm + 1) := mul_add_mod_self _ _ _ hrub
        rw [hrmod] at hrm'
        have hdig := subMem_digit_bit W L hW (dm + 1) p lb _ hwf hrm'
        simp only [Nat.add_sub_cancel] at hdig
        rcases Nat.lt_or_ge ((r - i * W ^ (dm + 1)) / W ^ dm) fi with hjfi | hjfi
        · rw [hall ((r - i * W ^ (dm + 1)) / W ^ dm) hjfi] at hdig
          exact absurd hdig (by simp)
        · obtain ⟨he1, _⟩ := digit_bounds (W ^ dm) (r - i * W ^ (dm + 1)) hsp
          have h5 : fi * W ^ dm ≤ (r - i * W ^ (dm + 1)) / W ^ dm * W ^ dm :=
            Nat.mul_le_mul_right _ hjfi
          have := hinv (r - i * W ^ (dm + 1)) (by omega) hrm'
          omega
      · have h5 : (i + 1) * W ^ (dm + 1) ≤ r / W ^ (dm + 1) * W ^ (dm + 1) :=
          Nat.mul_le_mul_right _ (by omega)
        have hmul1 : (i + 1) * W ^ (dm + 1) = i * W ^ (dm + 1) + W ^ (dm + 1) := by ring
        omega
    · have heq' : p.find_previous fi = ((g : Int) + 1) := by
        rw [Node.find_previous, heqv]
      rw [heq', if_pos (by omega)]
      have hgW : g < W := by omega
      obtain ⟨r0, hdesc, hr01, hr02, hr0m, hr0max⟩ :=
        find_previous_desc_spec W L hW (dm + 1) 10 p lb g hwf hgW hbt (by
          simp at hdepth
          omega)
      simp only [Nat.add_sub_cancel] at hr01 hr02 hr0max
      have hanc' : AncOK W L R (a :: rest) p (dm + 1) lb :=
        ⟨i, hiW, hpi, hlbeq, hlink, hawf, hrest⟩
      have hr0W : r0 < W ^ (dm + 1) := by
        have h2 : (g + 1) * W ^ dm ≤ W * W ^ dm := Nat.mul_le_mul_right _ hgW
        have h3 : W * W ^ dm = W ^ (dm + 1) := by ring
        omega
      refine ⟨_, hdesc, Or.inr ⟨lb + r0, rfl, ?_, ?_, ?_, ?_⟩⟩
      · have h1 := anc_lb_bound W L hW R (a :: rest) p (dm + 1) lb hanc'
        omega
      · rw [anc_window W L hW R (a :: rest) p (dm + 1) lb hanc' hwf (lb + r0)
          (by omega) (by omega)]
        rw [Nat.add_sub_cancel_left]
        exact hr0m
      · have h4 : (g + 1) * W ^ dm ≤ fi * W ^ dm := Nat.mul_le_mul_right _ (by omega)
        omega
      · intro s hsW hsm hsx
        rcases Nat.lt_or_ge s lb with hslb | hslb
        · omega
        · rcases Nat.lt_or_ge s (lb + W ^ (dm + 1)) with hin | hout
          · have hsm' : subMem W (dm + 1) p (s - lb) = true := by
              rw [← anc_window W L hW R (a :: rest) p (dm + 1) lb hanc' hwf s hslb hin]
              exact hsm
            have hdig := subMem_digit_bit W L hW (dm + 1) p lb (s - lb) hwf hsm'
            simp only [Nat.add_sub_cancel] at hdig
            obtain ⟨hd1, hd2⟩ := digit_bounds (W ^ dm) (s - lb) hsp
            rcases Nat.lt_or_ge ((s - lb) / W ^ dm) fi with hjfi | hjfi
            · rcases Nat.lt_or_ge g ((s - lb) / W ^ dm) with hgj | hgj
              · rw [hgreat ((s - lb) / W ^ dm) hgj hjfi] at hdig
                exact absurd hdig (by simp)
              · rcases Nat.eq_or_lt_of_le hgj with hjeq | hjlt
                · rcases Nat.lt_or_ge r0 (s - lb) with hc | hc
                  · rw [hr0max (s - lb) hc (by
                      have h5 : ((s - lb) / W ^ dm + 1) * W ^ dm ≤ (g + 1) * W ^ dm :=
                        Nat.mul_le_mul_right _ (by omega)
                      omega)] at hsm'
                    exact absurd hsm' (by simp)
                  · omega
                · have h5 : ((s - lb) / W ^ dm + 1) * W ^ dm ≤ g * W ^ dm :=
                    Nat.mul_le_mul_right _ (by omega)
                  omega
            · have h5 : fi * W ^ dm ≤ (s - lb) / W ^ dm * W ^ dm :=
                Nat.mul_le_mul_right _ hjfi
              have := hinv (s - lb) (by omega) hsm'
              omega
          · omega

/-- `LayeredBitmap.find_previous` on a well-formed tree returns the greatest
member strictly below `x`, or `-1` when there is none. -/
theorem find_previous_tree : ∀ (t : LayeredBitmap), WFTree t → 2 ≤ t.num_layers →
    t.num_layers ≤ 9 → 0 < t.bitmap_size → ∀ x : Nat, x < t.bitmap_size ^ t.num_layers →
    ∃ v, t.find_previous (x : Int) = .ok v ∧
      PrevSpec t.bitmap_size t.num_layers t.base_bitmap x v := by
  intro t hWF hL2 hL9 hW x hx
  obtain ⟨anc, p, dm, lb2, heq, hanc, hwf, hlbx, hub, hiW, _, hinv⟩ :=
    go_current_spec t hWF hL2 hW x hx
  have hdepth := anc_depth _ _ _ anc p (dm + 1) lb2 hanc
  obtain ⟨hlo, hhi⟩ := digit_bounds (t.bitmap_size ^ dm) (x - lb2)
    (Nat.pos_pow_of_pos _ hW)
  obtain ⟨v, hv, hspec⟩ := find_previous_loop_spec t.bitmap_size t.num_layers hW hL9
    t.base_bitmap x anc p dm lb2 ((x - lb2) / t.bitmap_size ^ dm) 10 hanc hwf hlbx hub
    (by omega) (by omega) hinv (by omega) hdepth
  refine ⟨v, ?_, hspec⟩
  simp only [LayeredBitmap.find_previous, heq, exc_bind_ok, Node.pyTruthy]
  rw [if_neg (by simp), hv]

/-- One run of the `traverse_forward` loop started at `c` appends exactly the
members strictly above `c`, in strictly increasing order, provided the fuel
exceeds their number. -/
theorem traverse_forward_loop_spec (t : LayeredBitmap) (hWF : WFTree t)
    (hL2 : 2 ≤ t.num_layers) (hL9 : t.num_layers ≤ 9) (hW : 0 < t.bitmap_size) :
    ∀ (fuel c : Nat) (out : List Int), c < t.bitmap_size ^ t.num_layers →
    ((Finset.range (t.bitmap_size ^ t.num_layers)).filter
        (fun s => treeMem t s = true ∧ c < s)).card < fuel →
    ∃ l, LayeredBitmap.traverse_forward_loop t fuel (c : Int) out = .ok (some (out ++ l)) ∧
      l.Chain' (· < ·) ∧ (∀ v ∈ l, (c : Int) < v) ∧
      ∀ v : Int, v ∈ l ↔ ∃ m : Nat, v = (m : Int) ∧ m < t.bitmap_size ^ t.num_layers ∧
        treeMem t m = true ∧ c < m := by
  intro fuel
  induction fuel with
  | zero => intro c out hc hcard; omega
  | succ fuel ih =>
    intro c out hc hcard
    obtain ⟨v, hv, hspec⟩ := find_next_tree t hWF hL2 hL9 hW c hc
    rcases hspec with ⟨rfl, hnone⟩ | ⟨m, rfl, hmW, hmem, hcm, hleast⟩
    · -- no member above `c`: the loop stops at once
      refine ⟨[], ?_, List.chain'_nil, by simp, ?_⟩
      · conv_lhs => rw [LayeredBitmap.traverse_forward_loop]
        simp only [hv, exc_bind_ok]
        simp
      · intro w
        simp only [List.not_mem_nil, false_iff]
        rintro ⟨m, rfl, hmW, hmem, hcm⟩
        have := hnone m hmW hmem
        omega
    · -- `m` is the least member above `c`
      have hm1 : ¬ ((m : Int) = -1) := by omega
      have hmA : m ∈ (Finset.range (t.bitmap_size ^ t.num_layers)).filter
          (fun s => treeMem t s = true ∧ c < s) := by
        rw [Finset.mem_filter, Finset.mem_range]
        exact ⟨hmW, hmem, hcm⟩
      have hcard' : ((Finset.range (t.bitmap_size ^ t.num_layers)).filter
          (fun s => treeMem t s = true ∧ m < s)).card < fuel := by
        have hsub : (Finset.range (t.bitmap_size ^ t.num_layers)).filter
            (fun s => treeMem t s = true ∧ m < s) ⊆
            ((Finset.range (t.bitmap_size ^ t.num_layers)).filter
              (fun s => treeMem t s = true ∧ c < s)).erase m := by
          intro s hs
          rw [Finset.mem_filter, Finset.mem_range] at hs
          rw [Finset.mem_erase, Finset.mem_filter, Finset.mem_range]
          exact ⟨by omega, hs.1, hs.2.1, by omega⟩
        have h1 := Finset.card_le_card hsub
        have h2 := Finset.card_erase_of_mem hmA
        have h3 : 0 < ((Finset.range (t.bitmap_size ^ t.num_layers)).filter
            (fun s => treeMem t s = true ∧ c < s)).card :=
          Finset.card_pos.mpr ⟨m, hmA⟩
        omega
      obtain ⟨l, hl, hchain, hgt, hiff⟩ := ih m (out ++ [(m : Int)]) hmW hcard'
      refine ⟨(m : Int) :: l, ?_, ?_, ?_, ?_⟩
      · conv_lhs => rw [LayeredBitmap.traverse_forward_loop]
        simp only [hv, exc_bind_ok]
        rw [if_neg hm1, hl, List.append_assoc]
        rfl
      · exact List.chain'_cons'.mpr
          ⟨fun y hy => hgt y (List.mem_of_mem_head? hy), hchain⟩
      · intro w hw
        rcases List.mem_cons.mp hw with rfl | hw2
        · exact_mod_cast hcm
        · have h1 := hgt w hw2
          have h2 : (c : Int) < (m : Int) := by exact_mod_cast hcm
          omega
      · intro w
        constructor
        · intro hw
          rcases List.mem_cons.mp hw with rfl | hw2
          · exact ⟨m, rfl, hmW, hmem, hcm⟩
          · obtain ⟨m2, rfl, hm2W, hm2mem, hm2m⟩ := (hiff w).mp hw2
            exact ⟨m2, rfl, hm2W, hm2mem, by omega⟩
        · rintro ⟨m2, rfl, hm2W, hm2mem, hm2c⟩
          rcases Nat.eq_or_lt_of_le (hleast m2 hm2W hm2mem hm2c) with hEq | hlt
          · rw [List.mem_cons]
            left
            exact_mod_cast hEq.symm
          · exact List.mem_cons.mpr (Or.inr ((hiff _).mpr ⟨m2, rfl, hm2W, hm2mem, hlt⟩))

/-- One run of the `traverse_backward` loop started at `c` appends exactly the
members strictly below `c`, in strictly decreasing order. -/
theorem traverse_backward_loop_spec (t : LayeredBitmap) (hWF : WFTree t)
    (hL2 : 2 ≤ t.num_layers) (hL9 : t.num_layers ≤ 9) (hW : 0 < t.bitmap_size) :
    ∀ (fuel c : Nat) (out : List Int), c < t.bitmap_size ^ t.num_layers →
    ((Finset.range (t.bitmap_size ^ t.num_layers)).filter
        (fun s => treeMem t s = true ∧ s < c)).card < fuel →
    ∃ l, LayeredBitmap.traverse_backward_loop t fuel (c : Int) out = .ok (some (out ++ l)) ∧
      l.Chain' (· > ·) ∧ (∀ v ∈ l, v < (c : Int)) ∧
      ∀ v : Int, v ∈ l ↔ ∃ m : Nat, v = (m : Int) ∧ m < t.bitmap_size ^ t.num_layers ∧
        treeMem t m = true ∧ m < c := by
  intro fuel
  induction fuel with
  | zero => intro c out hc hcard; omega
  | succ fuel ih =>
    intro c out hc hcard
    obtain ⟨v, hv, hspec⟩ := find_previous_tree t hWF hL2 hL9 hW c hc
    rcases hspec with ⟨rfl, hnone⟩ | ⟨m, rfl, hmW, hmem, hcm, hgreatest⟩
    · refine ⟨[], ?_, List.chain'_nil, by simp, ?_⟩
      · conv_lhs => rw [LayeredBitmap.traverse_backward_loop]
        simp only [hv, exc_bind_ok]
        simp
      · intro w
        simp only [List.not_mem_nil, false_iff]
        rintro ⟨m, rfl, hmW, hmem, hcm⟩
        have := hnone m hmW hmem
        omega
    · have hm1 : ¬ ((m : Int) = -1) := by omega
      have hmA : m ∈ (Finset.range (t.bitmap_size ^ t.num_layers)).filter
          (fun s => treeMem t s = true ∧ s < c) := by
        rw [Finset.mem_filter, Finset.mem_range]
        exact ⟨hmW, hmem, hcm⟩
      have hcard' : ((Finset.range (t.bitmap_size ^ t.num_layers)).filter
          (fun s => treeMem t s = true ∧ s < m)).card < fuel := by
        have hsub : (Finset.range (t.bitmap_size ^ t.num_layers)).filter
            (fun s => treeMem t s = true ∧ s < m) ⊆
            ((Finset.range (t.bitmap_size ^ t.num_layers)).filter
              (fun s => treeMem t s = true ∧ s < c)).erase m := by
          intro s hs
          rw [Finset.mem_filter, Finset.mem_range] at hs
          rw [Finset.mem_erase, Finset.mem_filter, Finset.mem_range]
          exact ⟨by omega, hs.1, hs.2.1, by omega⟩
        have h1 := Finset.card_le_card hsub
        have h2 := Finset.card_erase_of_mem hmA
        have h3 : 0 < ((Finset.range (t.bitmap_size ^ t.num_layers)).filter
            (fun s => treeMem t s = true ∧ s < c)).card :=
          Finset.card_pos.mpr ⟨m, hmA⟩
        omega
      obtain ⟨l, hl, hchain, hgt, hiff⟩ := ih m (out ++ [(m : Int)]) (by omega) hcard'
      refine ⟨(m : Int) :: l, ?_, ?_, ?_, ?_⟩
      · conv_lhs => rw [LayeredBitmap.traverse_backward_loop]
        simp only [hv, exc_bind_ok]
        rw [if_neg hm1, hl, List.append_assoc]
        rfl
      · exact List.chain'_cons'.mpr
          ⟨fun y hy => hgt y (List.mem_of_mem_head? hy), hchain⟩
      · intro w hw
        rcases List.mem_cons.mp hw with rfl | hw2
        · exact_mod_cast hcm
        · have h1 := hgt w hw2
          have h2 : (m : Int) < (c : Int) := by exact_mod_cast hcm
          omega
      · intro w
        constructor
        · intro hw
          rcases List.mem_cons.mp hw with rfl | hw2
          · exact ⟨m, rfl, hmW, hmem, hcm⟩
          · obtain ⟨m2, rfl, hm2W, hm2mem, hm2m⟩ := (hiff w).mp hw2
            exact ⟨m2, rfl, hm2W, hm2mem, by omega⟩
        · rintro ⟨m2, rfl, hm2W, hm2mem, hm2c⟩
          rcases Nat.eq_or_lt_of_le (hgreatest m2 hm2W hm2mem hm2c) with hEq | hlt
          · rw [List.mem_cons]
            left
            exact_mod_cast hEq
          · exact List.mem_cons.mpr (Or.inr ((hiff _).mpr ⟨m2, rfl, hm2W, hm2mem, hlt⟩))

/-- `traverse_forward` with the source's default start `pos = 0` returns the
members strictly greater than 0, in strictly increasing order (a member 0 is
omitted). -/
theorem traverse_forward_tree (t : LayeredBitmap) (hWF : WFTree t) (hL2 : 2 ≤ t.num_layers)
    (hL9 : t.num_layers ≤ 9) (hW : 0 < t.bitmap_size) :
    ∃ l, t.traverse_forward 0 = .ok (some l) ∧ l.Chain' (· < ·) ∧
      ∀ v : Int, v ∈ l ↔ ∃ m : Nat, v = (m : Int) ∧ m < t.bitmap_size ^ t.num_layers ∧
        treeMem t m = true ∧ 0 < m := by
  have hN0 : 0 < t.bitmap_size ^ t.num_layers := Nat.pos_pow_of_pos _ hW
  have hcard : ((Finset.range (t.bitmap_size ^ t.num_layers)).filter
      (fun s => treeMem t s = true ∧ 0 < s)).card < t.bitmap_size ^ t.num_layers := by
    have hss : (Finset.range (t.bitmap_size ^ t.num_layers)).filter
        (fun s => treeMem t s = true ∧ 0 < s) ⊂ Finset.range (t.bitmap_size ^ t.num_layers) := by
      refine ⟨Finset.filter_subset _ _, fun hBA => ?_⟩
      have h0 := hBA (Finset.mem_range.mpr hN0)
      rw [Finset.mem_filter] at h0
      omega
    have h1 := Finset.card_lt_card hss
    rwa [Finset.card_range] at h1
  obtain ⟨l, hl, hchain, _, hiff⟩ :=
    traverse_forward_loop_spec t hWF hL2 hL9 hW (t.bitmap_size ^ t.num_layers) 0 [] hN0 hcard
  refine ⟨l, ?_, hchain, hiff⟩
  show LayeredBitmap.traverse_forward_loop t (t.bitmap_size ^ t.num_layers) 0 [] = _
  rw [show (0 : Int) = ((0 : Nat) : Int) from rfl, hl, List.nil_append]

/-- `traverse_backward` with the source's default start `pos = 0` starts from
`bitmap_size ^ num_layers - 1` (the falsy 0 is replaced) and returns the
members strictly below that bound, in strictly decreasing order (a member at
the very top of the universe is omitted). -/
theorem traverse_backward_tree (t : LayeredBitmap) (hWF : WFTree t) (hL2 : 2 ≤ t.num_layers)
    (hL9 : t.num_layers ≤ 9) (hW : 0 < t.bitmap_size) :
    ∃ l, t.traverse_backward 0 = .ok (some l) ∧ l.Chain' (· > ·) ∧
      ∀ v : Int, v ∈ l ↔ ∃ m : Nat, v = (m : Int) ∧ m < t.bitmap_size ^ t.num_layers ∧
        treeMem t m = true ∧ m < t.bitmap_size ^ t.num_layers - 1 := by
  have hN0 : 0 < t.bitmap_size ^ t.num_layers := Nat.pos_pow_of_pos _ hW
  have hcard : ((Finset.range (t.bitmap_size ^ t.num_layers)).filter
      (fun s => treeMem t s = true ∧ s < t.bitmap_size ^ t.num_layers - 1)).card <
      t.bitmap_size ^ t.num_layers := by
    have hss : (Finset.range (t.bitmap_size ^ t.num_layers)).filter
        (fun s => treeMem t s = true ∧ s < t.bitmap_size ^ t.num_layers - 1) ⊂
        Finset.range (t.bitmap_size ^ t.num_layers) := by
      refine ⟨Finset.filter_subset _ _, fun hBA => ?_⟩
      have h0 := hBA (Finset.mem_range.mpr (by omega :
        t.bitmap_size ^ t.num_layers - 1 < t.bitmap_size ^ t.num_layers))
      rw [Finset.mem_filter] at h0
      omega
    have h1 := Finset.card_lt_card hss
    rwa [Finset.card_range] at h1
  obtain ⟨l, hl, hchain, _, hiff⟩ :=
    traverse_backward_loop_spec t hWF hL2 hL9 hW (t.bitmap_size ^ t.num_layers)
      (t.bitmap_size ^ t.num_layers - 1) [] (by omega) hcard
  refine ⟨l, ?_, hchain, hiff⟩
  show LayeredBitmap.traverse_backward_loop t (t.bitmap_size ^ t.num_layers)
    (if (0 : Int) ≠ 0 then (0 : Int) else ((t.bitmap_size ^ t.num_layers : Nat) : Int) - 1)
    [] = _
  rw [if_neg (by simp)]
  rw [show ((t.bitmap_size ^ t.num_layers : Nat) : Int) - 1 =
    ((t.bitmap_size ^ t.num_layers - 1 : Nat) : Int) from by
      push_cast [Nat.cast_sub (by omega : 1 ≤ t.bitmap_size ^ t.num_layers)]
      ring]
  rw [hl, List.nil_append]

/-- Claim C1 (corrected): for every tree constructed with `W ∈ {32,64}` and
`L ∈ [5,8]` and every sequence of `set` calls producing member set `S`, and
every `x ∈ [0, W^L)`, `find_next(x)` returns `min {s ∈ S : s > x}` — the
least member **strictly greater** than `x`, not "greater than or equal to
`x`" as the claim's parenthesis says — and `-1` when no such member exists. -/
theorem C1_find_next_successor (W L : Nat) (hW : W = 32 ∨ W = 64)
    (hL : 5 ≤ L ∧ L ≤ 8) (xs : List Nat) (hxs : ∀ a ∈ xs, a < W ^ L)
    (x : Nat) (hx : x < W ^ L) :
    ∃ t v, buildTree L W xs = .ok t ∧ t.find_next (x : Int) = .ok v ∧
      ((v = -1 ∧ ∀ s ∈ xs, s ≤ x) ∨
        (∃ m : Nat, v = (m : Int) ∧ m ∈ xs ∧ x < m ∧ ∀ s ∈ xs, x < s → m ≤ s)) := by
  obtain ⟨t, hbuild, hwt, hLt, hWt, hmem⟩ := buildTree_spec W L hW (by omega) xs hxs
  obtain ⟨v, hv, hspec⟩ := find_next_tree t hwt (by omega) (by omega)
    (by rcases hW with h | h <;> omega) x (by rw [hWt, hLt]; exact hx)
  refine ⟨t, v, hbuild, hv, ?_⟩
  rcases hspec with ⟨rfl, hnone⟩ | ⟨m, rfl, hmW, hmem', hxm, hleast⟩
  · left
    refine ⟨rfl, fun s hs => ?_⟩
    apply hnone s (by rw [hWt, hLt]; exact hxs s hs)
    show treeMem t s = true
    rw [hmem]
    simpa using hs
  · right
    refine ⟨m, rfl, ?_, hxm, fun s hs hslt => ?_⟩
    · have hm2 : treeMem t m = true := hmem'
      rw [hmem m] at hm2
      simpa using hm2
    · refine hleast s (by rw [hWt, hLt]; exact hxs s hs) ?_ hslt
      show treeMem t s = true
      rw [hmem]
      simpa using hs

/-- Witness for C1 at `W = 32`, `L = 5`, `S = {3}`, `x = 1`. -/
theorem C1_successor_witness :
    ∃ t v, buildTree 5 32 [3] = .ok t ∧ t.find_next ((1 : Nat) : Int) = .ok v ∧
      ((v = -1 ∧ ∀ s ∈ ([3] : List Nat), s ≤ 1) ∨
        (∃ m : Nat, v = (m : Int) ∧ m ∈ ([3] : List Nat) ∧ 1 < m ∧
          ∀ s ∈ ([3] : List Nat), 1 < s → m ≤ s)) :=
  C1_find_next_successor 32 5 (Or.inl rfl) (by decide) [3] (by decide) 1 (by decide)

/-- Counterexample to C1 as claimed: with `S = {5}` and `x = 5` the claimed
`min {s ∈ S : s ≥ x}` is 5, but the source returns `-1` (the scan is
strictly above `x`). -/
theorem C1_cex_not_ge :
    ∃ v : Int, (buildTree 5 32 [5] >>= fun t => t.find_next 5) = .ok v ∧
      v = -1 ∧ v ≠ 5 := ⟨-1, rfl, rfl, by decide⟩

/-- Claim C2 (confirmed): for every tree constructed with `W ∈ {32,64}` and
`L ∈ [5,8]`, every sequence of `set` calls producing member set `S` and every
`x ∈ [0, W^L)`, `find_previous(x)` returns `max {s ∈ S : s < x}`, and `-1`
when no such member exists. -/
theorem C2_find_previous_predecessor (W L : Nat) (hW : W = 32 ∨ W = 64)
    (hL : 5 ≤ L ∧ L ≤ 8) (xs : List Nat) (hxs : ∀ a ∈ xs, a < W ^ L)
    (x : Nat) (hx : x < W ^ L) :
    ∃ t v, buildTree L W xs = .ok t ∧ t.find_previous (x : Int) = .ok v ∧
      ((v = -1 ∧ ∀ s ∈ xs, x ≤ s) ∨
        (∃ m : Nat, v = (m : Int) ∧ m ∈ xs ∧ m < x ∧ ∀ s ∈ xs, s < x → s ≤ m)) := by
  obtain ⟨t, hbuild, hwt, hLt, hWt, hmem⟩ := buildTree_spec W L hW (by omega) xs hxs
  obtain ⟨v, hv, hspec⟩ := find_previous_tree t hwt (by omega) (by omega)
    (by rcases hW with h | h <;> omega) x (by rw [hWt, hLt]; exact hx)
  refine ⟨t, v, hbuild, hv, ?_⟩
  rcases hspec with ⟨rfl, hnone⟩ | ⟨m, rfl, hmW, hmem', hmx, hgreatest⟩
  · left
    refine ⟨rfl, fun s hs => ?_⟩
    apply hnone s (by rw [hWt, hLt]; exact hxs s hs)
    show treeMem t s = true
    rw [hmem]
    simpa using hs
  · right
    refine ⟨m, rfl, ?_, hmx, fun s hs hslt => ?_⟩
    · have hm2 : treeMem t m = true := hmem'
      rw [hmem m] at hm2
      simpa using hm2
    · refine hgreatest s (by rw [hWt, hLt]; exact hxs s hs) ?_ hslt
      show treeMem t s = true
      rw [hmem]
      simpa using hs

/-- Witness for C2 at `W = 32`, `L = 5`, `S = {3}`, `x = 7`. -/
theorem C2_predecessor_witness :
    ∃ t v, buildTree 5 32 [3] = .ok t ∧ t.find_previous ((7 : Nat) : Int) = .ok v ∧
      ((v = -1 ∧ ∀ s ∈ ([3] : List Nat), 7 ≤ s) ∨
        (∃ m : Nat, v = (m : Int) ∧ m ∈ ([3] : List Nat) ∧ m < 7 ∧
          ∀ s ∈ ([3] : List Nat), s < 7 → s ≤ m)) :=
  C2_find_previous_predecessor 32 5 (Or.inl rfl) (by decide) [3] (by decide) 7 (by decide)

/-- Claim C8 (confirmed): on every constructed tree, after any sequence of
`set` calls and for every in-range `x`, neither `find_next` nor
`find_previous` returns the sentinel `-100000`: the bounded loops always exit
through a regular branch. -/
theorem C8_sentinel_unreachable (W L : Nat) (hW : W = 32 ∨ W = 64)
    (hL : 5 ≤ L ∧ L ≤ 8) (xs : List Nat) (hxs : ∀ a ∈ xs, a < W ^ L)
    (x : Nat) (hx : x < W ^ L) :
    ∃ t vn vp, buildTree L W xs = .ok t ∧
      t.find_next (x : Int) = .ok vn ∧ vn ≠ -100000 ∧
      t.find_previous (x : Int) = .ok vp ∧ vp ≠ -100000 := by
  obtain ⟨t, hbuild, hwt, hLt, hWt, hmem⟩ := buildTree_spec W L hW (by omega) xs hxs
  have hWpos : 0 < t.bitmap_size := by rcases hW with h | h <;> omega
  obtain ⟨vn, hvn, hnspec⟩ := find_next_tree t hwt (by omega) (by omega) hWpos
    x (by rw [hWt, hLt]; exact hx)
  obtain ⟨vp, hvp, hpspec⟩ := find_previous_tree t hwt (by omega) (by omega) hWpos
    x (by rw [hWt, hLt]; exact hx)
  refine ⟨t, vn, vp, hbuild, hvn, ?_, hvp, ?_⟩
  · rcases hnspec with ⟨rfl, _⟩ | ⟨m, rfl, _⟩
    · omega
    · have := Int.natCast_nonneg m
      omega
  · rcases hpspec with ⟨rfl, _⟩ | ⟨m, rfl, _⟩
    · omega
    · have := Int.natCast_nonneg m
      omega

/-- Witness for C8 at `W = 32`, `L = 5`, `S = {3}`, `x = 0`. -/
theorem C8_sentinel_witness :
    ∃ t vn vp, buildTree 5 32 [3] = .ok t ∧
      t.find_next ((0 : Nat) : Int) = .ok vn ∧ vn ≠ -100000 ∧
      t.find_previous ((0 : Nat) : Int) = .ok vp ∧ vp ≠ -100000 :=
  C8_sentinel_unreachable 32 5 (Or.inl rfl) (by decide) [3] (by decide) 0 (by decide)

/-- Claim C3 (corrected): for every constructed tree and member set `S`,
`traverse_forward()` with the default start returns the members **strictly
greater than 0** in strictly ascending order — a member `0` is omitted,
because each step looks for a strictly larger member starting from the
default `pos = 0`; likewise `traverse_backward()` with the default start
returns the members strictly below `W^L - 1` in strictly descending order. -/
theorem C3_traversals_sorted (W L : Nat) (hW : W = 32 ∨ W = 64)
    (hL : 5 ≤ L ∧ L ≤ 8) (xs : List Nat) (hxs : ∀ a ∈ xs, a < W ^ L) :
    ∃ t lf lb, buildTree L W xs = .ok t ∧
      t.traverse_forward 0 = .ok (some lf) ∧ lf.Chain' (· < ·) ∧
      (∀ v : Int, v ∈ lf ↔ ∃ m : Nat, v = (m : Int) ∧ m ∈ xs ∧ 0 < m) ∧
      t.traverse_backward 0 = .ok (some lb) ∧ lb.Chain' (· > ·) ∧
      (∀ v : Int, v ∈ lb ↔ ∃ m : Nat, v = (m : Int) ∧ m ∈ xs ∧ m < W ^ L - 1) := by
  obtain ⟨t, hbuild, hwt, hLt, hWt, hmem⟩ := buildTree_spec W L hW (by omega) xs hxs
  have hWpos : 0 < t.bitmap_size := by rcases hW with h | h <;> omega
  obtain ⟨lf, hlf, hfchain, hfiff⟩ :=
    traverse_forward_tree t hwt (by omega) (by omega) hWpos
  obtain ⟨lb, hlb, hbchain, hbiff⟩ :=
    traverse_backward_tree t hwt (by omega) (by omega) hWpos
  refine ⟨t, lf, lb, hbuild, hlf, hfchain, ?_, hlb, hbchain, ?_⟩
  · intro v
    rw [hfiff v]
    constructor
    · rintro ⟨m, rfl, hmN, hmmem, hm0⟩
      rw [hmem m] at hmmem
      exact ⟨m, rfl, by simpa using hmmem, hm0⟩
    · rintro ⟨m, rfl, hmxs, hm0⟩
      refine ⟨m, rfl, by rw [hWt, hLt]; exact hxs m hmxs, ?_, hm0⟩
      rw [hmem m]
      simpa using hmxs
  · intro v
    rw [hbiff v]
    constructor
    · rintro ⟨m, rfl, hmN, hmmem, hmtop⟩
      rw [hmem m] at hmmem
      refine ⟨m, rfl, by simpa using hmmem, ?_⟩
      rw [hWt, hLt] at hmtop
      exact hmtop
    · rintro ⟨m, rfl, hmxs, hmtop⟩
      refine ⟨m, rfl, by rw [hWt, hLt]; exact hxs m hmxs, ?_, ?_⟩
      · rw [hmem m]
        simpa using hmxs
      · rw [hWt, hLt]
        exact hmtop

/-- Witness for C3 at `W = 32`, `L = 5`, `S = {3}`. -/
theorem C3_traversal_witness :
    ∃ t lf lb, buildTree 5 32 [3] = .ok t ∧
      t.traverse_forward 0 = .ok (some lf) ∧ lf.Chain' (· < ·) ∧
      (∀ v : Int, v ∈ lf ↔ ∃ m : Nat, v = (m : Int) ∧ m ∈ ([3] : List Nat) ∧ 0 < m) ∧
      t.traverse_backward 0 = .ok (some lb) ∧ lb.Chain' (· > ·) ∧
      (∀ v : Int, v ∈ lb ↔ ∃ m : Nat, v = (m : Int) ∧ m ∈ ([3] : List Nat) ∧
        m < 32 ^ 5 - 1) :=
  C3_traversals_sorted 32 5 (Or.inl rfl) (by decide) [3] (by decide)

/-- Counterexample to C3 as claimed: the spec's concrete scenario inserts
`{0, 1, 63, 64, 4095, 4096}` into a `W = 64`, `L = 6` tree and expects
`traverse_forward()` to return all six members, but the member 0 is
omitted. -/
theorem C3_cex_forward_omits_zero :
    ∃ l, (buildTree 6 64 [0, 1, 63, 64, 4095, 4096] >>= fun t =>
        t.traverse_forward 0) = .ok (some l) ∧
      l = [1, 63, 64, 4095, 4096] ∧ l ≠ [0, 1, 63, 64, 4095, 4096] :=
  ⟨[1, 63, 64, 4095, 4096], rfl, rfl, by decide⟩

/-- Claim C5 (corrected): on a freshly constructed tree with no `set` call,
`find_next(0)` returns `-1`, not the claimed sentinel 0: the early exit
`if not target: return 0` can never fire, because a `BitmapCore` instance
defines neither `__bool__` nor `__len__` and is therefore always truthy;
the empty root makes the ascent loop pop past the root and hit the
`if not parent: return -1` branch instead. -/
theorem C5_empty_find_next (W L : Nat) (hW : W = 32 ∨ W = 64)
    (hL : 5 ≤ L ∧ L ≤ 8) :
    ∃ t, LayeredBitmap.init L W = .ok t ∧ t.find_next 0 = .ok (-1) := by
  have hWpos : 0 < W := by rcases hW with h | h <;> omega
  obtain ⟨hwf0, hmem0⟩ := init_WF L W hWpos (by omega)
  refine ⟨⟨L, Node.mk W L 0 (List.replicate W none) 0 0 0, W⟩, init_eq L W hW, ?_⟩
  obtain ⟨v, hv, hspec⟩ := find_next_tree _ hwf0 (by show 2 ≤ L; omega)
    (by show L ≤ 9; omega) (by show 0 < W; omega) 0
    (by show (0 : Nat) < W ^ L; exact Nat.pos_pow_of_pos L hWpos)
  rcases hspec with ⟨rfl, _⟩ | ⟨m, rfl, _, hmem', _⟩
  · simpa using hv
  · have := hmem0 m
    rw [show treeMem ⟨L, Node.mk W L 0 (List.replicate W none) 0 0 0, W⟩ m =
      subMem W L (Node.mk W L 0 (List.replicate W none) 0 0 0) m from rfl] at this
    rw [this] at hmem'
    exact absurd hmem' (by simp)

/-- Witness for C5 at `W = 64`, `L = 6`. -/
theorem C5_empty_witness :
    ∃ t, LayeredBitmap.init 6 64 = .ok t ∧ t.find_next 0 = .ok (-1) :=
  C5_empty_find_next 64 6 (Or.inr rfl) (by decide)

/-- Counterexample to C5 as claimed: the freshly constructed default tree
answers `find_next(0)` with `-1`, never with the claimed sentinel 0. -/
theorem C5_cex_minus_one :
    ∃ v : Int, (LayeredBitmap.init 6 64 >>= fun t => t.find_next 0) = .ok v ∧
      v = -1 ∧ v ≠ 0 := ⟨-1, rfl, rfl, by decide⟩

/-- Claim C6 (code bug): the constructor's first guard is
`num_layers < 5 and num_layers > 8`, a conjunction no integer satisfies, so
out-of-range layer counts are accepted: `LayeredBitmap(3, 64)` succeeds
instead of failing with the distinguished configuration error. -/
theorem C6_layer_guard_dead :
    ∃ t, LayeredBitmap.init 3 64 = .ok t ∧ t.num_layers = 3 := ⟨_, rfl, rfl⟩

/-- Claim C7 (corrected): `_find_next_bm(b, p)` clears only bits `0..p-1`
(bit `p` itself is kept: the source decrements `pos` before building the
inclusive mask), and returns the 1-based position of the least set bit **at
or above** `p`, `-1` when the masked word is zero. -/
theorem C7_find_next_bm_characterisation (b pos : Nat) :
    (find_next_bm b pos = -1 ∧ ∀ i, pos ≤ i → b.testBit i = false) ∨
    (∃ t, pos ≤ t ∧ b.testBit t = true ∧ (∀ j, pos ≤ j → j < t → b.testBit j = false) ∧
      find_next_bm b pos = ((t : Int) + 1)) :=
  find_next_bm_cases b pos

/-- Counterexample to C7 as claimed: at `b = 2`, `p = 1` the source keeps bit
1 and answers the 1-based position 2, while the claim's inclusive mask
(`next_set_claim`) clears it and answers `-1`. -/
theorem C7_cex_inclusive_mask :
    find_next_bm 2 1 = 2 ∧ next_set_claim 2 1 = -1 ∧
      find_next_bm 2 1 ≠ next_set_claim 2 1 := by decide

theorem nodeAtPath_WF (W L : Nat) :
    ∀ (path : List Nat) d (n : Node) lb q, WFNode W L d n lb →
      nodeAtPath n path = some q → ∃ d' lb', 1 ≤ d' ∧ WFNode W L d' q lb' := by
  intro path
  induction path with
  | nil =>
    intro d n lb q hwf hq
    rw [nodeAtPath] at hq
    obtain rfl : n = q := by injection hq
    exact ⟨d, lb, hwf.one_le, hwf⟩
  | cons i rest ih =>
    intro d n lb q hwf hq
    rw [nodeAtPath] at hq
    rcases hcs : n.children[i]? with _ | c
    · rw [hcs] at hq
      exact absurd hq (by simp)
    rcases c with _ | c
    · rw [hcs] at hq
      exact absurd hq (by simp)
    rw [hcs] at hq
    have hiW : i < W := by
      by_contra hcon
      have hnone : n.children[i]? = none := by
        apply List.getElem?_eq_none
        rw [hwf.children_length]
        omega
      rw [hnone] at hcs
      cases hcs
    match d with
    | 0 => exact absurd hwf (by simp [WFNode])
    | 1 =>
      have hleaf := hwf.leaf_children i hiW
      rw [hleaf] at hcs
      cases hcs
    | e + 2 =>
      obtain ⟨hcwf, _, _⟩ := (hwf.interior i hiW).2 c hcs
      exact ih (e + 1) c _ q hcwf hq

/-- Claim C9 (confirmed): after every sequence of `set` calls, for every
node `q` of the tree and every slot `i`, a present child at slot `i` implies
bit `i` of `q`'s word is set (`set_bit` runs before `assign_child` on the
descent, and bits are never cleared). -/
theorem C9_parent_bit_coherence (W L : Nat) (hW : W = 32 ∨ W = 64)
    (hL : 5 ≤ L ∧ L ≤ 8) (xs : List Nat) (hxs : ∀ a ∈ xs, a < W ^ L) :
    ∃ t, buildTree L W xs = .ok t ∧
      ∀ (path : List Nat) (q : Node) (i : Nat) (c : Node),
        nodeAtPath t.base_bitmap path = some q →
        q.children[i]? = some (some c) → q.bitmap.testBit i = true := by
  obtain ⟨t, hbuild, hwt, hLt, hWt, _⟩ := buildTree_spec W L hW (by omega) xs hxs
  refine ⟨t, hbuild, ?_⟩
  intro path q i c hpath hchild
  have hroot : WFNode W L t.num_layers t.base_bitmap 0 := by
    rw [← hWt, ← hLt]
    exact hwt.2
  obtain ⟨d', lb', hd1, hqwf⟩ := nodeAtPath_WF W L path t.num_layers t.base_bitmap 0 q
    hroot hpath
  have hiW : i < W := by
    by_contra hcon
    have hnone : q.children[i]? = none := by
      apply List.getElem?_eq_none
      rw [hqwf.children_length]
      omega
    rw [hnone] at hchild
    cases hchild
  match d', hqwf with
  | 1, hqwf =>
    have hleaf := hqwf.leaf_children i hiW
    rw [hleaf] at hchild
    cases hchild
  | e + 2, hqwf =>
    exact (hqwf.interior i hiW).1.mpr ⟨c, hchild⟩

/-- Witness for C9 at `W = 32`, `L = 5`, `S = {3}`. -/
theorem C9_coherence_witness :
    ∃ t, buildTree 5 32 [3] = .ok t ∧
      ∀ (path : List Nat) (q : Node) (i : Nat) (c : Node),
        nodeAtPath t.base_bitmap path = some q →
        q.children[i]? = some (some c) → q.bitmap.testBit i = true :=
  C9_parent_bit_coherence 32 5 (Or.inl rfl) (by decide) [3] (by decide)

/-- Claim C4 (corrected): for every constructed tree and `x ∈ [0, W^L)`,
`get(x)` answers membership with 1/0 — and an absent child strictly below
the root on `x`'s digit path does yield 0 — **except** when the root has no
child at `x`'s leading digit (equivalently, no member shares that digit):
then the source raises `ValueError("The whole bitmap is empty.")` instead of
returning 0. -/
theorem C4_get_membership (W L : Nat) (hW : W = 32 ∨ W = 64)
    (hL : 5 ≤ L ∧ L ≤ 8) (xs : List Nat) (hxs : ∀ a ∈ xs, a < W ^ L)
    (x : Nat) (hx : x < W ^ L) :
    ∃ t, buildTree L W xs = .ok t ∧
      ((∃ s, s ∈ xs ∧ s / W ^ (L - 1) = x / W ^ (L - 1)) →
        t.get (x : Int) = .ok (if x ∈ xs then 1 else 0)) ∧
      ((∀ s, s ∈ xs → s / W ^ (L - 1) ≠ x / W ^ (L - 1)) →
        t.get (x : Int) = .error (.valueError "The whole bitmap is empty.")) := by
  have hWpos : 0 < W := by rcases hW with h | h <;> omega
  obtain ⟨t, hbuild, hwt, hLt, hWt, hmem⟩ := buildTree_spec W L hW (by omega) xs hxs
  obtain ⟨e, hLe⟩ : ∃ e, L = e + 2 := ⟨L - 2, by omega⟩
  have hroot : WFNode W L L t.base_bitmap 0 := by
    rw [← hWt]
    rw [← hLt]
    exact hwt.2
  have hsp : 0 < W ^ (e + 1) := Nat.pos_pow_of_pos _ hWpos
  have hgs := get_spec t hwt (by omega) (by omega) x (by rw [hWt, hLt]; exact hx)
  rw [hWt, hLt] at hgs
  have harith : L - 1 = e + 1 := by omega
  rw [harith] at hgs ⊢
  have hxdW : x / W ^ (e + 1) < W := by
    apply digit_lt W (e + 2) x hWpos (by omega)
    rw [← hLe]
    exact hx
  have hlen : t.base_bitmap.children.length = W := hroot.children_length
  refine ⟨t, hbuild, ?_, ?_⟩
  · rintro ⟨s, hsxs, hsdig⟩
    have hsm : treeMem t s = true := by
      rw [hmem]
      simpa using hsxs
    have hsm' : subMem W L t.base_bitmap s = true := by
      rw [show subMem W L t.base_bitmap s = treeMem t s from by rw [← hWt, ← hLt]; rfl]
      exact hsm
    rw [hLe] at hsm'
    rw [subMem] at hsm'
    rcases hcs : t.base_bitmap.children[s / W ^ (e + 1)]? with _ | c
    · rw [hcs] at hsm'
      exact absurd hsm' (by simp)
    rcases c with _ | c
    · rw [hcs] at hsm'
      exact absurd hsm' (by simp)
    rw [hsdig] at hcs
    have := hgs.2 c hcs
    rw [this, hmem x]
    by_cases hxin : x ∈ xs <;> simp [hxin]
  · intro hnone
    rcases hcs : t.base_bitmap.children[x / W ^ (e + 1)]? with _ | c
    · exact absurd (List.getElem?_eq_none_iff.mp hcs) (by omega)
    rcases c with _ | c
    · exact hgs.1 hcs
    · -- a present child would hold a member sharing the leading digit
      exfalso
      have hrootL : WFNode W L (e + 2) t.base_bitmap 0 := by
        rw [← hLe]
        exact hroot
      obtain ⟨hcwf, _, hcne⟩ := (hrootL.interior (x / W ^ (e + 1)) hxdW).2 c hcs
      obtain ⟨r, hrlt, hrm⟩ := exists_subMem_of_ne W L hWpos (e + 1) c _ hcwf hcne
      have hdiv : (x / W ^ (e + 1) * W ^ (e + 1) + r) / W ^ (e + 1) = x / W ^ (e + 1) :=
        mul_add_div_self _ _ _ hsp hrlt
      have hmod : (x / W ^ (e + 1) * W ^ (e + 1) + r) % W ^ (e + 1) = r :=
        mul_add_mod_self _ _ _ hrlt
      have hsmem : subMem W (e + 2) t.base_bitmap
          (x / W ^ (e + 1) * W ^ (e + 1) + r) = true := by
        rw [subMem, hdiv, hcs, hmod]
        exact hrm
      have hsx : treeMem t (x / W ^ (e + 1) * W ^ (e + 1) + r) = true := by
        rw [show treeMem t (x / W ^ (e + 1) * W ^ (e + 1) + r) =
          subMem W L t.base_bitmap (x / W ^ (e + 1) * W ^ (e + 1) + r) from by
            rw [← hWt, ← hLt]; rfl]
        rw [hLe]
        exact hsmem
      rw [hmem] at hsx
      have hin : (x / W ^ (e + 1) * W ^ (e + 1) + r) ∈ xs := by simpa using hsx
      exact hnone _ hin hdiv

/-- Witness for C4 at `W = 32`, `L = 5`, `S = {3}`, `x = 4`. -/
theorem C4_membership_witness :
    ∃ t, buildTree 5 32 [3] = .ok t ∧
      ((∃ s, s ∈ ([3] : List Nat) ∧ s / 32 ^ (5 - 1) = 4 / 32 ^ (5 - 1)) →
        t.get ((4 : Nat) : Int) = .ok (if 4 ∈ ([3] : List Nat) then 1 else 0)) ∧
      ((∀ s, s ∈ ([3] : List Nat) → s / 32 ^ (5 - 1) ≠ 4 / 32 ^ (5 - 1)) →
        t.get ((4 : Nat) : Int) = .error (.valueError "The whole bitmap is empty.")) :=
  C4_get_membership 32 5 (Or.inl rfl) (by decide) [3] (by decide) 4 (by decide)

/-- Counterexample to C4 as claimed: on the empty tree the root's child on
the digit path of 0 is absent, and `get(0)` raises instead of returning 0. -/
theorem C4_cex_root_child_raises :
    (buildTree 5 32 [] >>= fun t => t.get 0) =
      .error (.valueError "The whole bitmap is empty.") := rfl

/-- Claim C10 (confirmed): the five queries are pure — the tree emerging from
each call is the tree passed in, every node with its word, children, parent
index, layer and lower bound unchanged. -/
theorem C10_queries_pure (t : LayeredBitmap) (pos : Int) :
    (t.get_call pos).1 = t ∧ (t.find_next_call pos).1 = t ∧
      (t.find_previous_call pos).1 = t ∧ (t.traverse_forward_call pos).1 = t ∧
      (t.traverse_backward_call pos).1 = t :=
  ⟨rfl, rfl, rfl, rfl, rfl⟩
